import Mathlib

/-!
Benthos: field interpolation, Bloblang query parsing and the output batcher.

A shallow embedding of

* `lib/bloblang/x/field/parser.go` and `resolver.go`,
* `lib/bloblang/x/query/expression_parser.go` and `function_parser.go`,
* `lib/output/batcher.go`,

together with the properties of these functions that the specification states.

Conventions.  A Go `[]rune` and a Go `string` holding valid text are both a
`List Char`.  A Go `interface{}` holding a Bloblang value is a `query.Value`.
A Go `error` produced by the parsers is a `parser.Err`.
-/

namespace Benthos

/-- A Go `rune`. -/
abbrev Rune := Char

/-- A Go `[]rune`; also used for Go strings holding valid text. -/
abbrev Runes := List Rune

/-! Values and query functions (`lib/bloblang/x/query`). -/

namespace query

/-- The dynamic values a Bloblang function yields (a Go `interface{}`).  A `float64` is kept
as its IEEE-754 bit pattern. -/
inductive Value where
  | null
  | bool (b : Bool)
  | int64 (n : Int)
  | float64 (bits : Nat)
  | string (s : Runes)
  | array (xs : List Value)
  | object (kvs : List (Runes × Value))

/-- How an evaluation can fail: a returned `error`, or a Go run-time panic. -/
inductive Failure where
  | error (msg : Runes)
  | panic
  deriving DecidableEq

/-- The struct `query.FunctionContext`; `M` is the message type, `Value` the optional
pointer to the context value. -/
structure FunctionContext (M : Type) where
  Index : Int
  Msg : M
  Value : Option Value
  Legacy : Bool

/-- The interface `query.Function`, by its implementations that the parsers distinguish:
the struct `literal` (a constant) and every other implementation, given by its `Exec`. -/
inductive Function (M : Type) where
  | literal (Value : Value)
  | closureFn (f : FunctionContext M → Except Failure Value)
  | notMethod (fn : Function M)

/-- The struct `matchCase`. -/
structure matchCase (M : Type) where
  caseFn : Function M
  queryFn : Function M

/-- Whether a `float64` bit pattern is a NaN. -/
def float64IsNaN (bits : Nat) : Bool :=
  (bits / 2 ^ 52) % 2 ^ 11 == 2047 && bits % 2 ^ 52 != 0

/-- The Go operator `==` on two `float64` values: a NaN equals nothing, both zeroes are
equal, any other two values are equal when their bits are. -/
def float64Eq (a b : Nat) : Bool :=
  !float64IsNaN a && !float64IsNaN b && (a == b || (a % 2 ^ 63 == 0 && b % 2 ^ 63 == 0))

/-- The Go operator `==` on two `interface{}` values: they are equal when they have the same
dynamic type and equal values; comparing two values of the same uncomparable type (a slice
or a map) panics. -/
def goEq : Value → Value → Except Failure Bool
  | .null, .null => .ok true
  | .bool a, .bool b => .ok (a == b)
  | .int64 a, .int64 b => .ok (a == b)
  | .float64 a, .float64 b => .ok (float64Eq a b)
  | .string a, .string b => .ok (a == b)
  | .array _, .array _ => .error .panic
  | .object _, .object _ => .error .panic
  | _, _ => .ok false

/-- Modelled from the spec: the method `Exec` of a `Function`.  A literal yields its value, a
closure is called, and `notMethod` negates a boolean result. -/
def Function.Exec : Function M → FunctionContext M → Except Failure Value
  | .literal v, _ => .ok v
  | .closureFn f, ctx => f ctx
  | .notMethod fn, ctx =>
    match fn.Exec ctx with
    | .ok (.bool b) => .ok (.bool !b)
    | .ok _ => .error (.error "expected bool".toList)
    | .error e => .error e

/-- Modelled from the spec: `literalFunction` is not among the sources.  It is the constant
function of a value. -/
def literalFunction (v : Value) : Function M := .literal v

/-- The nil `Function`, the zero value of the interface: calling its `Exec` is a nil
dereference, a run-time panic. -/
def nilFunction : Function M := .closureFn fun _ => .error .panic

/-- The loop over the cases that `matchFunction` runs, see there. -/
def matchFunction.run (ctx : FunctionContext M) : List (matchCase M) → Except Failure Value
  | [] => .ok .null
  | c :: cases =>
    match c.caseFn.Exec ctx with
    | .error e => .error e
    | .ok (.bool true) => c.queryFn.Exec ctx
    | .ok _ => run ctx cases

/-- Modelled from the spec: `matchFunction` is not among the sources.  The context function
is evaluated and its value becomes the context value; the cases are then evaluated top to
bottom, the first case whose predicate yields `true` gives the result, and `null` is the
result when no case matches. -/
def matchFunction (contextFn : Function M) (cases : List (matchCase M)) : Function M :=
  .closureFn fun ctx =>
    match contextFn.Exec ctx with
    | .error e => .error e
    | .ok v => matchFunction.run { ctx with Value := some v } cases

end query

namespace field

/-- The interface `resolver`, by its two implementations `staticResolver` and
`queryResolver`. -/
inductive resolver (M : Type) where
  | staticResolver (s : Runes)
  | queryResolver (fn : query.Function M)

end field

/-! Parser results and combinators (`lib/bloblang/x/parser`). -/

namespace parser

/-- The errors the parsers return.  `expected` is `ExpectedError`, `positional` is
`PositionalError`; `scrapped e` is the value `fmt.Errorf("%v", e.Error())` and
`unexpectedContents r` is
`fmt.Errorf("unexpected contents at end of expression: %v", string(r))`; `failedToParse e` is
`fmt.Errorf("failed to parse expression: %v", e)`.  `panic` stands for a Go run-time panic
(a failed type assertion), which no parser recovers from.  `required` is the hard error that
`MustBe` makes of an `ExpectedError`. -/
inductive Err where
  | expected (names : List String)
  | required (names : List String)
  | positional (Position : Int) (Err : Err)
  | scrapped (err : Err)
  | unexpectedContents (rest : Runes)
  | failedToParse (err : Err)
  | other (text : Runes)
  | panic
  deriving DecidableEq

/-- The payload of a parser result (a Go `interface{}`), by dynamic type; `value` is a raw
literal such as a `bool` or an `int64`. -/
inductive Payload (M : Type) where
  | nil
  | string (s : Runes)
  | value (v : query.Value)
  | slice (xs : List (Payload M))
  | function (fn : query.Function M)
  | matchCase (c : query.matchCase M)
  | resolver (r : field.resolver M)

/-- The struct `parser.Result`. -/
structure Result (M : Type) where
  Payload : Payload M
  Err : Option Err
  Remaining : Runes

/-- The function type `parser.Type`. -/
abbrev Type' (M : Type) := Runes → Result M

/-- Modelled from the spec: `parser.ErrAtPosition` is not among the sources.  It wraps an error
with a position; a positional error has the offset added to its own position. -/
def ErrAtPosition (i : Int) : Err → Err
  | .positional p e => .positional (p + i) e
  | e => .positional i e

/-- The method `PositionalError.Expand`: apply `fn` to the wrapped error. -/
def Expand (fn : Err → Err) : Err → Err
  | .positional p e => .positional p (fn e)
  | e => e

/-- Modelled from the spec: whether an error is a recoverable miss (an `ExpectedError`,
possibly carrying a position) as opposed to a hard error. -/
def recoverable : Err → Bool
  | .expected _ => true
  | .positional _ e => recoverable e
  | _ => false

/-- Modelled from the spec: `parser.Char` is not among the sources.  It parses one given
rune and yields it as a string; on any other input it is a recoverable miss that consumes
nothing. -/
def Char (c : Rune) : Type' M := fun input =>
  match input with
  | [] => ⟨.nil, some (.expected [String.singleton c]), input⟩
  | d :: rest =>
    if d = c then ⟨.string [c], none, rest⟩
    else ⟨.nil, some (.expected [String.singleton c]), input⟩

/-- Modelled from the spec: `parser.NotChar` is not among the sources.  It parses the longest
non-empty run of runes other than the given one and yields it as a string. -/
def NotChar (c : Rune) : Type' M := fun input =>
  match input.takeWhile (fun d => d != c) with
  | [] => ⟨.nil, some (.expected ["not " ++ String.singleton c]), input⟩
  | run => ⟨.string run, none, input.dropWhile (fun d => d != c)⟩

/-- Modelled from the spec: `parser.OneOf` (the combinator `alt`) is not among the sources.
The parsers are tried in order on the same input; the first success is returned, a
recoverable miss moves on to the next parser, and a hard error is returned at once.  When
every parser misses, the expected alternatives are collected and nothing is consumed. -/
def OneOf (parsers : List (Type' M)) : Type' M := fun input =>
  let rec go (ps : List (Type' M)) (acc : List String) : Result M :=
    match ps with
    | [] => ⟨.nil, some (.expected acc), input⟩
    | p :: rest =>
      let res := p input
      match res.Err with
      | none => res
      | some e =>
        if recoverable e then
          go rest (acc ++ (match e with | .expected names => names | _ => []))
        else res
  go parsers []

/-- Modelled from the spec: `parser.Term` is not among the sources.  It parses one given
string. -/
def Term (str : Runes) : Type' M := fun input =>
  if str <+: input then ⟨.string str, none, input.drop str.length⟩
  else ⟨.nil, some (.expected [String.mk str]), input⟩

/-- Modelled from the spec: `parser.SpacesAndTabs` is not among the sources.  It parses the
longest non-empty run of spaces and tabs. -/
def SpacesAndTabs : Type' M := fun input =>
  match input.takeWhile (fun d => d == ' ' || d == '\t') with
  | [] => ⟨.nil, some (.expected ["whitespace"]), input⟩
  | run => ⟨.string run, none, input.dropWhile (fun d => d == ' ' || d == '\t')⟩

/-- Modelled from the spec: `parser.Optional` (the combinator `optional`) is not among the
sources.  A recoverable miss of the parser becomes a success that consumes nothing and has no
payload. -/
def Optional (p : Type' M) : Type' M := fun input =>
  let res := p input
  match res.Err with
  | none => res
  | some e => if recoverable e then ⟨.nil, none, input⟩ else res

/-- The names of a recoverable miss replaced, its position kept. -/
def Err.rename (names : List String) : Err → Err
  | .expected _ => .expected names
  | .positional p e => .positional p (rename names e)
  | e => e

/-- Modelled from the spec: `parser.Expect` (the combinator `expect`) is not among the
sources.  A recoverable miss of the parser is reported under the given names. -/
def Expect (p : Type' M) (names : List String) : Type' M := fun input =>
  let res := p input
  match res.Err with
  | none => res
  | some e => { res with Err := some (e.rename names) }

/-- Modelled from the spec: `parser.Sequence` (the combinator `seq`) is not among the
sources.  The parsers run one after the other, each on what the one before left; the payload
is the slice of their payloads.  When one fails, its error is returned at its offset in the
input and nothing is consumed. -/
def Sequence (parsers : List (Type' M)) : Type' M := fun input =>
  let rec go (ps : List (Type' M)) (remaining : Runes) (results : List (Payload M)) :
      Result M :=
    match ps with
    | [] => ⟨.slice results, none, remaining⟩
    | p :: rest =>
      let res := p remaining
      match res.Err with
      | some e =>
        ⟨.nil, some (ErrAtPosition ((input.length : Int) - res.Remaining.length) e), input⟩
      | none => go rest res.Remaining (results ++ [res.Payload])
  go parsers input []

/-- The recoverable miss inside an error made a hard one, its position kept. -/
def Err.promote : Err → Err
  | .expected names => .required names
  | .positional p e => .positional p (promote e)
  | e => e

/-- Modelled from the spec: `parser.MustBe` (the combinator `must_be`) is not among the
sources.  A recoverable miss of the parser is promoted into a hard error at the same
position. -/
def MustBe (p : Type' M) : Type' M := fun input =>
  let res := p input
  match res.Err with
  | none => res
  | some e => { res with Err := some e.promote }

/-- Modelled from the spec: `parser.Discard` (the combinator `discard`) is not among the
sources.  The parser is run and only what it leaves is returned: no payload and no error. -/
def Discard (p : Type' M) : Type' M := fun input =>
  ⟨.nil, none, (p input).Remaining⟩

/-- Modelled from the spec: `parser.NewlineAllowComment` is not among the sources.  It parses
a line break, or a comment from `#` to the end of the line with its line break. -/
def NewlineAllowComment : Type' M := fun input =>
  match input with
  | '\n' :: rest => ⟨.string ['\n'], none, rest⟩
  | '\r' :: '\n' :: rest => ⟨.string ['\r', '\n'], none, rest⟩
  | '#' :: rest =>
    match rest.dropWhile (fun d => d != '\n') with
    | '\n' :: after => ⟨.string ('#' :: rest.takeWhile (fun d => d != '\n') ++ ['\n']), none, after⟩
    | _ => ⟨.nil, some (.expected ["line break"]), input⟩
  | _ => ⟨.nil, some (.expected ["line break"]), input⟩

end parser

/-! Field interpolation (`lib/bloblang/x/field`). -/

namespace field

open parser

/-- The least index `i` with `p input[i]`, as an upward scanning `for` loop finds it. -/
def firstIdx (p : Rune → Bool) : Runes → Option Nat
  | [] => none
  | c :: cs => if p c then some 0 else (firstIdx p cs).map (· + 1)

/-- The least index `i` with `i + 1 < len` and `p input[i] input[i+1]`. -/
def firstPairIdx (p : Rune → Rune → Bool) : Runes → Option Nat
  | c :: d :: cs => if p c d then some 0 else (firstPairIdx p (d :: cs)).map (· + 1)
  | _ => none

/-- The function `intoStaticResolver`. -/
def intoStaticResolver (p : Type' M) : Type' M := fun input =>
  let res := p input
  match res.Payload with
  | .string str => { res with Payload := .resolver (.staticResolver str) }
  | _ => res

/-- The function `aFunction`; `ParseDeprecated` is `query.ParseDeprecated`.  The loop
`for i := 3; i < len(input); i++` is the scan of `input[3:]` for the first closing brace. -/
def aFunction (ParseDeprecated : Type' M) : Type' M := fun input =>
  if input.length < 3 ∨ input.take 3 ≠ ['$', '{', '!'] then
    ⟨.nil, some (.expected ["$\x7b!"]), input⟩
  else
    match firstIdx (fun c => c == '}') (input.drop 3) with
    | some j =>
      let i := 3 + j
      let res := ParseDeprecated ((input.drop 3).take j)
      match res.Err with
      | none =>
        if res.Remaining.length > 0 then
          ⟨.nil, some (ErrAtPosition ((i : Int) - res.Remaining.length)
            (.unexpectedContents res.Remaining)), input⟩
        else
          match res.Payload with
          | .function fn => ⟨.resolver (.queryResolver fn), none, input.drop (i + 1)⟩
          | _ => ⟨.nil, some .panic, input⟩
      | some e =>
        { res with Err := some (Expand .scrapped (ErrAtPosition 3 e)), Remaining := input }
    | none => ⟨.resolver (.staticResolver input), none, []⟩

/-- The function `escapedBlock`.  The loop `for i := 4; i < len(input)-1; i++` is the scan
of `input[4:]` for the first pair of closing braces. -/
def escapedBlock : Type' M := fun input =>
  if input.length < 4 ∨ input.take 4 ≠ ['$', '{', '{', '!'] then
    ⟨.nil, some (.expected ["$\x7b\x7b!"]), input⟩
  else
    match firstPairIdx (fun c d => c == '}' && d == '}') (input.drop 4) with
    | some j =>
      ⟨.resolver (.staticResolver (['$', '{', '!'] ++ (input.drop 4).take j ++ ['}'])), none,
        input.drop (4 + j + 2)⟩
    | none => ⟨.resolver (.staticResolver input), none, []⟩

/-- The parser `p` that `parse` builds with `parser.OneOf`. -/
def block (ParseDeprecated : Type' M) : Type' M :=
  OneOf [escapedBlock, aFunction ParseDeprecated,
    intoStaticResolver (Char '$'), intoStaticResolver (NotChar '$')]

/-- The loop of `parse`: `remaining`, the offset `i` and the resolvers so far are the loop
variables.  One unit of fuel is spent per iteration; on failure the offset `i` that the
source hands to `ErrAtPosition` is returned next to the error of the failing block. -/
def parseLoop (ParseDeprecated : Type' M) :
    Nat → Runes → Int → List (resolver M) → Option (Except (Int × Err) (List (resolver M)))
  | _, [], _, resolvers => some (.ok resolvers)
  | 0, _ :: _, _, _ => none
  | fuel + 1, c :: cs, i, resolvers =>
    let remaining := c :: cs
    let res := block ParseDeprecated remaining
    match res.Err with
    | some e => some (.error (i, e))
    | none =>
      match res.Payload with
      | .resolver r =>
        parseLoop ParseDeprecated fuel res.Remaining
          ((remaining.length : Int) - res.Remaining.length) (resolvers ++ [r])
      | _ => some (.error (i, .panic))

/-- The function `parse` from its loop on: `expr` is the rune slice `remaining` that the
conversion `[]rune(expr)` makes of the template (`parseString` is `parse` on the Go string
itself); an expression is the list of its resolvers.  The fuel given to the loop is the
length of the input, one unit per rune. -/
def parse (ParseDeprecated : Type' M) (expr : Runes) :
    Option (Except Err (List (resolver M))) :=
  (parseLoop ParseDeprecated expr.length expr 0 []).map fun r =>
    match r with
    | .ok resolvers => .ok resolvers
    | .error (i, e) => .error (.failedToParse (ErrAtPosition i e))

/-- The method `ResolveString` of both resolvers; `ExecToString` is `query.ExecToString`. -/
def resolver.ResolveString (ExecToString : query.Function M → query.FunctionContext M → Runes)
    (r : resolver M) (index : Int) (msg : M) (escaped legacy : Bool) : Runes :=
  match r, escaped with
  | .staticResolver s, _ => s
  | .queryResolver fn, _ => ExecToString fn ⟨index, msg, none, legacy⟩

end field

/-! The query parsers (`lib/bloblang/x/query`). -/

namespace query

open parser

/-- The parser `p` that `matchCaseParser` builds; `Parse` is `query.Parse`. -/
def matchCaseParser.p (Parse : Type' M) : Type' M :=
  Sequence [
    OneOf [
      Sequence [Expect (parser.Char '_') ["match-case"], Optional SpacesAndTabs,
        Term ['=', '>']],
      Sequence [Expect Parse ["match-case"], Optional SpacesAndTabs, Term ['=', '>']]],
    Optional SpacesAndTabs,
    Parse]

/-- The closure `matchCaseParser` builds for a literal pattern: `false` without a context
value, else the Go comparison `*ctx.Value == lit.Value`. -/
def matchCaseParser.literalCase (lit : Value) : Function M :=
  .closureFn fun ctx =>
    match ctx.Value with
    | none => .ok (.bool false)
    | some v => (goEq v lit).map .bool

/-- The type switch of `matchCaseParser` on the first element of the case pattern: a literal
is compared with the context value by `==`, any other function is the predicate itself, and
the string of the default pattern gives the constant `true`.  The switch has no default
case: any other payload leaves `caseFn` the nil `Function`. -/
def matchCaseParser.caseFn : Payload M → Function M
  | .function (.literal lit) => matchCaseParser.literalCase lit
  | .function t => t
  | .string _ => literalFunction (.bool true)
  | _ => nilFunction

/-- The function `matchCaseParser`; `Parse` is `query.Parse`.  A payload of another shape
than the sequence yields, where the source asserts its type, is the panic of that
assertion. -/
def matchCaseParser (Parse : Type' M) : Type' M := fun input =>
  let res := matchCaseParser.p Parse input
  match res.Err with
  | some _ => res
  | none =>
    match res.Payload with
    | .slice [.slice (t :: _), _, .function queryFn] =>
      ⟨.matchCase ⟨matchCaseParser.caseFn t, queryFn⟩, none, res.Remaining⟩
    | _ => ⟨.nil, some .panic, res.Remaining⟩

/-- The loop `for _, caseVal := range seqSlice[4]` of `matchExpressionParser`: the payloads
are asserted to be match cases and appended in order. -/
def matchExpressionParser.cases : List (Payload M) → Option (List (matchCase M))
  | [] => some []
  | .matchCase c :: rest => (cases rest).map (c :: ·)
  | _ => none

/-- The context function `matchExpressionParser` uses: the parsed one or, when none was
written, the function yielding the current context value (nil when there is none). -/
def matchExpressionParser.contextFn : Payload M → Function M
  | .function fn => fn
  | _ => .closureFn fun ctx =>
    match ctx.Value with
    | some v => .ok v
    | none => .ok .null

/-- The function `matchExpressionParser`.  The combinators `DelimitedPattern`, `MustBe`,
`Discard` and `DiscardAll` are not among the sources, so the sequence parser the source
builds from them is the parameter `seq`; what the source does with its result is below. -/
def matchExpressionParser (seq : Type' M) : Type' M := fun input =>
  let res := seq input
  match res.Err with
  | some _ => res
  | none =>
    match res.Payload with
    | .slice [_, _, c, _, .slice caseVals] =>
      match matchExpressionParser.cases caseVals with
      | some cases =>
        { res with Payload := .function (matchFunction (matchExpressionParser.contextFn c) cases) }
      | none => ⟨.nil, some .panic, res.Remaining⟩
    | _ => ⟨.nil, some .panic, res.Remaining⟩

/-- The loop of `parseDeprecatedFunction`: `i` runs over every index of the input and each
colon met assigns both variables again. -/
def parseDeprecatedFunction.split (input : Runes) : Runes × Runes :=
  (List.range input.length).foldl
    (fun acc i => if input[i]? = some ':' then (input.take i, input.drop (i + 1)) else acc)
    ([], [])

/-- The function `parseDeprecatedFunction`.  The table `deprecatedFunctions` and the function
`wrapDeprecatedFunction` are not among the sources and are parameters. -/
def parseDeprecatedFunction (deprecatedFunctions : Runes → Option (Runes → Function M))
    (wrapDeprecatedFunction : Function M → Function M) : Type' M := fun input =>
  let (targetFunc, arg) := parseDeprecatedFunction.split input
  let targetFunc := if targetFunc.length = 0 then input else targetFunc
  match deprecatedFunctions targetFunc with
  | none => ⟨.nil, some (.expected []), input⟩
  | some ftor => ⟨.function (wrapDeprecatedFunction (ftor arg)), none, []⟩

end query

/-! The output batcher (`lib/output/batcher.go`). -/

namespace output

/-- Modelled from the spec: a message part, bytes and metadata (`types.Part` is not among the
sources). -/
structure Part where
  data : List Nat
  metadata : List (Runes × Runes)
  deriving DecidableEq

/-- A message (batch): an ordered sequence of parts. -/
abbrev Message := List Part

/-- Modelled from the spec: a response is an ack, a nack carrying an error, or the skip-ack
sentinel (`types.Response` is not among the sources). -/
inductive Response where
  | ack
  | error (err : Runes)
  | unack
  deriving DecidableEq

/-- The struct `types.Transaction`; a response channel is named by a number. -/
structure Transaction where
  Payload : Message
  ResponseChan : Nat
  deriving DecidableEq

/-- Modelled from the spec: `batch.Policy` is not among the sources.  It is configured by a
count, a byte size, a condition, a period and an ordered list of post-processors, and holds
the parts added since the last flush.  `processors` is what the post-processors make of a
fired batch: the batches they return, none when they drop it; a policy without
post-processors returns the batch itself. -/
structure Policy where
  count : Nat
  byteSize : Nat
  check : Part → Bool
  period : Bool
  processors : Message → List Message
  parts : List Part

/-- Modelled from the spec: `Policy.Add` appends the part and reports whether a trigger
fires: the count reached, the byte size reached, the condition matching the added part, or
the period being overdue (`overdue`, the answer of the clock). -/
def Policy.Add (p : Policy) (overdue : Bool) (part : Part) : Policy × Bool :=
  let parts := p.parts ++ [part]
  ({ p with parts := parts },
    (decide (0 < p.count) && decide (p.count ≤ parts.length)) ||
    (decide (0 < p.byteSize) && decide (p.byteSize ≤ (parts.map (·.data.length)).sum)) ||
    p.check part || (p.period && overdue))

/-- Modelled from the spec: the single merged batch that `Flush` makes of the batches the
post-processors returned (the multi-batch form of `FlushAny`); nil when they returned none. -/
def Policy.merge : List Message → Option Message
  | [] => none
  | msg :: msgs => some (msg :: msgs).flatten

/-- Modelled from the spec: `Policy.Flush` empties the policy, runs the post-processors on
the accumulated parts and returns their output as one merged batch; it returns nil when the
policy is empty, and when the post-processors return no batch. -/
def Policy.Flush (p : Policy) : Policy × Option Message :=
  match p.parts with
  | [] => (p, none)
  | part :: parts => ({ p with parts := [] }, Policy.merge (p.processors (part :: parts)))

/-- Where the goroutine `loop` stands: at the loop condition, at the main `select`, at the
`select` that offers a flushed batch downstream, or returned. -/
inductive Pc where
  | head
  | select
  | send (sendMsg : Message)
  | exited
  deriving DecidableEq

/-- A record of one downstream send: the batch, the `upstreamResChans` handed to the
forwarding goroutine, and (history) the transactions consumed since the send before and,
among them, the transactions whose parts the policy held when it was flushed for this
batch. -/
structure Sent where
  msg : Message
  upstreamResChans : List Nat
  txs : List Transaction
  flushed : List Transaction
  deriving DecidableEq

/-- The state of a `Batcher` and of its `loop`.  `closeChan` and `fullyCloseChan` tell whether
the channel is closed, `nextTimedBatchChan` whether the timer channel is non-nil.  The other
fields are history variables: `sent` the downstream sends so far, `sinceSend` the
transactions consumed since the last send, `sinceFlush` the transactions consumed since the
policy was last flushed, `flushed` the transactions whose parts the last flush took, and
`received` all transactions consumed. -/
structure Batcher where
  batcher : Policy
  running : Bool
  closeChan : Bool
  fullyCloseChan : Bool
  nextTimedBatchChan : Bool
  pendingResChans : List Nat
  pc : Pc
  sent : List Sent
  sinceSend : List Transaction
  sinceFlush : List Transaction
  flushed : List Transaction
  received : List Transaction

/-- The state `NewBatcher` builds, at the first check of the loop condition; `tNext` tells
whether `UntilNext()` was non-negative before the loop. -/
def NewBatcher (batcher : Policy) (tNext : Bool) : Batcher :=
  { batcher := { batcher with parts := [] }, running := true, closeChan := false,
    fullyCloseChan := false, nextTimedBatchChan := batcher.period && tNext,
    pendingResChans := [], pc := .head, sent := [], sinceSend := [], sinceFlush := [],
    flushed := [], received := [] }

/-- The choice of the inner `select`, taken when the input closed while a timed batch is
awaited. -/
inductive Inner where
  | timer
  | closeChan
  deriving DecidableEq

/-- What can happen next: a call of `CloseAsync`, the closing of `fullyCloseChan` by
`WaitForClose`, or a step of `loop` (the loop condition, a case of the main `select`, a case
of the sending `select`). -/
inductive Event where
  | CloseAsync
  | fullyClose
  | head (tNext : Bool)
  | recv (tran : Transaction) (overdue : Bool)
  | inputClosed (inner : Option Inner)
  | timer
  | closeChan
  | delivered
  | fullyClosed
  deriving DecidableEq

/-- The callback of `tran.Payload.Iter`: every part is added, `flushBatch` is set when an
`Add` reports a trigger. -/
def addAll (p : Policy) (overdue : Bool) (parts : List Part) : Policy × Bool :=
  parts.foldl (fun acc part => ((acc.1.Add overdue part).1, acc.2 || (acc.1.Add overdue part).2))
    (p, false)

/-- The rest of an iteration after the main `select`: nothing without `flushBatch`, nothing
when the flush is nil, else on to the send. -/
def afterSelect (m : Batcher) (flushBatch : Bool) : Batcher :=
  if !flushBatch then { m with pc := .head }
  else
    match m.batcher.Flush with
    | (batcher, none) => { m with batcher := batcher, sinceFlush := [], pc := .head }
    | (batcher, some sendMsg) =>
      { m with batcher := batcher, flushed := m.sinceFlush, sinceFlush := [],
               pc := .send sendMsg }

/-- One step of the system; `none` when the event cannot happen in the state. -/
def step (m : Batcher) : Event → Option Batcher
  | .CloseAsync =>
    if m.running then some { m with running := false, closeChan := true } else some m
  | .fullyClose =>
    if m.running then none else some { m with fullyCloseChan := true }
  | .head tNext =>
    match m.pc with
    | .head =>
      if m.running then
        some { m with nextTimedBatchChan := m.nextTimedBatchChan || (m.batcher.period && tNext),
                      pc := .select }
      else some { m with pc := .exited }
    | _ => none
  | .recv tran overdue =>
    match m.pc with
    | .select =>
      let r := addAll m.batcher overdue tran.Payload
      some (afterSelect { m with batcher := r.1,
                                 pendingResChans := m.pendingResChans ++ [tran.ResponseChan],
                                 sinceSend := m.sinceSend ++ [tran],
                                 sinceFlush := m.sinceFlush ++ [tran],
                                 received := m.received ++ [tran] } r.2)
    | _ => none
  | .inputClosed inner =>
    match m.pc with
    | .select =>
      if m.nextTimedBatchChan then
        match inner with
        | some .timer => some (afterSelect { m with running := false } true)
        | some .closeChan =>
          if m.closeChan then some { m with running := false, pc := .exited } else none
        | none => none
      else
        match inner with
        | none => some (afterSelect { m with running := false } true)
        | some _ => none
    | _ => none
  | .timer =>
    match m.pc with
    | .select =>
      if m.nextTimedBatchChan then some (afterSelect { m with nextTimedBatchChan := false } true)
      else none
    | _ => none
  | .closeChan =>
    match m.pc with
    | .select =>
      if m.closeChan then some (afterSelect { m with running := false } true) else none
    | _ => none
  | .delivered =>
    match m.pc with
    | .send sendMsg =>
      some { m with sent := m.sent ++ [⟨sendMsg, m.pendingResChans, m.sinceSend, m.flushed⟩],
                    pendingResChans := [], sinceSend := [], flushed := [], pc := .head }
    | _ => none
  | .fullyClosed =>
    match m.pc with
    | .send _ => if m.fullyCloseChan then some { m with pc := .exited } else none
    | _ => none

/-- A run: the events happen one after the other. -/
def run (m : Batcher) : List Event → Option Batcher
  | [] => some m
  | e :: es => (step m e).bind fun m' => run m' es

/-- The goroutine started after a send.  `res` is what arrives on `rChan` (`none` when it is
closed); `stop` is the number of upstream sends done when `fullyCloseChan` closes (`none` when
it never does).  The result is the list of sends made, in order. -/
def forward (stop : Option Nat) (res : Option Response) (upstreamResChans : List Nat) :
    List (Nat × Response) :=
  match res with
  | none => []
  | some r =>
    match stop with
    | none => upstreamResChans.map fun c => (c, r)
    | some k => (upstreamResChans.take k).map fun c => (c, r)

/-- The invariant of the loop, for a Batcher built on the policy `batcher`.  The pending
response channels are those of the transactions consumed since the last send, in order; the
sends partition the consumed transactions; every send so far was handed exactly the response
channels of the transactions consumed since the send before, and its batch is what the
post-processors made of the parts of the last of these transactions, those consumed since
the flush before; the parts the policy holds are the parts of the transactions consumed
since the last flush.  When the post-processors never drop a batch, the parts flushed for a
send are the parts of all transactions consumed since the send before. -/
structure Inv (batcher : Policy) (m : Batcher) : Prop where
  processors : m.batcher.processors = batcher.processors
  pending : m.pendingResChans = m.sinceSend.map (·.ResponseChan)
  received : m.received = (m.sent.map (·.txs)).flatten ++ m.sinceSend
  sent : ∀ e ∈ m.sent, e.upstreamResChans = e.txs.map (·.ResponseChan) ∧
    e.flushed <:+ e.txs ∧
    Policy.merge (batcher.processors (e.flushed.map (·.Payload)).flatten) = some e.msg ∧
    ((∀ parts, parts ≠ [] → batcher.processors parts ≠ []) →
      (e.flushed.map (·.Payload)).flatten = (e.txs.map (·.Payload)).flatten)
  suffix : m.sinceFlush <:+ m.sinceSend
  kept : (∀ parts, parts ≠ [] → batcher.processors parts ≠ []) →
    match m.pc with
    | .head => (m.sinceFlush.map (·.Payload)).flatten = (m.sinceSend.map (·.Payload)).flatten
    | .select => (m.sinceFlush.map (·.Payload)).flatten = (m.sinceSend.map (·.Payload)).flatten
    | .send _ => (m.flushed.map (·.Payload)).flatten = (m.sinceSend.map (·.Payload)).flatten
    | .exited => True
  parts : match m.pc with
    | .head => m.batcher.parts = (m.sinceFlush.map (·.Payload)).flatten
    | .select => m.batcher.parts = (m.sinceFlush.map (·.Payload)).flatten
    | .send sendMsg =>
      m.batcher.parts = [] ∧ m.sinceFlush = [] ∧ m.flushed <:+ m.sinceSend ∧
        Policy.merge (batcher.processors (m.flushed.map (·.Payload)).flatten) = some sendMsg
    | .exited => True

/-- The configuration is kept by every step, and while the loop is at its condition or at
its main `select` the policy holds fewer parts than its count. -/
structure CountInv (batcher : Policy) (m : Batcher) : Prop where
  count : m.batcher.count = batcher.count
  byteSize : m.batcher.byteSize = batcher.byteSize
  check : m.batcher.check = batcher.check
  processors : m.batcher.processors = batcher.processors
  below : match m.pc with
    | .head => m.batcher.parts.length < batcher.count
    | .select => m.batcher.parts.length < batcher.count
    | .send _ => m.batcher.parts = []
    | .exited => True

/-- The errors the batcher returns: the sentinels `types.ErrAlreadyStarted` and
`types.ErrTimeout`, or any other error. -/
inductive Error where
  | ErrAlreadyStarted
  | ErrTimeout
  | other (msg : Runes)
  deriving DecidableEq

/-- The fields of a `Batcher` that `Consume` reads and writes: `messagesIn`, nil or a channel
named by a number; and, as history, how often the child's `Consume` was called and how many
`loop` goroutines were started. -/
structure Consumer where
  messagesIn : Option Nat
  childConsumes : Nat
  loops : Nat
  deriving DecidableEq

/-- The method `Batcher.Consume`; `childErr` is what `m.child.Consume(m.messagesOut)` returns
when it is called, `msgs` the channel given (nil or a channel). -/
def Consume (m : Consumer) (childErr : Option Error) (msgs : Option Nat) :
    Consumer × Option Error :=
  if m.messagesIn ≠ none then (m, some .ErrAlreadyStarted)
  else
    match childErr with
    | some err => ({ m with childConsumes := m.childConsumes + 1 }, some err)
    | none =>
      ({ messagesIn := msgs, childConsumes := m.childConsumes + 1, loops := m.loops + 1 }, none)

/-- A sequence of calls of `Consume`, each with what the child would return and the channel
given; the results are returned in order. -/
def ConsumeAll (m : Consumer) : List (Option Error × Option Nat) → Consumer × List (Option Error)
  | [] => (m, [])
  | (childErr, msgs) :: calls =>
    let r := Consume m childErr msgs
    let rs := ConsumeAll r.1 calls
    (rs.1, r.2 :: rs.2)

/-- The fields of a `Batcher` that `CloseAsync` and `WaitForClose` read and write: `running`,
whether `closeChan` and `fullyCloseChan` are closed, whether `fullyCloseOnce` has run; and, as
history, how often each channel was closed. -/
structure Closer where
  running : Bool
  closeChan : Bool
  fullyCloseChan : Bool
  fullyCloseOnce : Bool
  closeChanCloses : Nat
  fullyCloseChanCloses : Nat
  deriving DecidableEq

/-- The close fields as `NewBatcher` sets them. -/
def NewCloser : Closer :=
  { running := true, closeChan := false, fullyCloseChan := false, fullyCloseOnce := false,
    closeChanCloses := 0, fullyCloseChanCloses := 0 }

/-- The Go statement `close(ch)` on a channel that is closed or not: closing a closed channel
panics (`none`). -/
def closeChannel (closed : Bool) : Option Bool :=
  if closed then none else some true

/-- The method `Batcher.CloseAsync`: the compare-and-swap of `running` from 1 to 0 and, when
it succeeds, the closing of `closeChan`. -/
def CloseAsync (m : Closer) : Option Closer :=
  if m.running then
    (closeChannel m.closeChan).map fun c =>
      { m with running := false, closeChan := c, closeChanCloses := m.closeChanCloses + 1 }
  else some m

/-- The method `Batcher.WaitForClose`, as far as the channels go: when `running` is 0 the
function given to `fullyCloseOnce.Do` runs if it has not run before, and closes
`fullyCloseChan`. -/
def WaitForClose (m : Closer) : Option Closer :=
  if !m.running then
    if m.fullyCloseOnce then some m
    else
      (closeChannel m.fullyCloseChan).map fun c =>
        { m with fullyCloseOnce := true, fullyCloseChan := c,
                 fullyCloseChanCloses := m.fullyCloseChanCloses + 1 }
  else some m

/-- A call from outside, or the store `atomic.StoreInt32(&m.running, 0)` that `loop` does
when its input closes or the close signal arrives. -/
inductive Call where
  | CloseAsync
  | WaitForClose
  | loopStop
  deriving DecidableEq

/-- One call on the close fields. -/
def Closer.call (m : Closer) : Call → Option Closer
  | .CloseAsync => CloseAsync m
  | .WaitForClose => WaitForClose m
  | .loopStop => some { m with running := false }

/-- A sequence of calls; `none` when one of them panics. -/
def Closer.calls (m : Closer) : List Call → Option Closer
  | [] => some m
  | c :: cs => (m.call c).bind fun m' => m'.calls cs

end output

/-! The fan-out broker (`lib/broker`). -/

namespace broker

/-- Modelled from the spec: the fan-out broker, whose code `lib/broker/fan_out.go` is not
among the sources, on one upstream transaction.  In a round the batch is delivered to every
target still pending and a response is awaited from each; the targets that nacked are the
targets of the next round; when no target is pending one ack is sent upstream.  `rounds`
tells, round by round, which outputs ack; when it runs out (shutdown is requested) nothing is
sent upstream.  The result is the targets of each round performed and the responses sent
upstream. -/
def FanOut : List (Nat → Bool) → List Nat → List (List Nat) × List output.Response
  | _, [] => ([], [.ack])
  | [], _ :: _ => ([], [])
  | acks :: rounds, o :: pending =>
    ((o :: pending) :: (FanOut rounds ((o :: pending).filter fun t => !acks t)).1,
      (FanOut rounds ((o :: pending).filter fun t => !acks t)).2)

end broker

/-! The serverless handler (`lib/serverless/handler.go`). -/

namespace serverless

/-- A part of a result batch, by what its method `JSON()` returns: the parsed value or an
error. -/
abbrev Part := Except Runes query.Value

/-- The errors `Handle` returns. -/
inductive Error where
  | setJSON (err : Runes)
  | cancelled
  | response (err : Runes)
  | failedBatch (i : Nat) (err : Runes)
  deriving DecidableEq

/-- The method `Error()` of a response: the error of a nack, nil otherwise. -/
def responseError : output.Response → Option Runes
  | .error err => some err
  | _ => none

/-- The callback of `batch.Iter` in `Handle`: the JSON values of the parts in order, or the
first error. -/
def batchResults : List Part → Except Runes (List query.Value)
  | [] => .ok []
  | .error merr :: _ => .error merr
  | .ok v :: ps =>
    match batchResults ps with
    | .error merr => .error merr
    | .ok vs => .ok (v :: vs)

/-- The loop `for i, batch := range resultBatches` of `Handle`, from index `i` on. -/
def lambdaResults (i : Nat) : List (List Part) → Except Error (List (List query.Value))
  | [] => .ok []
  | batch :: batches =>
    match batchResults batch with
    | .error err => .error (.failedBatch i err)
    | .ok vs =>
      match lambdaResults (i + 1) batches with
      | .error e => .error e
      | .ok rest => .ok (vs :: rest)

/-- The method `Handler.Handle`.  `setJSONErr` is what `part.SetJSON(obj)` returns, `sent`
whether the transaction was taken before the context was done, `res` the response received
(`none` when the context was done first) and `resultBatches` what `store.Get()` returns. -/
def Handle (setJSONErr : Option Runes) (sent : Bool) (res : Option output.Response)
    (resultBatches : List (List Part)) : Except Error query.Value :=
  match setJSONErr with
  | some err => .error (.setJSON err)
  | none =>
    if !sent then .error .cancelled
    else
      match res with
      | none => .error .cancelled
      | some r =>
        match responseError r with
        | some err => .error (.response err)
        | none =>
          if resultBatches.length = 0 then
            .ok (.object [("message".toList, .string "request successful".toList)])
          else
            match lambdaResults 0 resultBatches with
            | .error e => .error e
            | .ok results =>
              match results with
              | [[v]] => .ok v
              | [b] => .ok (.array b)
              | _ => .ok (.array (results.map .array))

end serverless

/-! Escaping of resolved bytes (`lib/bloblang/x/field/resolver.go`). -/

namespace field

/-- Modelled from the Go standard library: the digit `lowerhex[n]` of package `strconv`. -/
def lowerhex (n : Nat) : Nat :=
  if n < 10 then 48 + n else 87 + n

/-- Modelled from the Go standard library: `strconv.appendEscapedRune` as `strconv.Quote`
calls it.  The quote and the backslash are backslashed, a printable rune is kept, the control
characters with a letter escape get it, any other rune gets a `\x`, `\u` or `\U` escape.
`IsPrint` decides printability of the runes from 128 on and `AppendRune` is their UTF-8
encoding. -/
def appendEscapedRune (IsPrint : Nat → Bool) (AppendRune : Nat → List Nat) (r : Nat) :
    List Nat :=
  if r = 34 ∨ r = 92 then [92, r]
  else if r < 128 ∧ 32 ≤ r ∧ r ≤ 126 then [r]
  else if 128 ≤ r ∧ IsPrint r = true then AppendRune r
  else if r = 7 then [92, 97]
  else if r = 8 then [92, 98]
  else if r = 12 then [92, 102]
  else if r = 10 then [92, 110]
  else if r = 13 then [92, 114]
  else if r = 9 then [92, 116]
  else if r = 11 then [92, 118]
  else if r < 32 ∨ r = 127 then [92, 120, lowerhex (r / 16), lowerhex (r % 16)]
  else
    let r := if r < 55296 ∨ (57344 ≤ r ∧ r ≤ 1114111) then r else 65533
    if r < 65536 then
      [92, 117, lowerhex (r / 4096 % 16), lowerhex (r / 256 % 16), lowerhex (r / 16 % 16),
        lowerhex (r % 16)]
    else
      [92, 85, lowerhex (r / 268435456 % 16), lowerhex (r / 16777216 % 16),
        lowerhex (r / 1048576 % 16), lowerhex (r / 65536 % 16), lowerhex (r / 4096 % 16),
        lowerhex (r / 256 % 16), lowerhex (r / 16 % 16), lowerhex (r % 16)]

/-- Modelled from the Go standard library: the loop of `strconv.Quote` over the bytes of its
argument, one unit of fuel per iteration.  `DecodeRune` is `utf8.DecodeRuneInString`, asked
from byte 128 on; it yields a rune and its width. -/
def quoteLoop (IsPrint : Nat → Bool) (AppendRune : Nat → List Nat)
    (DecodeRune : List Nat → Nat × Nat) : Nat → List Nat → List Nat
  | 0, _ => []
  | _ + 1, [] => []
  | fuel + 1, b :: rest =>
    let d := if 128 ≤ b then DecodeRune (b :: rest) else (b, 1)
    if d.2 = 1 ∧ d.1 = 65533 then
      [92, 120, lowerhex (b / 16), lowerhex (b % 16)] ++
        quoteLoop IsPrint AppendRune DecodeRune fuel rest
    else
      appendEscapedRune IsPrint AppendRune d.1 ++
        quoteLoop IsPrint AppendRune DecodeRune fuel ((b :: rest).drop d.2)

/-- Modelled from the Go standard library: `strconv.Quote` on the bytes of a string. -/
def Quote (IsPrint : Nat → Bool) (AppendRune : Nat → List Nat)
    (DecodeRune : List Nat → Nat × Nat) (s : List Nat) : List Nat :=
  [34] ++ quoteLoop IsPrint AppendRune DecodeRune s.length s ++ [34]

/-- The function `escapeBytes`; `Quote` is `strconv.Quote`. -/
def escapeBytes (Quote : List Nat → List Nat) (input : List Nat) : List Nat :=
  let quoted := Quote input
  if quoted.length < 3 then input
  else (quoted.drop 1).take (quoted.length - 2)

/-- The method `queryResolver.ResolveBytes`; `ExecToBytes` is `query.ExecToBytes` and `Quote`
is `strconv.Quote`. -/
def queryResolver.ResolveBytes (ExecToBytes : query.Function M → query.FunctionContext M → List Nat)
    (Quote : List Nat → List Nat) (fn : query.Function M) (index : Int) (msg : M)
    (escaped legacy : Bool) : List Nat :=
  let bs := ExecToBytes fn ⟨index, msg, none, legacy⟩
  if escaped then escapeBytes Quote bs else bs

/-- Whether a byte is a hexadecimal digit. -/
def isHexDigit (c : Nat) : Bool :=
  (48 ≤ c && c ≤ 57) || (65 ≤ c && c ≤ 70) || (97 ≤ c && c ≤ 102)

/-- Whether bytes are the inside of a JSON string literal (RFC 8259): no unescaped quote,
backslash or control character, and after a backslash one of the characters
`"`, `\`, `/`, `b`, `f`, `n`, `r`, `t`, or `u` with four hexadecimal digits. -/
def jsonStringBody : List Nat → Bool
  | [] => true
  | 92 :: 117 :: h1 :: h2 :: h3 :: h4 :: rest =>
    isHexDigit h1 && isHexDigit h2 && isHexDigit h3 && isHexDigit h4 && jsonStringBody rest
  | 92 :: c :: rest =>
    (c == 34 || c == 92 || c == 47 || c == 98 || c == 102 || c == 110 || c == 114 || c == 116)
      && jsonStringBody rest
  | c :: rest => decide (32 ≤ c) && c != 34 && c != 92 && jsonStringBody rest

end field

/-! The sample processor (`lib/processor/sample.go`). -/

namespace processor

/-- The place of a `float64` that is no NaN in the order of the reals, from its bits: the
bits themselves for a value with the sign bit clear, the negated magnitude otherwise (both
zeroes at 0). -/
def float64Key (bits : Nat) : Int :=
  if bits < 2 ^ 63 then (bits : Int) else -((bits - 2 ^ 63 : Nat) : Int)

/-- The Go operator `>` on two `float64` values given by their bits: false when either is a
NaN. -/
def float64Gt (a b : Nat) : Bool :=
  !query.float64IsNaN a && !query.float64IsNaN b && decide (float64Key b < float64Key a)

/-- The fields of `Sample` that `ProcessMessage` uses: `retain`, a `float64` by its bits, and
the generator `gen`, given by the seed of its source and the number of values drawn. -/
structure Sample where
  retain : Nat
  seed : Int
  drawn : Nat
  deriving DecidableEq

/-- The function `NewSample`; `fdiv` is the division of `float64` values and the divisor is
the `float64` 100. -/
def NewSample (fdiv : Nat → Nat → Nat) (Retain : Nat) (RandomSeed : Int) : Sample :=
  { retain := fdiv Retain 0x4059000000000000, seed := RandomSeed, drawn := 0 }

/-- The method `Sample.ProcessMessage`.  `Float64 seed k` is the value, in the interval from
0 to 1, that the `k`-th call of `Float64()` yields on `rand.New(rand.NewSource(seed))`.  The
result is the batches and the response returned, and the processor afterwards. -/
def Sample.ProcessMessage (Float64 : Int → Nat → Nat) (s : Sample) (msg : output.Message) :
    (List output.Message × Option output.Response) × Sample :=
  if float64Gt (Float64 s.seed s.drawn) s.retain then
    (([], some .ack), { s with drawn := s.drawn + 1 })
  else
    (([msg], none), { s with drawn := s.drawn + 1 })

/-- The keep or drop decisions of successive calls of `ProcessMessage`: `true` when the batch
is returned. -/
def Sample.decisions (Float64 : Int → Nat → Nat) : Sample → List output.Message → List Bool
  | _, [] => []
  | s, msg :: msgs =>
    (!(s.ProcessMessage Float64 msg).1.1.isEmpty) ::
      decisions Float64 (s.ProcessMessage Float64 msg).2 msgs

end processor

/-! The text condition (`lib/condition/text.go`). -/

namespace condition

/-- The argument of a text operator (a Go `interface{}` from the configuration): a string, a
slice, or a value of another type, named by its type. -/
inductive Arg where
  | string (s : List Nat)
  | slice (xs : List Arg)
  | other (typeName : Runes)

/-- The errors of the text condition.  `ErrInvalidTextOperator` is the sentinel of that name;
`expectedString` is `fmt.Errorf("expected string as operator argument, received: %T", arg)`;
`failedToParseSlice` is `fmt.Errorf("failed to parse argument as string slice: %v", err)`;
`regexp` is an error of `regexp.Compile`; `invalidIsArgument` is
`fmt.Errorf("invalid argument for 'is' operator: %s", str)`; `operator` is
`fmt.Errorf("operator '%v': %v", name, err)`. -/
inductive Error where
  | ErrInvalidTextOperator
  | expectedString (typeName : Runes)
  | failedToParseSlice (err : Runes)
  | regexp (err : Runes)
  | invalidIsArgument (str : List Nat)
  | operator (name : String) (err : Error)
  deriving DecidableEq

/-- The type `textOperator`: a predicate on the content bytes. -/
abbrev textOperator := List Nat → Bool

/-- The function `textRegexpExactOperator`.  `Compile` is `regexp.Compile`, yielding a
compiled expression of type `R` or an error, and `Find` is the method `Find` of a compiled
expression: the leftmost match in the content, `none` for the nil slice of no match. -/
def textRegexpExactOperator {R : Type} (Compile : List Nat → Except Runes R)
    (Find : R → List Nat → Option (List Nat)) (arg : List Nat) : Except Error textOperator :=
  match Compile arg with
  | .error err => .error (.regexp err)
  | .ok compiled => .ok fun c => ((Find compiled c).getD []).length == c.length

/-- Modelled from the documentation of `github.com/armon/go-radix`, which is not part of the
repository: a tree is the set of its keys. -/
abbrev Tree := List (List Nat)

/-- The method `Insert` of a radix tree: the key is added, or kept when present. -/
def Tree.Insert (t : Tree) (k : List Nat) : Tree :=
  if k ∈ t then t else k :: t

/-- The method `Get` of a radix tree: whether the key itself is in the tree. -/
def Tree.Get (t : Tree) (k : List Nat) : Bool :=
  decide (k ∈ t)

/-- The function `textEnumOperator`; `ToStringSliceE` is `cast.ToStringSliceE`. -/
def textEnumOperator (ToStringSliceE : Arg → Except Runes (List (List Nat))) (arg : Arg) :
    Except Error textOperator :=
  match ToStringSliceE arg with
  | .error err => .error (.failedToParseSlice err)
  | .ok entries => .ok fun c => (entries.foldl Tree.Insert []).Get c

end condition

/-! Function, method and tail parsers (`lib/bloblang/x/query/function_parser.go`). -/

namespace query

open parser

/-- The error `badFunctionErr(name)`, by the text of its method `Error`. -/
def badFunctionErr (name : Runes) : Err :=
  .other ("unrecognised function ".toList ++ [Char.ofNat 39] ++ name ++ [Char.ofNat 39])

/-- The error `badMethodErr(name)`, by the text of its method `Error`. -/
def badMethodErr (name : Runes) : Err :=
  .other ("unrecognised method ".toList ++ [Char.ofNat 39] ++ name ++ [Char.ofNat 39])

/-- The function `functionParser`.  `SnakeCase` is `parser.SnakeCase()` and `functionArgsParser`
is `functionArgsParser(true)`, whose combinators are not among the sources; `functions` is the
table of the function constructors. -/
def functionParser (SnakeCase functionArgsParser : Type' M)
    (functions : Runes → Option (List (Payload M) → Except Err (Function M))) : Type' M :=
  fun input =>
    let res := Sequence [Expect SnakeCase ["function"], functionArgsParser] input
    match res.Err with
    | some _ => res
    | none =>
      match res.Payload with
      | .slice [.string targetFunc, .slice args] =>
        match functions targetFunc with
        | none => ⟨.nil, some (badFunctionErr targetFunc), input⟩
        | some ctor =>
          match ctor args with
          | .error err => ⟨.nil, some err, input⟩
          | .ok fn => ⟨.function fn, none, res.Remaining⟩
      | _ => ⟨.nil, some .panic, res.Remaining⟩

/-- The function `methodParser`, with the parameters of `functionParser`; `methods` is the
table of the method constructors, which take the target function first. -/
def methodParser (SnakeCase functionArgsParser : Type' M)
    (methods : Runes → Option (Function M → List (Payload M) → Except Err (Function M)))
    (fn : Function M) : Type' M :=
  fun input =>
    let res := Sequence [Expect SnakeCase ["method"], functionArgsParser] input
    match res.Err with
    | some _ => res
    | none =>
      match res.Payload with
      | .slice [.string targetMethod, .slice args] =>
        match methods targetMethod with
        | none => ⟨.nil, some (badMethodErr targetMethod), input⟩
        | some mtor =>
          match mtor fn args with
          | .error err => ⟨.nil, some err, input⟩
          | .ok method => ⟨.function method, none, res.Remaining⟩
      | _ => ⟨.nil, some .panic, res.Remaining⟩

/-- The parser `delim` of `parseWithTails` and `parseLiteralWithTails`: a dot, then a line
break followed by spaces or tabs, discarded when present. -/
def delim : Type' M :=
  Sequence [parser.Char '.', Discard (Sequence [NewlineAllowComment, SpacesAndTabs])]

/-- The loop `for` of `parseWithTails`, one unit of fuel per iteration (`none` when it runs
out).  `parseFunctionTail` is the function of that name, whose helpers are not among the
sources; `fn` and `remaining` are the loop variables `fn` and `res.Remaining`. -/
def parseWithTails.loop (parseFunctionTail : Function M → Type' M) (input : Runes)
    (isNot : Bool) : Nat → Function M → Runes → Option (Result M)
  | 0, _, _ => none
  | fuel + 1, fn, remaining =>
    let res := delim (M := M) remaining
    match res.Err with
    | some _ => some ⟨.function (if isNot then .notMethod fn else fn), none, res.Remaining⟩
    | none =>
      let i : Int := (input.length : Int) - res.Remaining.length
      let res := MustBe (parseFunctionTail fn) res.Remaining
      match res.Err with
      | some e => some ⟨.nil, some (ErrAtPosition i e), res.Remaining⟩
      | none =>
        match res.Payload with
        | .function fn => loop parseFunctionTail input isNot fuel fn res.Remaining
        | _ => some ⟨.nil, some .panic, res.Remaining⟩

/-- The function `parseWithTails`, with the fuel of its loop. -/
def parseWithTails (fnParser : Type' M) (parseFunctionTail : Function M → Type' M)
    (fuel : Nat) (input : Runes) : Option (Result M) :=
  let res := Sequence [Optional (Sequence [parser.Char '!', Discard SpacesAndTabs]), fnParser]
    input
  match res.Err with
  | some _ => some res
  | none =>
    match res.Payload with
    | .slice [seq0, .function fn] =>
      parseWithTails.loop parseFunctionTail input
        (match seq0 with | .nil => false | _ => true) fuel fn res.Remaining
    | _ => some ⟨.nil, some .panic, res.Remaining⟩

/-- The value of a literal payload, as `literalFunction` takes it. -/
def litValue : Payload M → Value
  | .value v => v
  | .string s => .string s
  | _ => .null

/-- The loop `for` of `parseLiteralWithTails`, one unit of fuel per iteration; `fn` is nil
(`none`) until the first tail. -/
def parseLiteralWithTails.loop (parseFunctionTail : Function M → Type' M) (input : Runes)
    (lit : Payload M) : Nat → Option (Function M) → Runes → Option (Result M)
  | 0, _, _ => none
  | fuel + 1, fn, remaining =>
    let res := delim (M := M) remaining
    match res.Err with
    | some _ =>
      some ⟨(match fn with | some f => .function f | none => lit), none, res.Remaining⟩
    | none =>
      let fn := match fn with | some f => f | none => literalFunction (litValue lit)
      let i : Int := (input.length : Int) - res.Remaining.length
      let res := MustBe (parseFunctionTail fn) res.Remaining
      match res.Err with
      | some e => some ⟨.nil, some (ErrAtPosition i e), res.Remaining⟩
      | none =>
        match res.Payload with
        | .function fn => loop parseFunctionTail input lit fuel (some fn) res.Remaining
        | _ => some ⟨.nil, some .panic, res.Remaining⟩

/-- The function `parseLiteralWithTails`, with the fuel of its loop. -/
def parseLiteralWithTails (litParser : Type' M) (parseFunctionTail : Function M → Type' M)
    (fuel : Nat) (input : Runes) : Option (Result M) :=
  let res := litParser input
  match res.Err with
  | some _ => some res
  | none => parseLiteralWithTails.loop parseFunctionTail input res.Payload fuel none res.Remaining

end query

/-! The constructors of the text condition (`lib/condition/text.go`). -/

namespace condition

/-- The functions of the Go standard library and of `github.com/spf13/cast` that the text
operators call: `bytes.EqualFold`, `bytes.ToLower`, whether `net.ParseIP` yields an address,
`regexp.Compile` with the methods `Match` and `Find` of a compiled expression, and
`cast.ToStringSliceE`. -/
structure Lib (R : Type) where
  EqualFold : List Nat → List Nat → Bool
  ToLower : List Nat → List Nat
  ParseIP : List Nat → Bool
  Compile : List Nat → Except Runes R
  Match : R → List Nat → Bool
  Find : R → List Nat → Option (List Nat)
  ToStringSliceE : Arg → Except Runes (List (List Nat))

/-- The name of the dynamic type of an argument, as `%T` prints it. -/
def Arg.typeName : Arg → Runes
  | .string _ => "string".toList
  | .slice _ => "[]interface ".toList ++ [Char.ofNat 123, Char.ofNat 125]
  | .other name => name

/-- The function `textEqualsOperator`. -/
def textEqualsOperator (arg : List Nat) : textOperator :=
  fun c => c == arg

/-- The function `textEqualsFoldOperator`. -/
def textEqualsFoldOperator (lib : Lib R) (arg : List Nat) : textOperator :=
  fun c => lib.EqualFold c arg

/-- The function `textContainsOperator`. -/
def textContainsOperator (arg : List Nat) : textOperator :=
  fun c => decide (arg <:+: c)

/-- The function `textContainsFoldOperator`. -/
def textContainsFoldOperator (lib : Lib R) (arg : List Nat) : textOperator :=
  fun c => decide (lib.ToLower arg <:+: lib.ToLower c)

/-- The function `textContainsAnyOperator`. -/
def textContainsAnyOperator (lib : Lib R) (arg : Arg) : Except Error textOperator :=
  match lib.ToStringSliceE arg with
  | .error err => .error (.failedToParseSlice err)
  | .ok entries => .ok fun c => entries.any fun entry => decide (entry <:+: c)

/-- The function `textContainsFoldAnyOperator`. -/
def textContainsFoldAnyOperator (lib : Lib R) (arg : Arg) : Except Error textOperator :=
  match lib.ToStringSliceE arg with
  | .error err => .error (.failedToParseSlice err)
  | .ok entries =>
    .ok fun c => entries.any fun entry => decide (lib.ToLower entry <:+: lib.ToLower c)

/-- The function `textPrefixOperator`. -/
def textPrefixOperator (arg : List Nat) : textOperator :=
  fun c => decide (arg <+: c)

/-- The function `textPrefixFoldOperator`. -/
def textPrefixFoldOperator (lib : Lib R) (arg : List Nat) : textOperator :=
  fun c => decide (lib.ToLower arg <+: lib.ToLower c)

/-- The function `textSuffixOperator`. -/
def textSuffixOperator (arg : List Nat) : textOperator :=
  fun c => decide (arg <:+ c)

/-- The function `textSuffixFoldOperator`. -/
def textSuffixFoldOperator (lib : Lib R) (arg : List Nat) : textOperator :=
  fun c => decide (lib.ToLower arg <:+ lib.ToLower c)

/-- The function `textRegexpPartialOperator`. -/
def textRegexpPartialOperator (lib : Lib R) (arg : List Nat) : Except Error textOperator :=
  match lib.Compile arg with
  | .error err => .error (.regexp err)
  | .ok compiled => .ok fun c => lib.Match compiled c

/-- The function `textIsOperator`, with the three operators it chooses from: the content is
an address, and holds a dot for `ipv4`, a colon for `ipv6`. -/
def textIsOperator (lib : Lib R) (arg : Arg) : Except Error textOperator :=
  match arg with
  | .string str =>
    if str = [105, 112] then .ok fun c => lib.ParseIP c
    else if str = [105, 112, 118, 52] then .ok fun c => lib.ParseIP c && decide ([46] <:+: c)
    else if str = [105, 112, 118, 54] then .ok fun c => lib.ParseIP c && decide ([58] <:+: c)
    else .error (.invalidIsArgument str)
  | _ => .error (.expectedString arg.typeName)

/-- The closure `bytesArgErr` of `strToTextOperator`. -/
def bytesArgErr (arg : Arg) (ctor : List Nat → Except Error textOperator) :
    Except Error textOperator :=
  match arg with
  | .string str => ctor str
  | _ => .error (.expectedString arg.typeName)

/-- The closure `bytesArg` of `strToTextOperator`. -/
def bytesArg (arg : Arg) (ctor : List Nat → textOperator) : Except Error textOperator :=
  bytesArgErr arg fun b => .ok (ctor b)

/-- The function `strToTextOperator`. -/
def strToTextOperator (lib : Lib R) (str : String) (arg : Arg) : Except Error textOperator :=
  match str with
  | "equals_cs" => bytesArg arg textEqualsOperator
  | "equals" => bytesArg arg (textEqualsFoldOperator lib)
  | "contains_cs" => bytesArg arg textContainsOperator
  | "contains" => bytesArg arg (textContainsFoldOperator lib)
  | "contains_any" => textContainsFoldAnyOperator lib arg
  | "contains_any_cs" => textContainsAnyOperator lib arg
  | "is" => textIsOperator lib arg
  | "prefix_cs" => bytesArg arg textPrefixOperator
  | "prefix" => bytesArg arg (textPrefixFoldOperator lib)
  | "suffix_cs" => bytesArg arg textSuffixOperator
  | "suffix" => bytesArg arg (textSuffixFoldOperator lib)
  | "regexp_partial" => bytesArgErr arg (textRegexpPartialOperator lib)
  | "regexp_exact" => bytesArgErr arg (textRegexpExactOperator lib.Compile lib.Find)
  | "enum" => textEnumOperator lib.ToStringSliceE arg
  | _ => .error .ErrInvalidTextOperator

/-- The struct `TextConfig`. -/
structure TextConfig where
  Operator : String
  Part : Int
  Arg : Arg

/-- The struct `Text`, without its metrics. -/
structure Text where
  operator : textOperator
  part : Int

/-- The function `NewText`. -/
def NewText (lib : Lib R) (conf : TextConfig) : Except Error Text :=
  match strToTextOperator lib conf.Operator conf.Arg with
  | .error err => .error (.operator conf.Operator err)
  | .ok op => .ok { operator := op, part := conf.Part }

end condition

/-! Example configurations (`lib/config/config.go`). -/

namespace config

/-- The fields of a processor configuration that `AddExamples` writes. -/
structure ProcConf where
  Type' : String
  FilterPartsType : String
  deriving DecidableEq

/-- The fields of the configuration `Type` that `AddExamples` writes. -/
structure Conf where
  InputType : String
  BufferType : String
  Processors : List ProcConf
  OutputType : String
  deriving DecidableEq

/-- The registries `Constructors` of the five component packages, which are not among the
sources: whether a name is registered. -/
structure Registry where
  input : String → Bool
  buffer : String → Bool
  processor : String → Bool
  condition : String → Bool
  output : String → Bool

/-- The variables of the loop of `AddExamples`. -/
structure Picked where
  inputType : String
  bufferType : String
  processorTypes : List String
  conditionType : String
  outputType : String
  deriving DecidableEq

/-- One iteration of the loop `for _, e := range examples` of `AddExamples`. -/
def pick (reg : Registry) (v : Picked) (e : String) : Picked :=
  let v := if reg.input e && v.inputType.length == 0 then { v with inputType := e } else v
  let v := if reg.buffer e then { v with bufferType := e } else v
  let v := if reg.processor e then { v with processorTypes := v.processorTypes ++ [e] } else v
  let v := if reg.condition e then { v with conditionType := e } else v
  if reg.output e then { v with outputType := e } else v

/-- The function `AddExamples`; `NewConfig` is `processor.NewConfig()`. -/
def AddExamples (reg : Registry) (NewConfig : ProcConf) (conf : Conf) (examples : List String) :
    Conf :=
  let v := examples.foldl (pick reg) ⟨"", "", [], "", ""⟩
  let conf := if v.inputType.length > 0 then { conf with InputType := v.inputType } else conf
  let conf := if v.bufferType.length > 0 then { conf with BufferType := v.bufferType } else conf
  let conf :=
    if v.processorTypes.length > 0 then
      { conf with Processors := conf.Processors ++
          v.processorTypes.map fun procType => { NewConfig with Type' := procType } }
    else conf
  let conf :=
    if v.conditionType.length > 0 then
      { conf with Processors := conf.Processors ++
          [{ NewConfig with Type' := "filter_parts", FilterPartsType := v.conditionType }] }
    else conf
  if v.outputType.length > 0 then { conf with OutputType := v.outputType } else conf

/-- A registry for the example of the documentation of `AddExamples`: `kafka` and `amqp` are
both inputs and outputs, `memory` is a buffer, `noop` a processor and `text` a condition. -/
def exampleRegistry : Registry where
  input := fun e => e == "kafka" || e == "amqp"
  buffer := fun e => e == "memory"
  processor := fun e => e == "noop"
  condition := fun e => e == "text"
  output := fun e => e == "kafka" || e == "amqp"

end config

namespace query

/-- A run of tails: from the function `fn` with `remaining` left, each dot followed by a tail
that `parseFunctionTail` parses leads on, until what is left does not start with a dot; the
run ends at the function `fn'` with `remaining'` left after `n` tails. -/
inductive TailChain (parseFunctionTail : Function M → parser.Type' M) :
    Function M → Runes → Function M → Runes → Nat → Prop where
  | done (fn : Function M) (remaining : Runes) (h : remaining.head? ≠ some '.') :
    TailChain parseFunctionTail fn remaining fn remaining 0
  | tail (fn fn1 fn' : Function M) (rest r2 remaining' : Runes) (n : Nat)
    (ht : parseFunctionTail fn (delim (M := M) ('.' :: rest)).Remaining =
      ⟨.function fn1, none, r2⟩)
    (hc : TailChain parseFunctionTail fn1 r2 fn' remaining' n) :
    TailChain parseFunctionTail fn ('.' :: rest) fn' remaining' (n + 1)

end query

/-! The conversions between Go strings (byte sequences) and runes. -/

namespace utf8

/-- The rune `utf8.RuneError`, U+FFFD. -/
def RuneError : Rune := Char.ofNat 0xFFFD

/-- The least second byte that may follow the first byte `b0` of a sequence of three or four
bytes (the table `acceptRanges`). -/
def acceptLo (b0 : Nat) : Nat :=
  if b0 = 0xE0 then 0xA0 else if b0 = 0xF0 then 0x90 else 0x80

/-- The greatest second byte that may follow the first byte `b0`. -/
def acceptHi (b0 : Nat) : Nat :=
  if b0 = 0xED then 0x9F else if b0 = 0xF4 then 0x8F else 0xBF

/-- The function `utf8.DecodeRune` of the Go standard library: the first rune of a byte
sequence and its width in bytes; an invalid or truncated sequence gives `RuneError` of
width 1. -/
def DecodeRune : List Nat → Rune × Nat
  | [] => (RuneError, 0)
  | b0 :: rest =>
    if b0 < 0x80 then (Char.ofNat b0, 1)
    else if 0xC2 ≤ b0 ∧ b0 ≤ 0xDF then
      match rest with
      | b1 :: _ =>
        if 0x80 ≤ b1 ∧ b1 ≤ 0xBF then (Char.ofNat (b0 % 0x20 * 0x40 + b1 % 0x40), 2)
        else (RuneError, 1)
      | _ => (RuneError, 1)
    else if 0xE0 ≤ b0 ∧ b0 ≤ 0xEF then
      match rest with
      | b1 :: b2 :: _ =>
        if acceptLo b0 ≤ b1 ∧ b1 ≤ acceptHi b0 ∧ 0x80 ≤ b2 ∧ b2 ≤ 0xBF then
          (Char.ofNat (b0 % 0x10 * 0x1000 + b1 % 0x40 * 0x40 + b2 % 0x40), 3)
        else (RuneError, 1)
      | _ => (RuneError, 1)
    else if 0xF0 ≤ b0 ∧ b0 ≤ 0xF4 then
      match rest with
      | b1 :: b2 :: b3 :: _ =>
        if acceptLo b0 ≤ b1 ∧ b1 ≤ acceptHi b0 ∧ 0x80 ≤ b2 ∧ b2 ≤ 0xBF ∧
            0x80 ≤ b3 ∧ b3 ≤ 0xBF then
          (Char.ofNat (b0 % 0x08 * 0x40000 + b1 % 0x40 * 0x1000 + b2 % 0x40 * 0x40 + b3 % 0x40),
            4)
        else (RuneError, 1)
      | _ => (RuneError, 1)
    else (RuneError, 1)

/-- The loop of the conversion `[]rune(s)`: `skip` counts the bytes still to pass of the
rune decoded last. -/
def toRunes.go : Nat → List Nat → Runes
  | _, [] => []
  | skip + 1, _ :: rest => go skip rest
  | 0, b :: rest => (DecodeRune (b :: rest)).1 :: go ((DecodeRune (b :: rest)).2 - 1) rest

/-- The conversion `[]rune(s)` of a Go string, a sequence of bytes, to its runes: each
invalid byte becomes U+FFFD. -/
def toRunes (s : List Nat) : Runes := toRunes.go 0 s

/-- The function `utf8.EncodeRune` of the Go standard library, on a valid rune. -/
def EncodeRune (r : Rune) : List Nat :=
  if r.toNat < 0x80 then [r.toNat]
  else if r.toNat < 0x800 then [0xC0 + r.toNat / 0x40, 0x80 + r.toNat % 0x40]
  else if r.toNat < 0x10000 then
    [0xE0 + r.toNat / 0x1000, 0x80 + r.toNat / 0x40 % 0x40, 0x80 + r.toNat % 0x40]
  else
    [0xF0 + r.toNat / 0x40000, 0x80 + r.toNat / 0x1000 % 0x40, 0x80 + r.toNat / 0x40 % 0x40,
      0x80 + r.toNat % 0x40]

/-- The conversion `string(rs)` of runes to a Go string, a sequence of bytes. -/
def ofRunes (rs : Runes) : List Nat := (rs.map EncodeRune).flatten

end utf8

namespace field

/-- The function `parse` on a template given as a Go string, a sequence of bytes: the
conversion `[]rune(expr)` of its first statement, then the loop on the runes. -/
def parseString (ParseDeprecated : parser.Type' M) (expr : List Nat) :
    Option (Except parser.Err (List (resolver M))) :=
  parse ParseDeprecated (utf8.toRunes expr)

end field

/-- A stand-in for `query.ParseDeprecated` that rejects every input with a recoverable miss
at its end, the way the repository's test `bad args 5` records for the input `json`. -/
def rejectAll : parser.Type' Unit := fun input =>
  ⟨.nil, some (.positional input.length (.expected ["function-parameters"])), input⟩

/-- A stand-in for `query.Parse` that reads a quoted letter as a string literal and a decimal
digit as an integer literal. -/
def parseAtom : parser.Type' Runes := fun input =>
  match input with
  | '"' :: c :: '"' :: rest => ⟨.function (.literal (.string [c])), none, rest⟩
  | c :: rest =>
    if c.isDigit then ⟨.function (.literal (.int64 (c.toNat - 48))), none, rest⟩
    else ⟨.nil, some (.expected ["query"]), input⟩
  | [] => ⟨.nil, some (.expected ["query"]), input⟩

/-- A stand-in for the function `json("foo")`, the message being the text of the field
`foo` of the document. -/
def jsonFoo : query.Function Runes := .closureFn fun ctx => .ok (.string ctx.Msg)

/-- The text of the expression `match json("foo") \x7b "a" => 1, "b" => 2, _ => 3 \x7d`. -/
def matchText : Runes :=
  "match json(".toList ++ ['"'] ++ "foo".toList ++ ['"'] ++ ") \x7b ".toList ++
    ['"', 'a', '"'] ++ " => 1, ".toList ++ ['"', 'b', '"'] ++ " => 2, _ => 3 \x7d".toList

/-- A stand-in for the sequence parser of `matchExpressionParser` on the expression
`match json("foo") \x7b "a" => 1, "b" => 2, _ => 3 \x7d`: the context expression is `jsonFoo`
and the cases are those `matchCaseParser` returns for the three case texts. -/
def matchSeq : parser.Type' Runes := fun _ =>
  ⟨.slice [.string ['m', 'a', 't', 'c', 'h'], .nil, .function jsonFoo, .nil,
    .slice [
      (query.matchCaseParser parseAtom ['"', 'a', '"', ' ', '=', '>', ' ', '1']).Payload,
      (query.matchCaseParser parseAtom ['"', 'b', '"', ' ', '=', '>', ' ', '2']).Payload,
      (query.matchCaseParser parseAtom ['_', ' ', '=', '>', ' ', '3']).Payload]],
    none, []⟩

/-- A stand-in for `query.Parse` that reads one decimal digit as an integer literal. -/
def parseDigit : parser.Type' Unit := fun input =>
  match input with
  | c :: rest =>
    if c.isDigit then ⟨.function (.literal (.int64 (c.toNat - 48))), none, rest⟩
    else ⟨.nil, some (.expected ["number"]), input⟩
  | [] => ⟨.nil, some (.expected ["number"]), input⟩

/-- A stand-in for the table `deprecatedFunctions` in which only `echo` is registered, built
by a constructor that yields its argument. -/
def echoOnly : Runes → Option (Runes → query.Function Unit) := fun name =>
  if name = ['e', 'c', 'h', 'o'] then some (fun arg => .literal (.string arg)) else none

/-! Properties of the field parser. -/

namespace field

open parser

theorem firstPairIdx_first (X rest : Runes) (h : ¬ ['}', '}'] <:+: X ++ ['}']) :
    firstPairIdx (fun c d => c == '}' && d == '}') (X ++ '}' :: '}' :: rest) =
      some X.length := by
  induction X with
  | nil => simp [firstPairIdx]
  | cons c X ih =>
    have h' : ¬ ['}', '}'] <:+: X ++ ['}'] := fun hi =>
      h (hi.trans (List.suffix_cons c _).isInfix)
    cases X with
    | nil =>
      have hc : c ≠ '}' := by
        rintro rfl
        exact h (List.infix_refl _)
      simp [firstPairIdx, hc]
    | cons d X =>
      have hcd : ¬ (c = '}' ∧ d = '}') := by
        rintro ⟨rfl, rfl⟩
        exact h ⟨[], X ++ ['}'], by simp⟩
      have hi := ih h'
      simp only [List.cons_append] at hi ⊢
      simp [firstPairIdx, hcd, hi]

theorem firstIdx_first (body rest : Runes) (hb : '}' ∉ body) :
    firstIdx (fun c => c == '}') (body ++ '}' :: rest) = some body.length := by
  induction body with
  | nil => simp [firstIdx]
  | cons c body ih =>
    have hc : c ≠ '}' := fun hc => hb (by simp [hc])
    have hb' : '}' ∉ body := fun hm => hb (List.mem_cons_of_mem _ hm)
    simp [firstIdx, hc, ih hb']

theorem escapedBlock_miss (input : Runes) (h : ¬ ['$', '{', '{', '!'] <+: input) :
    escapedBlock (M := M) input = ⟨.nil, some (.expected ["$\x7b\x7b!"]), input⟩ := by
  have hne : input.take 4 ≠ ['$', '{', '{', '!'] := fun he =>
    h (he ▸ List.take_prefix 4 input)
  simp [escapedBlock, hne]

theorem aFunction_miss (pd : Type' M) (input : Runes) (h : ¬ ['$', '{', '!'] <+: input) :
    aFunction pd input = ⟨.nil, some (.expected ["$\x7b!"]), input⟩ := by
  have hne : input.take 3 ≠ ['$', '{', '!'] := fun he =>
    h (he ▸ List.take_prefix 3 input)
  simp [aFunction, hne]

/-- On an input that opens neither kind of block, the parser of `parse` yields a non-empty
static run and leaves the rest. -/
theorem block_literal (pd : Type' M) (c : Rune) (cs : Runes)
    (h1 : ¬ ['$', '{', '!'] <+: c :: cs) (h2 : ¬ ['$', '{', '{', '!'] <+: c :: cs) :
    ∃ run rem, run ≠ [] ∧ run ++ rem = c :: cs ∧
      block pd (c :: cs) = ⟨.resolver (.staticResolver run), none, rem⟩ := by
  by_cases hc : c = '$'
  · subst hc
    have e1 := escapedBlock_miss (M := M) ('$' :: cs) h2
    have e2 := aFunction_miss pd ('$' :: cs) h1
    refine ⟨['$'], cs, by simp, by simp, ?_⟩
    simp [block, OneOf, OneOf.go, e1, e2, recoverable, intoStaticResolver, parser.Char]
  · have e1 := escapedBlock_miss (M := M) (c :: cs) h2
    have e2 := aFunction_miss pd (c :: cs) h1
    refine ⟨c :: cs.takeWhile (fun d => d != '$'), cs.dropWhile (fun d => d != '$'),
      by simp, by simp, ?_⟩
    simp [block, OneOf, OneOf.go, e1, e2, recoverable, intoStaticResolver, parser.Char,
      NotChar, hc]

theorem parseLoop_literal (pd : Type' M) :
    ∀ (fuel : Nat) (rem : Runes) (i : Int) (acc : List (resolver M)),
      rem.length ≤ fuel → ¬ ['$', '{', '!'] <:+: rem → ¬ ['$', '{', '{', '!'] <:+: rem →
      ∃ ss : List Runes, parseLoop pd fuel rem i acc = some (.ok (acc ++ ss.map .staticResolver))
        ∧ ss.flatten = rem := by
  intro fuel
  induction fuel with
  | zero =>
    intro rem i acc hlen _ _
    have : rem = [] := List.length_eq_zero.mp (Nat.le_zero.mp hlen)
    subst this
    exact ⟨[], by simp [parseLoop], rfl⟩
  | succ fuel ih =>
    intro rem i acc hlen h1 h2
    cases rem with
    | nil => exact ⟨[], by simp [parseLoop], rfl⟩
    | cons c cs =>
      obtain ⟨run, rem, hrun, hcat, hblock⟩ := block_literal pd c cs
        (fun hp => h1 hp.isInfix) (fun hp => h2 hp.isInfix)
      have hsuf : rem <:+ c :: cs := ⟨run, hcat⟩
      have hshort : rem.length ≤ fuel := by
        have hl := congrArg List.length hcat
        have hpos : 0 < run.length := List.length_pos.mpr hrun
        simp only [List.length_append, List.length_cons] at hl hlen
        omega
      obtain ⟨ss, hss, hflat⟩ := ih rem (((c :: cs).length : Int) - rem.length) (acc ++ [.staticResolver run])
        hshort (fun hi => h1 (hi.trans hsuf.isInfix)) (fun hi => h2 (hi.trans hsuf.isInfix))
      refine ⟨run :: ss, ?_, by simp [hflat, hcat]⟩
      simp only [parseLoop, hblock]
      simpa using hss

/-- A rune sequence that contains neither `$\x7b!` nor `$\x7b\x7b!` is parsed successfully
into static resolvers only, and the resolvers' outputs concatenated in order are the
sequence, for every message, index, `escaped` flag and `legacy` flag. -/
theorem parse_literal_runes (pd : Type' M) (t : Runes)
    (h1 : ¬ ['$', '{', '!'] <:+: t) (h2 : ¬ ['$', '{', '{', '!'] <:+: t) :
    ∃ rs : List (resolver M), parse pd t = some (.ok rs) ∧
      (∀ r ∈ rs, ∃ s, r = .staticResolver s) ∧
      ∀ (exec : query.Function M → query.FunctionContext M → Runes) (index : Int) (msg : M)
        (escaped legacy : Bool),
        (rs.map fun r => r.ResolveString exec index msg escaped legacy).flatten = t := by
  obtain ⟨ss, hss, hflat⟩ := parseLoop_literal pd t.length t 0 [] (Nat.le_refl _) h1 h2
  refine ⟨ss.map .staticResolver, by simp [parse, hss], ?_, ?_⟩
  · intro r hr
    obtain ⟨s, _, rfl⟩ := List.mem_map.mp hr
    exact ⟨s, rfl⟩
  · intro exec index msg escaped legacy
    rw [List.map_map]
    have : ((fun r : resolver M => r.ResolveString exec index msg escaped legacy) ∘
        resolver.staticResolver) = id := by
      funext s
      rfl
    rw [this, List.map_id, hflat]

/-- C1: on `$\x7b\x7b!` ++ X ++ `}}` ++ rest, where the closing pair shown is the first pair of
closing braces after the opening, `escapedBlock` succeeds with the static text
`$\x7b!` ++ X ++ `}` and leaves `rest`; that resolver yields the same text for every
message, index and flag whatever the query evaluator is, and the template
`foo $\x7b\x7b!echo:bar}} baz` parses to three static resolvers spelling
`foo $\x7b!echo:bar} baz`. -/
theorem escapedBlock_escape (M : Type) (X rest : Runes)
    (h : ¬ ['}', '}'] <:+: X ++ ['}']) :
    escapedBlock (M := M) (['$', '{', '{', '!'] ++ X ++ ['}', '}'] ++ rest) =
        ⟨.resolver (.staticResolver (['$', '{', '!'] ++ X ++ ['}'])), none, rest⟩ ∧
      (∀ (exec : query.Function M → query.FunctionContext M → Runes) (index : Int) (msg : M)
          (escaped legacy : Bool),
        (resolver.staticResolver (['$', '{', '!'] ++ X ++ ['}'])).ResolveString exec index msg
          escaped legacy = ['$', '{', '!'] ++ X ++ ['}']) ∧
      (∀ pd : Type' M, parse pd "foo $\x7b\x7b!echo:bar\x7d\x7d baz".toList =
        some (.ok [.staticResolver "foo ".toList, .staticResolver "$\x7b!echo:bar\x7d".toList,
          .staticResolver " baz".toList])) := by
  refine ⟨?_, fun _ _ _ _ _ => rfl, fun _ => rfl⟩
  have hscan := firstPairIdx_first X rest h
  have hlen : (['$', '{', '{', '!'] ++ X ++ ['}', '}']).length = 4 + X.length + 2 := by
    simp only [List.length_append, List.length_cons, List.length_nil]
  have hdrop : (['$', '{', '{', '!'] ++ X ++ ['}', '}'] ++ rest).drop (4 + X.length + 2) =
      rest := by
    rw [← hlen, List.drop_left]
  have hd4 : (['$', '{', '{', '!'] ++ X ++ ['}', '}'] ++ rest).drop 4 =
      X ++ '}' :: '}' :: rest := by simp
  simp only [escapedBlock]
  rw [if_neg (by simp), hd4, hscan]
  simp only [hdrop, List.take_left]

theorem escapedBlock_escape_witness :
    ¬ ['}', '}'] <:+: "echo:bar".toList ++ ['}'] ∧
      escapedBlock (M := Unit) (['$', '{', '{', '!'] ++ "echo:bar".toList ++ ['}', '}'] ++
        " baz".toList) =
        ⟨.resolver (.staticResolver (['$', '{', '!'] ++ "echo:bar".toList ++ ['}'])), none,
          " baz".toList⟩ :=
  ⟨by decide, (escapedBlock_escape Unit "echo:bar".toList " baz".toList (by decide)).1⟩

/-- What `aFunction` computes on a block whose body holds no closing brace. -/
theorem aFunction_unfold (pd : Type' M) (body rest : Runes) (hb : '}' ∉ body) :
    aFunction pd (['$', '{', '!'] ++ body ++ ['}'] ++ rest) =
      match (pd body).Err with
      | none =>
        if (pd body).Remaining.length > 0 then
          ⟨.nil, some (ErrAtPosition (((3 + body.length : Nat) : Int) - (pd body).Remaining.length)
            (.unexpectedContents (pd body).Remaining)),
            ['$', '{', '!'] ++ body ++ ['}'] ++ rest⟩
        else
          match (pd body).Payload with
          | .function fn => ⟨.resolver (.queryResolver fn), none, rest⟩
          | _ => ⟨.nil, some .panic, ['$', '{', '!'] ++ body ++ ['}'] ++ rest⟩
      | some e =>
        { pd body with Err := some (Expand .scrapped (ErrAtPosition 3 e)),
                       Remaining := ['$', '{', '!'] ++ body ++ ['}'] ++ rest } := by
  have hscan := firstIdx_first body rest hb
  have hd3 : (['$', '{', '!'] ++ body ++ ['}'] ++ rest).drop 3 = body ++ '}' :: rest := by simp
  have hlen : (['$', '{', '!'] ++ body ++ ['}']).length = 3 + body.length + 1 := by
    simp only [List.length_append, List.length_cons, List.length_nil]
  have hdrop : (['$', '{', '!'] ++ body ++ ['}'] ++ rest).drop (3 + body.length + 1) = rest := by
    rw [← hlen, List.drop_left]
  simp only [aFunction]
  rw [if_neg (by simp), hd3, hscan]
  simp only [hdrop, List.take_left]

/-- C3: on `$\x7b!` ++ body ++ `}` ++ rest with no closing brace in body, `aFunction` succeeds
exactly when `query.ParseDeprecated` succeeds on body and leaves nothing unparsed; then the
payload is the query resolver of the parsed function and `rest` remains; otherwise an error
is returned and the whole input remains. -/
theorem aFunction_block (pd : Type' M) (body rest : Runes) (hb : '}' ∉ body)
    (hfn : (pd body).Err = none → ∃ fn, (pd body).Payload = .function fn) :
    ((aFunction pd (['$', '{', '!'] ++ body ++ ['}'] ++ rest)).Err = none ↔
        ((pd body).Err = none ∧ (pd body).Remaining = [])) ∧
      (((pd body).Err = none ∧ (pd body).Remaining = []) →
        ∃ fn, (pd body).Payload = .function fn ∧
          aFunction pd (['$', '{', '!'] ++ body ++ ['}'] ++ rest) =
            ⟨.resolver (.queryResolver fn), none, rest⟩) ∧
      (¬ ((pd body).Err = none ∧ (pd body).Remaining = []) →
        (aFunction pd (['$', '{', '!'] ++ body ++ ['}'] ++ rest)).Err ≠ none ∧
          (aFunction pd (['$', '{', '!'] ++ body ++ ['}'] ++ rest)).Remaining =
            ['$', '{', '!'] ++ body ++ ['}'] ++ rest) := by
  rw [aFunction_unfold pd body rest hb]
  cases herr : (pd body).Err with
  | some e => simp
  | none =>
    obtain ⟨fn, hpay⟩ := hfn herr
    cases hrem : (pd body).Remaining with
    | nil => simp [hpay]
    | cons r rs => simp

theorem aFunction_block_witness :
    ('}' ∉ ['1']) ∧
      ((parseDigit ['1']).Err = none → ∃ fn, (parseDigit ['1']).Payload = .function fn) ∧
      ((aFunction parseDigit (['$', '{', '!'] ++ ['1'] ++ ['}'] ++ [' ', 'x'])).Err = none ↔
        ((parseDigit ['1']).Err = none ∧ (parseDigit ['1']).Remaining = [])) ∧
      ∃ fn, (parseDigit ['1']).Payload = .function fn ∧
        aFunction parseDigit (['$', '{', '!'] ++ ['1'] ++ ['}'] ++ [' ', 'x']) =
          ⟨.resolver (.queryResolver fn), none, [' ', 'x']⟩ :=
  ⟨by decide, fun _ => ⟨_, rfl⟩,
    (aFunction_block parseDigit ['1'] [' ', 'x'] (by decide) (fun _ => ⟨_, rfl⟩)).1,
    (aFunction_block parseDigit ['1'] [' ', 'x'] (by decide) (fun _ => ⟨_, rfl⟩)).2.1
      ⟨rfl, rfl⟩⟩

theorem ErrAtPosition_positional (i : Int) (e : Err) :
    ∃ p e', ErrAtPosition i e = .positional p e' := by
  cases e <;> exact ⟨_, _, rfl⟩

theorem scrapped_hard (e : Err) : recoverable (Expand .scrapped (ErrAtPosition 3 e)) = false := by
  obtain ⟨p, e', h⟩ := ErrAtPosition_positional 3 e
  simp [h, Expand, recoverable]

/-- C4, at a failing input: when `query.ParseDeprecated` rejects `json`, the template
`$5 for $\x7b!json}` fails to parse and the offset handed to `ErrAtPosition` is 6, the length
of the run `5 for ` alone, although 7 runes precede the failing block. -/
theorem parse_offset_last_block_only (pd : Type' M) (e : Err)
    (h : (pd "json".toList).Err = some e) :
    parseLoop pd 15 "$5 for $\x7b!json\x7d".toList 0 [] =
        some (.error (6, Expand .scrapped (ErrAtPosition 3 e))) ∧
      parse pd "$5 for $\x7b!json\x7d".toList =
        some (.error (.failedToParse (ErrAtPosition 6 (Expand .scrapped (ErrAtPosition 3 e))))) ∧
      "$5 for $\x7b!json\x7d".toList = "$5 for ".toList ++ "$\x7b!json\x7d".toList ∧
      "$5 for ".toList.length = 7 := by
  have hf := aFunction_unfold pd "json".toList [] (by decide)
  rw [h] at hf
  have hblock : block pd "$\x7b!json\x7d".toList =
      { pd "json".toList with Err := some (Expand .scrapped (ErrAtPosition 3 e)),
                              Remaining := "$\x7b!json\x7d".toList } := by
    have e1 := escapedBlock_miss (M := M) "$\x7b!json\x7d".toList (by decide)
    have hf' : aFunction pd "$\x7b!json\x7d".toList = _ := hf
    simp only [block, OneOf, OneOf.go, e1, hf', recoverable, scrapped_hard]
    simp
  have hloop : parseLoop pd 15 "$5 for $\x7b!json\x7d".toList 0 [] =
      some (.error (6, Expand .scrapped (ErrAtPosition 3 e))) := by
    have h1 : parseLoop pd 15 "$5 for $\x7b!json\x7d".toList 0 [] =
        parseLoop pd 13 "$\x7b!json\x7d".toList 6
          [.staticResolver "$".toList, .staticResolver "5 for ".toList] := rfl
    rw [h1]
    simp only [parseLoop, String.toList] at hblock ⊢
    simp only [hblock]
  refine ⟨hloop, ?_, by decide, by decide⟩
  have hl : "$5 for $\x7b!json\x7d".toList.length = 15 := by decide
  simp only [parse, hl, hloop]
  rfl

theorem parse_offset_last_block_only_witness :
    (rejectAll "json".toList).Err = some (.positional 4 (.expected ["function-parameters"])) ∧
      parse rejectAll "$5 for $\x7b!json\x7d".toList =
        some (.error (.failedToParse (ErrAtPosition 6 (Expand .scrapped
          (ErrAtPosition 3 (.positional 4 (.expected ["function-parameters"]))))))) :=
  ⟨rfl, (parse_offset_last_block_only rejectAll _ rfl).2.1⟩

end field

/-! Properties of the query parsers. -/

namespace query

open parser

theorem Sequence_three (p1 p2 p3 : Type' M) (input r1 r2 r3 : Runes) (a b c : Payload M)
    (h1 : p1 input = ⟨a, none, r1⟩) (h2 : p2 r1 = ⟨b, none, r2⟩) (h3 : p3 r2 = ⟨c, none, r3⟩) :
    Sequence [p1, p2, p3] input = ⟨.slice [a, b, c], none, r3⟩ := by
  simp [Sequence, Sequence.go, h1, h2, h3]

theorem Sequence_miss_first (p1 : Type' M) (ps : List (Type' M)) (input : Runes)
    (a : Payload M) (e : List String) (h : p1 input = ⟨a, some (.expected e), input⟩) :
    Sequence (p1 :: ps) input = ⟨.nil, some (.positional 0 (.expected e)), input⟩ := by
  simp [Sequence, Sequence.go, h, ErrAtPosition]

theorem OneOf_first (p1 : Type' M) (ps : List (Type' M)) (input : Runes)
    (h : (p1 input).Err = none) : OneOf (p1 :: ps) input = p1 input := by
  simp [OneOf, OneOf.go, h]

theorem OneOf_second (p1 p2 : Type' M) (input r : Runes) (a : Payload M) (e : Err)
    (h1 : p1 input = ⟨a, some e, r⟩) (hr : recoverable e = true) (h2 : (p2 input).Err = none) :
    OneOf [p1, p2] input = p2 input := by
  simp [OneOf, OneOf.go, h1, hr, h2]

theorem takeWhile_run (q : Rune → Bool) (ws t : Runes) (hws : ∀ c ∈ ws, q c = true)
    (ht : ∀ c, t.head? = some c → q c = false) :
    (ws ++ t).takeWhile q = ws ∧ (ws ++ t).dropWhile q = t := by
  induction ws with
  | nil =>
    cases t with
    | nil => simp
    | cons c t => simp [ht c rfl]
  | cons w ws ih =>
    have hw : q w = true := hws w (List.mem_cons_self _ _)
    have := ih (fun c hc => hws c (List.mem_cons_of_mem _ hc))
    simp [hw, this]

/-- Optional white space before a token that is no white space is skipped. -/
theorem Optional_SpacesAndTabs (ws t : Runes) (hws : ∀ c ∈ ws, c = ' ' ∨ c = '\t')
    (ht : ∀ c, t.head? = some c → c ≠ ' ' ∧ c ≠ '\t') :
    ∃ pl : Payload M, Optional SpacesAndTabs (ws ++ t) = ⟨pl, none, t⟩ := by
  obtain ⟨h1, h2⟩ := takeWhile_run (fun d => d == ' ' || d == '\t') ws t
    (fun c hc => by rcases hws c hc with h | h <;> simp [h])
    (fun c hc => by simp [(ht c hc).1, (ht c hc).2])
  cases ws with
  | nil =>
    refine ⟨.nil, ?_⟩
    simp only [List.nil_append] at h1 h2 ⊢
    simp [Optional, SpacesAndTabs, h1, recoverable]
  | cons w ws =>
    refine ⟨.string (w :: ws), ?_⟩
    simp only [Optional, SpacesAndTabs, h1, h2]

/-- C8: for a case written `_ => e` (optional spaces and tabs around the arrow),
`matchCaseParser` builds a case whose predicate yields `true` in every evaluation context,
also without a context value, and whose result expression is the parsed `e`. -/
theorem matchCaseParser_default (Parse : Type' M) (ws1 ws2 t rest : Runes) (e : Function M)
    (h1 : ∀ c ∈ ws1, c = ' ' ∨ c = '\t') (h2 : ∀ c ∈ ws2, c = ' ' ∨ c = '\t')
    (ht : ∀ c, t.head? = some c → c ≠ ' ' ∧ c ≠ '\t')
    (hP : Parse t = ⟨.function e, none, rest⟩) :
    ∃ caseFn : Function M,
      matchCaseParser Parse (['_'] ++ ws1 ++ ['=', '>'] ++ ws2 ++ t) =
          ⟨.matchCase ⟨caseFn, e⟩, none, rest⟩ ∧
        ∀ ctx : FunctionContext M, caseFn.Exec ctx = .ok (.bool true) := by
  obtain ⟨pl1, ho1⟩ := Optional_SpacesAndTabs (M := M) ws1 (['=', '>'] ++ ws2 ++ t) h1
    (fun c hc => by
      simp only [List.cons_append, List.nil_append, List.head?_cons, Option.some.injEq] at hc
      subst hc
      decide)
  obtain ⟨pl2, ho2⟩ := Optional_SpacesAndTabs (M := M) ws2 t h2 ht
  refine ⟨literalFunction (.bool true), ?_, fun _ => rfl⟩
  have hp : matchCaseParser.p Parse (['_'] ++ ws1 ++ ['=', '>'] ++ ws2 ++ t) =
      ⟨.slice [.slice [.string ['_'], pl1, .string ['=', '>']], pl2, .function e], none,
        rest⟩ := by
    have hin : ['_'] ++ ws1 ++ ['=', '>'] ++ ws2 ++ t = '_' :: (ws1 ++ (['=', '>'] ++ ws2 ++ t)) := by
      simp
    rw [hin]
    simp only [matchCaseParser.p, Sequence, Sequence.go, OneOf, OneOf.go, Expect, parser.Char,
      if_true, ho1]
    simp [Term, ho2, hP]
  simp only [matchCaseParser, hp, matchCaseParser.caseFn]

theorem matchCaseParser_default_witness :
    ∃ caseFn : Function Unit,
      matchCaseParser parseDigit (['_'] ++ [' '] ++ ['=', '>'] ++ [' ', '\t'] ++ ['3']) =
          ⟨.matchCase ⟨caseFn, .literal (.int64 3)⟩, none, []⟩ ∧
        ∀ ctx : FunctionContext Unit, caseFn.Exec ctx = .ok (.bool true) :=
  matchCaseParser_default parseDigit [' '] [' ', '\t'] ['3'] [] (.literal (.int64 3))
    (by decide) (by decide)
    (fun c hc => by
      simp only [List.head?_cons, Option.some.injEq] at hc
      subst hc
      decide)
    rfl

/-- What `matchCaseParser` builds for a case whose pattern `query.Parse` reads as a literal:
the predicate is the comparison of the context value with the literal by the Go operator
`==`, and `false` without a context value. -/
theorem matchCaseParser_literal (Parse : Type' M) (input ws1 ws2 t rest : Runes) (lit : Value)
    (e : Function M) (h0 : input.head? ≠ some '_')
    (hL : Parse input = ⟨.function (.literal lit), none, ws1 ++ (['=', '>'] ++ ws2 ++ t)⟩)
    (h1 : ∀ c ∈ ws1, c = ' ' ∨ c = '\t') (h2 : ∀ c ∈ ws2, c = ' ' ∨ c = '\t')
    (ht : ∀ c, t.head? = some c → c ≠ ' ' ∧ c ≠ '\t')
    (hP : Parse t = ⟨.function e, none, rest⟩) :
    matchCaseParser Parse input =
      ⟨.matchCase ⟨matchCaseParser.literalCase lit, e⟩, none, rest⟩ := by
  obtain ⟨pl1, ho1⟩ := Optional_SpacesAndTabs (M := M) ws1 (['=', '>'] ++ ws2 ++ t) h1
    (fun c hc => by
      simp only [List.cons_append, List.nil_append, List.head?_cons, Option.some.injEq] at hc
      subst hc
      decide)
  obtain ⟨pl2, ho2⟩ := Optional_SpacesAndTabs (M := M) ws2 t h2 ht
  have hchar : (Expect (parser.Char '_') ["match-case"] input : Result M) =
      ⟨.nil, some (.expected ["match-case"]), input⟩ := by
    cases input with
    | nil => simp [Expect, parser.Char, Err.rename]
    | cons c cs =>
      have hc : c ≠ '_' := fun hc => h0 (by simp [hc])
      simp [Expect, parser.Char, Err.rename, hc]
  have halt1 : (Sequence [Expect (parser.Char '_') ["match-case"], Optional SpacesAndTabs,
      Term ['=', '>']] input : Result M) =
      ⟨.nil, some (.positional 0 (.expected ["match-case"])), input⟩ :=
    Sequence_miss_first _ _ _ _ _ hchar
  have hE : Expect Parse ["match-case"] input =
      ⟨.function (.literal lit), none, ws1 ++ (['=', '>'] ++ ws2 ++ t)⟩ := by
    simp [Expect, hL]
  have hT : (Term ['=', '>'] (['=', '>'] ++ ws2 ++ t) : Result M) =
      ⟨.string ['=', '>'], none, ws2 ++ t⟩ := by
    simp [Term]
  have halt2 := Sequence_three _ _ _ _ _ _ _ _ _ _ hE ho1 hT
  have hone : OneOf [Sequence [Expect (parser.Char '_') ["match-case"], Optional SpacesAndTabs,
        Term ['=', '>']],
      Sequence [Expect Parse ["match-case"], Optional SpacesAndTabs, Term ['=', '>']]] input =
      ⟨.slice [.function (.literal lit), pl1, .string ['=', '>']], none, ws2 ++ t⟩ := by
    rw [OneOf_second _ _ _ _ _ _ halt1 rfl (by rw [halt2]), halt2]
  have hp : matchCaseParser.p Parse input =
      ⟨.slice [.slice [.function (.literal lit), pl1, .string ['=', '>']], pl2, .function e],
        none, rest⟩ :=
    Sequence_three _ _ _ _ _ _ _ _ _ _ hone ho2 hP
  simp only [matchCaseParser, hp, matchCaseParser.caseFn]

/-- C7, at a failing input: for the case `1 => e`, whose pattern is the literal `int64` 1, the
predicate that `matchCaseParser` builds yields `false` on a context holding the `float64` 1
that decoding the JSON number 1 gives, and `true` only on a context holding the `int64` 1;
without a context value it yields `false`. -/
theorem matchCaseParser_int_literal_json_number (Parse : Type' M) (input ws1 ws2 t rest : Runes)
    (e : Function M) (h0 : input.head? ≠ some '_')
    (hL : Parse input = ⟨.function (.literal (.int64 1)), none, ws1 ++ (['=', '>'] ++ ws2 ++ t)⟩)
    (h1 : ∀ c ∈ ws1, c = ' ' ∨ c = '\t') (h2 : ∀ c ∈ ws2, c = ' ' ∨ c = '\t')
    (ht : ∀ c, t.head? = some c → c ≠ ' ' ∧ c ≠ '\t')
    (hP : Parse t = ⟨.function e, none, rest⟩) :
    ∃ caseFn : Function M,
      matchCaseParser Parse input = ⟨.matchCase ⟨caseFn, e⟩, none, rest⟩ ∧
        (∀ (index : Int) (msg : M) (legacy : Bool),
          caseFn.Exec ⟨index, msg, some (.float64 0x3FF0000000000000), legacy⟩ =
            .ok (.bool false)) ∧
        (∀ (index : Int) (msg : M) (legacy : Bool),
          caseFn.Exec ⟨index, msg, some (.int64 1), legacy⟩ = .ok (.bool true)) ∧
        (∀ (index : Int) (msg : M) (legacy : Bool),
          caseFn.Exec ⟨index, msg, none, legacy⟩ = .ok (.bool false)) :=
  ⟨matchCaseParser.literalCase (.int64 1),
    matchCaseParser_literal Parse input ws1 ws2 t rest (.int64 1) e h0 hL h1 h2 ht hP,
    fun _ _ _ => rfl, fun _ _ _ => rfl, fun _ _ _ => rfl⟩

theorem matchCaseParser_int_literal_json_number_witness :
    ∃ caseFn : Function Unit,
      matchCaseParser parseDigit ['1', ' ', '=', '>', ' ', '2'] =
          ⟨.matchCase ⟨caseFn, .literal (.int64 2)⟩, none, []⟩ ∧
        (∀ (index : Int) (msg : Unit) (legacy : Bool),
          caseFn.Exec ⟨index, msg, some (.float64 0x3FF0000000000000), legacy⟩ =
            .ok (.bool false)) ∧
        (∀ (index : Int) (msg : Unit) (legacy : Bool),
          caseFn.Exec ⟨index, msg, some (.int64 1), legacy⟩ = .ok (.bool true)) ∧
        (∀ (index : Int) (msg : Unit) (legacy : Bool),
          caseFn.Exec ⟨index, msg, none, legacy⟩ = .ok (.bool false)) :=
  matchCaseParser_int_literal_json_number parseDigit ['1', ' ', '=', '>', ' ', '2'] [' '] [' ']
    ['2'] [] (.literal (.int64 2)) (by decide) rfl (by decide) (by decide)
    (fun c hc => by
      simp only [List.head?_cons, Option.some.injEq] at hc
      subst hc
      decide)
    rfl

theorem split_foldl_unchanged (input : Runes) (l : List Nat) (acc : Runes × Runes)
    (h : ∀ i ∈ l, input[i]? ≠ some ':') :
    l.foldl (fun acc i => if input[i]? = some ':' then (input.take i, input.drop (i + 1))
      else acc) acc = acc := by
  induction l generalizing acc with
  | nil => rfl
  | cons i l ih =>
    have hi : input[i]? ≠ some ':' := h i (List.mem_cons_self _ _)
    simp only [List.foldl_cons, if_neg hi]
    exact ih acc (fun j hj => h j (List.mem_cons_of_mem _ hj))

/-- The loop of `parseDeprecatedFunction` splits its input at the last colon. -/
theorem split_last_colon (a b : Runes) (hb : ':' ∉ b) :
    parseDeprecatedFunction.split (a ++ ':' :: b) = (a, b) := by
  have hlen : (a ++ ':' :: b).length = (a.length + 1) + b.length := by
    simp only [List.length_append, List.length_cons]
    omega
  have hat : (a ++ ':' :: b)[a.length]? = some ':' := by
    rw [List.getElem?_append_right (Nat.le_refl _)]
    simp
  have htail : ∀ i ∈ (List.range b.length).map (fun k => a.length + 1 + k),
      (a ++ ':' :: b)[i]? ≠ some ':' := by
    intro i hi
    obtain ⟨k, _, rfl⟩ := List.mem_map.mp hi
    intro hk
    have hk' : b[k]? = some ':' := by
      have : a.length + 1 + k = a.length + (k + 1) := by omega
      rw [this, List.getElem?_append_right (Nat.le_add_right _ _)] at hk
      simpa using hk
    exact hb (List.getElem?_mem hk')
  unfold parseDeprecatedFunction.split
  rw [hlen, List.range_add, List.foldl_append, split_foldl_unchanged _ _ _ htail,
    List.range_succ, List.foldl_append]
  simp only [List.foldl_cons, List.foldl_nil, hat, if_true]
  have hdrop : (a ++ ':' :: b).drop (a.length + 1) = b := by
    have : a ++ ':' :: b = (a ++ [':']) ++ b := by simp
    rw [this]
    have hl : (a ++ [':']).length = a.length + 1 := by simp
    rw [← hl, List.drop_left]
  rw [hdrop, List.take_left]

/-- What `parseDeprecatedFunction` does on an input with a colon: the name looked up is
everything before the last colon and the argument everything after it. -/
theorem parseDeprecatedFunction_last_colon (table : Runes → Option (Runes → Function M))
    (wrap : Function M → Function M) (a b : Runes) (ha : a ≠ []) (hb : ':' ∉ b) :
    parseDeprecatedFunction table wrap (a ++ ':' :: b) =
      match table a with
      | none => ⟨.nil, some (.expected []), a ++ ':' :: b⟩
      | some ftor => ⟨.function (wrap (ftor b)), none, []⟩ := by
  have hl : a.length ≠ 0 := fun h => ha (List.length_eq_zero.mp h)
  simp only [parseDeprecatedFunction, split_last_colon a b hb, if_neg hl]

/-- C5, at a failing input: on `echo:a:b` the name `parseDeprecatedFunction` looks up is
`echo:a`, so with no function of that name it returns an error and consumes nothing, whether
or not `echo` is registered. -/
theorem parseDeprecatedFunction_colon_in_arg (table : Runes → Option (Runes → Function M))
    (wrap : Function M → Function M) (h : table "echo:a".toList = none) :
    parseDeprecatedFunction table wrap "echo:a:b".toList =
      ⟨.nil, some (.expected []), "echo:a:b".toList⟩ := by
  have := parseDeprecatedFunction_last_colon table wrap "echo:a".toList "b".toList
    (by decide) (by decide)
  rw [h] at this
  exact this

theorem parseDeprecatedFunction_colon_in_arg_witness :
    echoOnly "echo:a".toList = none ∧
      (∃ ftor, echoOnly "echo".toList = some ftor) ∧
      parseDeprecatedFunction echoOnly id "echo:a:b".toList =
        ⟨.nil, some (.expected []), "echo:a:b".toList⟩ :=
  ⟨rfl, ⟨_, rfl⟩, parseDeprecatedFunction_colon_in_arg echoOnly id rfl⟩

theorem matchFunction_run_skip (ctx : FunctionContext M) (pre rest : List (matchCase M))
    (hpre : ∀ k ∈ pre, ∃ w, k.caseFn.Exec ctx = .ok w ∧ w ≠ .bool true) :
    matchFunction.run ctx (pre ++ rest) = matchFunction.run ctx rest := by
  induction pre with
  | nil => rfl
  | cons k pre ih =>
    obtain ⟨w, hw, hne⟩ := hpre k (List.mem_cons_self _ _)
    have hrec := ih (fun k' hk' => hpre k' (List.mem_cons_of_mem _ hk'))
    simp only [List.cons_append, matchFunction.run, hw]
    cases w with
    | bool b =>
      cases b with
      | true => exact absurd rfl hne
      | false => exact hrec
    | _ => exact hrec

theorem matchExpressionParser_cases_map (cs : List (matchCase M)) :
    matchExpressionParser.cases (cs.map Payload.matchCase) = some cs := by
  induction cs with
  | nil => rfl
  | cons c cs ih => simp [matchExpressionParser.cases, ih]

/-- C6: when the sequence parser of `matchExpressionParser` accepts an input, the function
built holds the parsed cases in their order and evaluates them on the context value: the
value of the parsed context expression, or the current context value (null when there is
none) when no context expression was written.  It yields the result expression of the first
case whose predicate yields `true` on that value, and `null` when no case does.  So with the
context expression `json("foo")` and the cases `matchCaseParser` builds for
`"a" => 1, "b" => 2, _ => 3`, it yields 2 when `json("foo")` is `"b"` and 3 when it is
`"c"`. -/
theorem matchExpressionParser_first_match (seq : Type' M) (input rem : Runes)
    (a b c d : Payload M) (cases : List (matchCase M))
    (hseq : seq input = ⟨.slice [a, b, c, d, .slice (cases.map .matchCase)], none, rem⟩) :
    ∃ fn : Function M,
      matchExpressionParser seq input = ⟨.function fn, none, rem⟩ ∧
      (∀ (ctx : FunctionContext M) (v : Value),
        (match c with
          | .function contextFn => contextFn.Exec ctx = .ok v
          | _ => v = ctx.Value.getD .null) →
        (∀ (pre post : List (matchCase M)) (k : matchCase M), cases = pre ++ k :: post →
          (∀ k' ∈ pre, ∃ w, k'.caseFn.Exec { ctx with Value := some v } = .ok w ∧
            w ≠ .bool true) →
          k.caseFn.Exec { ctx with Value := some v } = .ok (.bool true) →
          fn.Exec ctx = k.queryFn.Exec { ctx with Value := some v }) ∧
        ((∀ k' ∈ cases, ∃ w, k'.caseFn.Exec { ctx with Value := some v } = .ok w ∧
            w ≠ .bool true) →
          fn.Exec ctx = .ok .null)) ∧
      (∀ contextFn : Function M, c = .function contextFn →
        cases =
          [⟨matchCaseParser.caseFn (.function (.literal (.string ['a']))), .literal (.int64 1)⟩,
           ⟨matchCaseParser.caseFn (.function (.literal (.string ['b']))), .literal (.int64 2)⟩,
           ⟨matchCaseParser.caseFn (.string ['_']), .literal (.int64 3)⟩] →
        ∀ ctx : FunctionContext M,
          (contextFn.Exec ctx = .ok (.string ['b']) → fn.Exec ctx = .ok (.int64 2)) ∧
          (contextFn.Exec ctx = .ok (.string ['c']) → fn.Exec ctx = .ok (.int64 3))) := by
  refine ⟨matchFunction (matchExpressionParser.contextFn c) cases, ?_, ?_, ?_⟩
  · simp only [matchExpressionParser, hseq, matchExpressionParser_cases_map]
  · intro ctx v hv
    have hctx : (matchExpressionParser.contextFn c).Exec ctx = .ok v := by
      cases c with
      | function contextFn => exact hv
      | nil | string _ | value _ | slice _ | matchCase _ | resolver _ =>
        subst hv
        cases h : ctx.Value <;> simp [matchExpressionParser.contextFn, Function.Exec, h]
    refine ⟨?_, ?_⟩
    · intro pre post k hcases hpre hk
      subst hcases
      simp only [matchFunction, Function.Exec, hctx]
      rw [matchFunction_run_skip _ pre (k :: post) hpre]
      simp only [matchFunction.run, hk]
    · intro hall
      have := matchFunction_run_skip { ctx with Value := some v } cases [] hall
      simp only [List.append_nil] at this
      simp only [matchFunction, Function.Exec, hctx, this, matchFunction.run]
  · intro contextFn hc hcases ctx
    subst hc hcases
    refine ⟨fun h => ?_, fun h => ?_⟩
    · simp [matchFunction, matchExpressionParser.contextFn, Function.Exec, h, matchFunction.run,
        matchCaseParser.caseFn, matchCaseParser.literalCase, goEq, Except.map]
    · simp [matchFunction, matchExpressionParser.contextFn, Function.Exec, h, matchFunction.run,
        matchCaseParser.caseFn, matchCaseParser.literalCase, goEq, Except.map, literalFunction]

/-- The expression `match json("foo") \x7b "a" => 1, "b" => 2, _ => 3 \x7d`, its cases parsed by
`matchCaseParser`: the function built yields 2 on a document whose field `foo` is `b` and 3
on one whose field `foo` is `c`. -/
theorem matchExpressionParser_first_match_witness :
    ∃ fn : Function Runes,
      matchExpressionParser matchSeq matchText = ⟨.function fn, none, []⟩ ∧
      fn.Exec ⟨0, ['b'], none, false⟩ = .ok (.int64 2) ∧
      fn.Exec ⟨0, ['c'], none, false⟩ = .ok (.int64 3) :=
  match matchExpressionParser_first_match matchSeq matchText []
    (.string ['m', 'a', 't', 'c', 'h']) .nil (.function jsonFoo) .nil
    [⟨matchCaseParser.caseFn (.function (.literal (.string ['a']))), .literal (.int64 1)⟩,
     ⟨matchCaseParser.caseFn (.function (.literal (.string ['b']))), .literal (.int64 2)⟩,
     ⟨matchCaseParser.caseFn (.string ['_']), .literal (.int64 3)⟩] rfl with
  | ⟨fn, hfn, _, hex⟩ =>
    ⟨fn, hfn, (hex jsonFoo rfl rfl ⟨0, ['b'], none, false⟩).1 rfl,
      (hex jsonFoo rfl rfl ⟨0, ['c'], none, false⟩).2 rfl⟩

end query

/-! Properties of the output batcher. -/

namespace output

theorem addAll_foldl_parts (overdue : Bool) (parts : List Part) (acc : Policy × Bool) :
    (parts.foldl (fun acc part =>
      ((acc.1.Add overdue part).1, acc.2 || (acc.1.Add overdue part).2)) acc).1.parts =
      acc.1.parts ++ parts := by
  induction parts generalizing acc with
  | nil => simp
  | cons part parts ih =>
    simp only [List.foldl_cons]
    rw [ih]
    simp [Policy.Add]

theorem addAll_parts (p : Policy) (overdue : Bool) (parts : List Part) :
    (addAll p overdue parts).1.parts = p.parts ++ parts :=
  addAll_foldl_parts overdue parts (p, false)

theorem addAll_foldl_config (overdue : Bool) (parts : List Part) (acc : Policy × Bool) :
    (parts.foldl (fun acc part =>
      ((acc.1.Add overdue part).1, acc.2 || (acc.1.Add overdue part).2)) acc).1.count =
        acc.1.count ∧
    (parts.foldl (fun acc part =>
      ((acc.1.Add overdue part).1, acc.2 || (acc.1.Add overdue part).2)) acc).1.byteSize =
        acc.1.byteSize ∧
    (parts.foldl (fun acc part =>
      ((acc.1.Add overdue part).1, acc.2 || (acc.1.Add overdue part).2)) acc).1.check =
        acc.1.check ∧
    (parts.foldl (fun acc part =>
      ((acc.1.Add overdue part).1, acc.2 || (acc.1.Add overdue part).2)) acc).1.processors =
        acc.1.processors := by
  induction parts generalizing acc with
  | nil => exact ⟨rfl, rfl, rfl, rfl⟩
  | cons part parts ih =>
    simp only [List.foldl_cons]
    obtain ⟨h1, h2, h3, h4⟩ :=
      ih ((acc.1.Add overdue part).1, acc.2 || (acc.1.Add overdue part).2)
    exact ⟨h1, h2, h3, h4⟩

theorem merge_eq_none (msgs : List Message) : Policy.merge msgs = none ↔ msgs = [] := by
  cases msgs <;> simp [Policy.merge]

/-- A policy without post-processors emits the parts it is handed. -/
theorem merge_singleton (parts : Message) : Policy.merge [parts] = some parts := by
  simp [Policy.merge]

/-- What `Flush` returns, by the parts held. -/
theorem Flush_eq (p : Policy) :
    p.Flush = if p.parts = [] then (p, none)
      else ({ p with parts := [] }, Policy.merge (p.processors p.parts)) := by
  unfold Policy.Flush
  cases hp : p.parts with
  | nil => simp
  | cons x xs => simp

/-- The three outcomes of the rest of an iteration. -/
theorem afterSelect_cases (m : Batcher) (flushBatch : Bool) :
    (flushBatch = false ∧ afterSelect m flushBatch = { m with pc := .head }) ∨
    (flushBatch = true ∧ m.batcher.parts = [] ∧
      afterSelect m flushBatch = { m with sinceFlush := [], pc := .head }) ∨
    (flushBatch = true ∧ m.batcher.parts ≠ [] ∧
      Policy.merge (m.batcher.processors m.batcher.parts) = none ∧
      afterSelect m flushBatch =
        { m with batcher := { m.batcher with parts := [] }, sinceFlush := [], pc := .head }) ∨
    (∃ sendMsg, flushBatch = true ∧ m.batcher.parts ≠ [] ∧
      Policy.merge (m.batcher.processors m.batcher.parts) = some sendMsg ∧
      afterSelect m flushBatch =
        { m with batcher := { m.batcher with parts := [] }, flushed := m.sinceFlush,
                 sinceFlush := [], pc := .send sendMsg }) := by
  cases flushBatch with
  | false => exact Or.inl ⟨rfl, by simp [afterSelect]⟩
  | true =>
    right
    by_cases hp : m.batcher.parts = []
    · left
      refine ⟨rfl, hp, ?_⟩
      simp [afterSelect, Flush_eq, hp]
    · right
      cases hm : Policy.merge (m.batcher.processors m.batcher.parts) with
      | none =>
        left
        refine ⟨rfl, hp, rfl, ?_⟩
        simp [afterSelect, Flush_eq, hp, hm]
      | some sendMsg =>
        right
        refine ⟨sendMsg, rfl, hp, rfl, ?_⟩
        simp [afterSelect, Flush_eq, hp, hm]

/-- The rest of an iteration keeps the invariant. -/
theorem afterSelect_inv (batcher : Policy) (m : Batcher) (flushBatch : Bool)
    (h0 : m.batcher.processors = batcher.processors)
    (h1 : m.pendingResChans = m.sinceSend.map (·.ResponseChan))
    (h2 : m.received = (m.sent.map (·.txs)).flatten ++ m.sinceSend)
    (h3 : ∀ e ∈ m.sent, e.upstreamResChans = e.txs.map (·.ResponseChan) ∧
      e.flushed <:+ e.txs ∧
      Policy.merge (batcher.processors (e.flushed.map (·.Payload)).flatten) = some e.msg ∧
      ((∀ parts, parts ≠ [] → batcher.processors parts ≠ []) →
        (e.flushed.map (·.Payload)).flatten = (e.txs.map (·.Payload)).flatten))
    (h5 : m.sinceFlush <:+ m.sinceSend)
    (h6 : (∀ parts, parts ≠ [] → batcher.processors parts ≠ []) →
      (m.sinceFlush.map (·.Payload)).flatten = (m.sinceSend.map (·.Payload)).flatten)
    (h4 : m.batcher.parts = (m.sinceFlush.map (·.Payload)).flatten) :
    Inv batcher (afterSelect m flushBatch) := by
  rcases afterSelect_cases m flushBatch with ⟨_, he⟩ | ⟨_, hp, he⟩ | ⟨_, hp, hm, he⟩ |
    ⟨sendMsg, _, hp, hm, he⟩
  · rw [he]
    exact ⟨h0, h1, h2, h3, h5, h6, h4⟩
  · rw [he]
    refine ⟨h0, h1, h2, h3, List.nil_suffix, ?_, ?_⟩
    · intro hnd
      have := h6 hnd
      rw [← h4, hp] at this
      simpa using this
    · simpa using hp
  · rw [he]
    refine ⟨h0, h1, h2, h3, List.nil_suffix, ?_, by simp⟩
    intro hnd
    rw [h0] at hm
    exact absurd ((merge_eq_none _).mp hm) (hnd _ hp)
  · rw [he]
    refine ⟨h0, h1, h2, h3, List.nil_suffix, fun hnd => h6 hnd, rfl, rfl, h5, ?_⟩
    rw [h0, h4] at hm
    exact hm

theorem step_inv (batcher : Policy) (m m' : Batcher) (e : Event) (hinv : Inv batcher m)
    (hstep : step m e = some m') : Inv batcher m' := by
  obtain ⟨h0, h1, h2, h3, h5, h6, h4⟩ := hinv
  cases e with
  | CloseAsync =>
    simp only [step] at hstep
    split at hstep <;> (cases hstep; exact ⟨h0, h1, h2, h3, h5, h6, h4⟩)
  | fullyClose =>
    simp only [step] at hstep
    split at hstep
    · cases hstep
    · cases hstep; exact ⟨h0, h1, h2, h3, h5, h6, h4⟩
  | head tNext =>
    cases hpc : m.pc <;> simp only [step, hpc] at hstep h4 h6 <;> try cases hstep
    split at hstep <;>
      (cases hstep
       exact ⟨h0, h1, h2, h3, h5, by first | exact h6 | exact fun _ => trivial, by simp [h4]⟩)
  | recv tran overdue =>
    cases hpc : m.pc <;> simp only [step, hpc] at hstep h4 h6 <;> try cases hstep
    obtain ⟨_, _, _, c4⟩ := addAll_foldl_config overdue tran.Payload (m.batcher, false)
    apply afterSelect_inv
    · exact c4.trans h0
    · simp [h1]
    · simp [h2]
    · exact h3
    · obtain ⟨pre, hpre⟩ := h5
      exact ⟨pre, by simp [← hpre]⟩
    · intro hnd
      simp [h6 hnd]
    · simp [addAll_parts, h4]
  | inputClosed inner =>
    cases hpc : m.pc <;> simp only [step, hpc] at hstep h4 h6 <;> try cases hstep
    split at hstep
    · cases inner with
      | none => cases hstep
      | some c =>
        cases c with
        | timer =>
          cases hstep
          exact afterSelect_inv batcher _ _ h0 h1 h2 h3 h5 h6 h4
        | closeChan =>
          simp only at hstep
          split at hstep
          · cases hstep; exact ⟨h0, h1, h2, h3, h5, fun _ => trivial, trivial⟩
          · cases hstep
    · cases inner with
      | none =>
        cases hstep
        exact afterSelect_inv batcher _ _ h0 h1 h2 h3 h5 h6 h4
      | some c => cases hstep
  | timer =>
    cases hpc : m.pc <;> simp only [step, hpc] at hstep h4 h6 <;> try cases hstep
    split at hstep
    · cases hstep; exact afterSelect_inv batcher _ _ h0 h1 h2 h3 h5 h6 h4
    · cases hstep
  | closeChan =>
    cases hpc : m.pc <;> simp only [step, hpc] at hstep h4 h6 <;> try cases hstep
    split at hstep
    · cases hstep; exact afterSelect_inv batcher _ _ h0 h1 h2 h3 h5 h6 h4
    · cases hstep
  | delivered =>
    cases hpc : m.pc <;> simp only [step, hpc] at hstep h4 h6 <;> try cases hstep
    obtain ⟨hparts, hsf, hfl, hmerge⟩ := h4
    refine ⟨h0, rfl, by simp [h2], ?_, by simp [hsf], fun _ => by simp [hsf],
      by simp [hparts, hsf]⟩
    intro e he
    rcases List.mem_append.mp he with he | he
    · exact h3 e he
    · simp only [List.mem_singleton] at he
      subst he
      exact ⟨h1, hfl, hmerge, h6⟩
  | fullyClosed =>
    cases hpc : m.pc <;> simp only [step, hpc] at hstep h4 h6 <;> try cases hstep
    split at hstep
    · cases hstep; exact ⟨h0, h1, h2, h3, h5, fun _ => trivial, trivial⟩
    · cases hstep

theorem run_inv (batcher : Policy) (events : List Event) :
    ∀ (m m' : Batcher), Inv batcher m → run m events = some m' → Inv batcher m' := by
  induction events with
  | nil =>
    intro m m' hinv hrun
    simp only [run, Option.some.injEq] at hrun
    exact hrun ▸ hinv
  | cons e es ih =>
    intro m m' hinv hrun
    simp only [run] at hrun
    cases hs : step m e with
    | none => simp [hs] at hrun
    | some m1 =>
      simp only [hs, Option.some_bind] at hrun
      exact ih m1 m' (step_inv batcher m m1 e hinv hs) hrun

theorem NewBatcher_inv (batcher : Policy) (tNext : Bool) :
    Inv batcher (NewBatcher batcher tNext) :=
  ⟨rfl, rfl, rfl, fun _ he => by simp [NewBatcher] at he, List.suffix_refl _, fun _ => rfl, rfl⟩

/-- C9, a run that contradicts its parenthetical: with count 1 and post-processors that drop
the batch made of the part `1`, the transaction on response channel 7 is consumed and its
batch dropped, so nothing is sent and the channel stays pending; the next batch, made of the
part of the transaction on channel 8 alone, is sent with both channels, and its response
reaches channel 7, whose transaction contributed no part to it. -/
theorem response_reaches_dropped_contributor :
    ∃ m : Batcher,
      run (NewBatcher ⟨1, 0, fun _ => false, false,
          fun msg => if msg = [⟨[1], []⟩] then [] else [msg], []⟩ false)
        [.head false, .recv ⟨[⟨[1], []⟩], 7⟩ false, .head false,
         .recv ⟨[⟨[2], []⟩], 8⟩ false, .delivered] = some m ∧
      m.sent = [⟨[⟨[2], []⟩], [7, 8], [⟨[⟨[1], []⟩], 7⟩, ⟨[⟨[2], []⟩], 8⟩],
        [⟨[⟨[2], []⟩], 8⟩]⟩] ∧
      forward none (some .ack) [7, 8] = [(7, .ack), (8, .ack)] :=
  ⟨_, rfl, rfl, rfl⟩

/-- C9 as amended: in every run of the loop, the pending response channels are those of the
transactions consumed since the last downstream send, in arrival order, and the sends
partition the consumed transactions.  Every batch sent downstream was handed exactly the
response channels of the transactions consumed since the send before, and the response
received for it is forwarded unchanged to each of them once, in that order (the fully-close
signal not firing).  The batch is what the post-processors made of the parts of the
transactions consumed since the flush before, which are the last of the transactions
consumed since the send before; when the post-processors never drop a batch (so without
post-processors) these are the parts of all transactions consumed since the send before.
After a send the pending list is empty. -/
theorem loop_pairs_response_with_contributors (batcher : Policy) (tNext : Bool)
    (events : List Event) (m : Batcher) (hrun : run (NewBatcher batcher tNext) events = some m) :
    m.pendingResChans = m.sinceSend.map (·.ResponseChan) ∧
      m.received = (m.sent.map (·.txs)).flatten ++ m.sinceSend ∧
      (∀ e ∈ m.sent,
        e.upstreamResChans = e.txs.map (·.ResponseChan) ∧
        (∀ res : Response, forward none (some res) e.upstreamResChans =
          e.txs.map fun t => (t.ResponseChan, res)) ∧
        e.flushed <:+ e.txs ∧
        Policy.merge (batcher.processors (e.flushed.map (·.Payload)).flatten) = some e.msg ∧
        ((∀ parts, parts ≠ [] → batcher.processors parts ≠ []) →
          Policy.merge (batcher.processors (e.txs.map (·.Payload)).flatten) = some e.msg) ∧
        ((∀ parts, batcher.processors parts = [parts]) →
          e.msg = (e.txs.map (·.Payload)).flatten)) ∧
      (∀ m' : Batcher, step m .delivered = some m' →
        m'.pendingResChans = [] ∧ m'.sinceSend = [] ∧
          ∃ sendMsg, m.pc = .send sendMsg ∧
            m'.sent = m.sent ++ [⟨sendMsg, m.pendingResChans, m.sinceSend, m.flushed⟩]) := by
  have hinv := run_inv batcher events _ m (NewBatcher_inv batcher tNext) hrun
  refine ⟨hinv.pending, hinv.received, ?_, ?_⟩
  · intro e he
    obtain ⟨hc, hsuf, hm, hk⟩ := hinv.sent e he
    refine ⟨hc, fun res => ?_, hsuf, hm, fun hnd => ?_, fun hid => ?_⟩
    · simp [forward, hc, List.map_map, Function.comp_def]
    · rw [← hk hnd]
      exact hm
    · have hnd : ∀ parts, parts ≠ [] → batcher.processors parts ≠ [] := by
        intro parts _
        rw [hid]
        simp
      rw [← hk hnd]
      rw [hid, merge_singleton] at hm
      exact (Option.some.inj hm).symm
  · intro m' hstep
    cases hpc : m.pc <;> simp only [step, hpc] at hstep <;> cases hstep
    exact ⟨rfl, rfl, _, rfl, rfl⟩

theorem loop_pairs_response_with_contributors_witness :
    ∃ m : Batcher,
      run (NewBatcher ⟨2, 0, fun _ => false, false, fun msg => [msg], []⟩ false)
        [.head false, .recv ⟨[⟨[1], []⟩], 7⟩ false, .head false,
         .recv ⟨[⟨[2], []⟩], 8⟩ false, .delivered] = some m ∧
      m.sent = [⟨[⟨[1], []⟩, ⟨[2], []⟩], [7, 8], [⟨[⟨[1], []⟩], 7⟩, ⟨[⟨[2], []⟩], 8⟩],
        [⟨[⟨[1], []⟩], 7⟩, ⟨[⟨[2], []⟩], 8⟩]⟩] ∧
      m.pendingResChans = [] ∧
      ∀ e ∈ m.sent,
        e.upstreamResChans = e.txs.map (·.ResponseChan) ∧
        (∀ res : Response, forward none (some res) e.upstreamResChans =
          e.txs.map fun t => (t.ResponseChan, res)) ∧
        e.msg = (e.txs.map (·.Payload)).flatten :=
  ⟨_, rfl, rfl, rfl, fun e he =>
    have h := (loop_pairs_response_with_contributors
      ⟨2, 0, fun _ => false, false, fun msg => [msg], []⟩ false
      [.head false, .recv ⟨[⟨[1], []⟩], 7⟩ false, .head false,
       .recv ⟨[⟨[2], []⟩], 8⟩ false, .delivered] _ rfl).2.2.1 e he
    ⟨h.1, h.2.1, h.2.2.2.2.2 (fun _ => rfl)⟩⟩

/-- C10, at a failing input: with a period configured, after one part was added on response
channel 7, `CloseAsync` is called and the input is closed; the loop, waiting for the timed
batch, takes the close signal in the inner `select` and returns with the part unflushed and
the upstream response channel pending, the fully-close signal not having fired. -/
theorem exits_unflushed_close_during_timed_wait :
    ∃ m : Batcher,
      run (NewBatcher ⟨0, 0, fun _ => false, true, fun msg => [msg], []⟩ true)
        [.head true, .recv ⟨[⟨[1], []⟩], 7⟩ false, .head true, .CloseAsync,
         .inputClosed (some .closeChan)] = some m ∧
      m.pc = .exited ∧ m.fullyCloseChan = false ∧ m.batcher.parts = [⟨[1], []⟩] ∧
      m.pendingResChans = [7] ∧ m.sent = [] :=
  ⟨_, rfl, rfl, rfl, rfl, rfl, rfl⟩

/-- A second run that loses the final flush: `CloseAsync` is called while the loop is between
two iterations; the loop condition then reads `running = 0` and the loop ends without
reaching the `select` that flushes on the close signal. -/
theorem exits_unflushed_close_before_condition :
    ∃ m : Batcher,
      run (NewBatcher ⟨0, 0, fun _ => false, false, fun msg => [msg], []⟩ false)
        [.head false, .recv ⟨[⟨[1], []⟩], 7⟩ false, .CloseAsync, .head false] = some m ∧
      m.pc = .exited ∧ m.fullyCloseChan = false ∧ m.batcher.parts = [⟨[1], []⟩] ∧
      m.pendingResChans = [7] ∧ m.sent = [] :=
  ⟨_, rfl, rfl, rfl, rfl, rfl, rfl⟩

/-- The sibling path: when the close signal is taken in the main `select`, the same state is
flushed, and the batch, once delivered, is paired with the pending response channel. -/
theorem main_select_close_flushes :
    ∃ m : Batcher,
      run (NewBatcher ⟨0, 0, fun _ => false, false, fun msg => [msg], []⟩ false)
        [.head false, .recv ⟨[⟨[1], []⟩], 7⟩ false, .head false, .CloseAsync, .closeChan,
         .delivered, .head false] = some m ∧
      m.pc = .exited ∧ m.batcher.parts = [] ∧ m.pendingResChans = [] ∧
      m.sent = [⟨[⟨[1], []⟩], [7], [⟨[⟨[1], []⟩], 7⟩], [⟨[⟨[1], []⟩], 7⟩]⟩] :=
  ⟨_, rfl, rfl, rfl, rfl, rfl⟩

theorem addAll_foldl_true (overdue : Bool) (parts : List Part) (q : Policy) :
    (parts.foldl (fun acc part =>
      ((acc.1.Add overdue part).1, acc.2 || (acc.1.Add overdue part).2)) (q, true)).2 = true := by
  induction parts generalizing q with
  | nil => rfl
  | cons part parts ih =>
    simp only [List.foldl_cons, Bool.true_or]
    exact ih _

/-- Reaching the count while adding the parts of a transaction sets `flushBatch`. -/
theorem addAll_foldl_count_reached (overdue : Bool) (parts : List Part) (q : Policy) (b : Bool)
    (hN : 0 < q.count) (hlt : q.parts.length < q.count)
    (hge : q.count ≤ q.parts.length + parts.length) :
    (parts.foldl (fun acc part =>
      ((acc.1.Add overdue part).1, acc.2 || (acc.1.Add overdue part).2)) (q, b)).2 = true := by
  induction parts generalizing q b with
  | nil => simp at hge; omega
  | cons part parts ih =>
    simp only [List.foldl_cons]
    by_cases hnow : q.count ≤ q.parts.length + 1
    · have ht : (q.Add overdue part).2 = true := by
        simp [Policy.Add, hN, hnow]
      rw [ht, Bool.or_true]
      exact addAll_foldl_true overdue parts _
    · apply ih
      · exact hN
      · simp [Policy.Add]; omega
      · simp only [List.length_cons] at hge
        simp [Policy.Add]; omega

/-- With the count as the only trigger, `flushBatch` is set only when the count is reached. -/
theorem addAll_foldl_count_only (parts : List Part) (q : Policy) (b : Bool)
    (hB : q.byteSize = 0) (hC : ∀ x, q.check x = false)
    (h : (parts.foldl (fun acc part =>
      ((acc.1.Add false part).1, acc.2 || (acc.1.Add false part).2)) (q, b)).2 = true) :
    b = true ∨ q.count ≤ q.parts.length + parts.length := by
  induction parts generalizing q b with
  | nil => exact Or.inl h
  | cons part parts ih =>
    simp only [List.foldl_cons] at h
    have hq : (q.Add false part).1.byteSize = 0 ∧ (∀ x, (q.Add false part).1.check x = false) ∧
        (q.Add false part).1.count = q.count ∧
        (q.Add false part).1.parts.length = q.parts.length + 1 := by
      simp [Policy.Add, hB, hC]
    rcases ih _ _ hq.1 hq.2.1 h with hb | hlen
    · rcases Bool.or_eq_true_iff.mp hb with hb | ht
      · exact Or.inl hb
      · right
        simp [Policy.Add, hB, hC] at ht
        simp only [List.length_cons]
        omega
    · right
      rw [hq.2.2.1, hq.2.2.2] at hlen
      simp only [List.length_cons]
      omega

theorem afterSelect_countInv (batcher : Policy) (m : Batcher) (flushBatch : Bool)
    (hN : 0 < batcher.count) (h1 : m.batcher.count = batcher.count)
    (h2 : m.batcher.byteSize = batcher.byteSize) (h3 : m.batcher.check = batcher.check)
    (h0 : m.batcher.processors = batcher.processors)
    (h4 : flushBatch = false → m.batcher.parts.length < batcher.count) :
    CountInv batcher (afterSelect m flushBatch) := by
  rcases afterSelect_cases m flushBatch with ⟨hf, he⟩ | ⟨_, hp, he⟩ | ⟨_, hp, hm, he⟩ |
    ⟨sendMsg, _, hp, hm, he⟩
  · rw [he]
    exact ⟨h1, h2, h3, h0, h4 hf⟩
  · rw [he]
    exact ⟨h1, h2, h3, h0, by simp [hp, hN]⟩
  · rw [he]
    exact ⟨h1, h2, h3, h0, by simp [hN]⟩
  · rw [he]
    exact ⟨h1, h2, h3, h0, rfl⟩

theorem step_countInv (batcher : Policy) (m m' : Batcher) (e : Event) (hN : 0 < batcher.count)
    (hinv : CountInv batcher m) (hstep : step m e = some m') : CountInv batcher m' := by
  obtain ⟨h1, h2, h3, h0, h4⟩ := hinv
  cases e with
  | CloseAsync =>
    simp only [step] at hstep
    split at hstep <;> (cases hstep; exact ⟨h1, h2, h3, h0, h4⟩)
  | fullyClose =>
    simp only [step] at hstep
    split at hstep
    · cases hstep
    · cases hstep; exact ⟨h1, h2, h3, h0, h4⟩
  | head tNext =>
    cases hpc : m.pc <;> simp only [step, hpc] at hstep h4 <;> try cases hstep
    split at hstep <;> (cases hstep; exact ⟨h1, h2, h3, h0, by simp [h4]⟩)
  | recv tran overdue =>
    cases hpc : m.pc <;> simp only [step, hpc] at hstep h4 <;> try cases hstep
    obtain ⟨c1, c2, c3, c4⟩ := addAll_foldl_config overdue tran.Payload (m.batcher, false)
    apply afterSelect_countInv batcher _ _ hN
    · exact c1.trans h1
    · exact c2.trans h2
    · exact c3.trans h3
    · exact c4.trans h0
    · intro hfalse
      simp only [addAll_parts, List.length_append]
      by_contra hge
      have := addAll_foldl_count_reached overdue tran.Payload m.batcher false
        (by omega) (by omega) (by omega)
      simp only [addAll] at hfalse
      rw [this] at hfalse
      cases hfalse
  | inputClosed inner =>
    cases hpc : m.pc <;> simp only [step, hpc] at hstep h4 <;> try cases hstep
    split at hstep
    · cases inner with
      | none => cases hstep
      | some c =>
        cases c with
        | timer =>
          cases hstep
          exact afterSelect_countInv batcher _ _ hN h1 h2 h3 h0 (fun h => by cases h)
        | closeChan =>
          simp only at hstep
          split at hstep
          · cases hstep; exact ⟨h1, h2, h3, h0, trivial⟩
          · cases hstep
    · cases inner with
      | none =>
        cases hstep
        exact afterSelect_countInv batcher _ _ hN h1 h2 h3 h0 (fun h => by cases h)
      | some c => cases hstep
  | timer =>
    cases hpc : m.pc <;> simp only [step, hpc] at hstep h4 <;> try cases hstep
    split at hstep
    · cases hstep; exact afterSelect_countInv batcher _ _ hN h1 h2 h3 h0 (fun h => by cases h)
    · cases hstep
  | closeChan =>
    cases hpc : m.pc <;> simp only [step, hpc] at hstep h4 <;> try cases hstep
    split at hstep
    · cases hstep; exact afterSelect_countInv batcher _ _ hN h1 h2 h3 h0 (fun h => by cases h)
    · cases hstep
  | delivered =>
    cases hpc : m.pc <;> simp only [step, hpc] at hstep h4 <;> try cases hstep
    exact ⟨h1, h2, h3, h0, by simp [h4, hN]⟩
  | fullyClosed =>
    cases hpc : m.pc <;> simp only [step, hpc] at hstep h4 <;> try cases hstep
    split at hstep
    · cases hstep; exact ⟨h1, h2, h3, h0, trivial⟩
    · cases hstep

theorem run_countInv (batcher : Policy) (hN : 0 < batcher.count) (events : List Event) :
    ∀ (m m' : Batcher), CountInv batcher m → run m events = some m' → CountInv batcher m' := by
  induction events with
  | nil =>
    intro m m' hinv hrun
    simp only [run, Option.some.injEq] at hrun
    exact hrun ▸ hinv
  | cons e es ih =>
    intro m m' hinv hrun
    simp only [run] at hrun
    cases hs : step m e with
    | none => simp [hs] at hrun
    | some m1 =>
      simp only [hs, Option.some_bind] at hrun
      exact ih m1 m' (step_countInv batcher m m1 e hN hinv hs) hrun

theorem NewBatcher_countInv (batcher : Policy) (tNext : Bool) (hN : 0 < batcher.count) :
    CountInv batcher (NewBatcher batcher tNext) :=
  ⟨rfl, rfl, rfl, rfl, hN⟩

/-- What a send that follows the main `select` offers: what the post-processors made of all
the parts the policy held, the flush flag having been set. -/
theorem afterSelect_send (m : Batcher) (flushBatch : Bool) (msg : Message)
    (h : (afterSelect m flushBatch).pc = .send msg) :
    flushBatch = true ∧ Policy.merge (m.batcher.processors m.batcher.parts) = some msg := by
  rcases afterSelect_cases m flushBatch with ⟨_, he⟩ | ⟨_, _, he⟩ | ⟨_, _, _, he⟩ |
    ⟨sendMsg, hf, _, hm, he⟩
  · rw [he] at h
    cases h
  · rw [he] at h
    cases h
  · rw [he] at h
    cases h
  · rw [he] at h
    simp only [Pc.send.injEq] at h
    exact ⟨hf, h ▸ hm⟩

/-- C11, a run that contradicts it: with count 2 and no post-processors, a transaction of
three parts sets the flush flag at its second part, the third part is added all the same, and
the batch offered downstream has three parts. -/
theorem count_batch_three_parts :
    ∃ m : Batcher,
      run (NewBatcher ⟨2, 0, fun _ => false, false, fun msg => [msg], []⟩ false)
        [.head false, .recv ⟨[⟨[1], []⟩, ⟨[2], []⟩, ⟨[3], []⟩], 7⟩ false] = some m ∧
      m.pc = .send [⟨[1], []⟩, ⟨[2], []⟩, ⟨[3], []⟩] ∧
      (addAll ⟨2, 0, fun _ => false, false, fun msg => [msg], []⟩ false
        [⟨[1], []⟩, ⟨[2], []⟩, ⟨[3], []⟩]).2 = true ∧
      ([⟨[1], []⟩, ⟨[2], []⟩, ⟨[3], []⟩] : Message).length = 3 :=
  ⟨_, rfl, rfl, rfl, rfl⟩

/-- A second run that contradicts C11, the one of the test `TestPolicyArchived`: with count 2
and a post-processor that archives the batch into one part (the parts `foo` and `bar` joined
by a line break), two single-part transactions fire the count and the batch offered
downstream has one part. -/
theorem count_batch_archived_one_part :
    ∃ m : Batcher,
      run (NewBatcher ⟨2, 0, fun _ => false, false,
          fun msg => [[⟨(msg.map (·.data)).intersperse [10] |>.flatten, []⟩]], []⟩ false)
        [.head false, .recv ⟨[⟨[102, 111, 111], []⟩], 7⟩ false, .head false,
         .recv ⟨[⟨[98, 97, 114], []⟩], 8⟩ false] = some m ∧
      m.pc = .send [⟨[102, 111, 111, 10, 98, 97, 114], []⟩] :=
  ⟨_, rfl, rfl⟩

/-- C11 as amended: in every run of a Batcher whose policy has count N > 0, the batch offered
downstream right after a transaction was consumed is what the post-processors made of all
the parts accumulated, that transaction's included (these parts themselves without
post-processors).  These parts are fewer than N plus the parts of that transaction; so when
the count is reached, they are exactly N when the transaction has one part, whatever the
other triggers of the policy.  When the count is the only trigger that can fire, the count is
reached. -/
theorem count_batch_bounds (batcher : Policy) (tNext : Bool) (events : List Event)
    (m m' : Batcher) (tran : Transaction) (overdue : Bool) (msg : Message)
    (hN : 0 < batcher.count) (hrun : run (NewBatcher batcher tNext) events = some m)
    (hstep : step m (.recv tran overdue) = some m') (hsend : m'.pc = .send msg) :
    Policy.merge (batcher.processors (m.batcher.parts ++ tran.Payload)) = some msg ∧
      ((∀ parts, batcher.processors parts = [parts]) →
        msg = m.batcher.parts ++ tran.Payload) ∧
      (m.batcher.parts ++ tran.Payload).length < batcher.count + tran.Payload.length ∧
      (batcher.count ≤ (m.batcher.parts ++ tran.Payload).length → tran.Payload.length = 1 →
        (m.batcher.parts ++ tran.Payload).length = batcher.count) ∧
      (batcher.byteSize = 0 → (∀ x, batcher.check x = false) → overdue = false →
        batcher.count ≤ (m.batcher.parts ++ tran.Payload).length) := by
  have hinv := run_countInv batcher hN events _ m (NewBatcher_countInv batcher tNext hN) hrun
  obtain ⟨h1, h2, h3, h0, h4⟩ := hinv
  cases hpc : m.pc <;> simp only [step, hpc] at hstep h4 <;> try cases hstep
  obtain ⟨hfb, hmsg⟩ := afterSelect_send _ _ msg hsend
  obtain ⟨_, _, _, c4⟩ := addAll_foldl_config overdue tran.Payload (m.batcher, false)
  simp only [addAll_parts] at hmsg
  have hproc : (addAll m.batcher overdue tran.Payload).1.processors = batcher.processors :=
    c4.trans h0
  rw [hproc] at hmsg
  refine ⟨hmsg, ?_, by simp only [List.length_append]; omega,
    fun hge h1p => by simp only [List.length_append] at hge ⊢; omega, ?_⟩
  · intro hid
    rw [hid, merge_singleton] at hmsg
    exact (Option.some.inj hmsg).symm
  · intro hB hC ho
    subst ho
    have hge := addAll_foldl_count_only tran.Payload m.batcher false (h2.trans hB)
      (fun x => by rw [h3]; exact hC x) hfb
    rcases hge with hb | hge
    · cases hb
    · rw [h1] at hge
      simp only [List.length_append]
      exact hge

theorem count_batch_bounds_witness :
    ∃ m m' : Batcher,
      run (NewBatcher ⟨2, 0, fun _ => false, false, fun msg => [msg], []⟩ false)
        [.head false, .recv ⟨[⟨[1], []⟩], 7⟩ false, .head false] = some m ∧
      step m (.recv ⟨[⟨[2], []⟩], 8⟩ false) = some m' ∧
      m'.pc = .send [⟨[1], []⟩, ⟨[2], []⟩] ∧
      (m.batcher.parts ++ ([⟨[2], []⟩] : Message)).length < 2 + 1 ∧
      2 ≤ (m.batcher.parts ++ ([⟨[2], []⟩] : Message)).length :=
  ⟨_, _, rfl, rfl, rfl,
    (count_batch_bounds ⟨2, 0, fun _ => false, false, fun msg => [msg], []⟩ false
      [.head false, .recv ⟨[⟨[1], []⟩], 7⟩ false, .head false] _ _ ⟨[⟨[2], []⟩], 8⟩ false
      [⟨[1], []⟩, ⟨[2], []⟩] (by decide) rfl rfl rfl).2.2.1,
    (count_batch_bounds ⟨2, 0, fun _ => false, false, fun msg => [msg], []⟩ false
      [.head false, .recv ⟨[⟨[1], []⟩], 7⟩ false, .head false] _ _ ⟨[⟨[2], []⟩], 8⟩ false
      [⟨[1], []⟩, ⟨[2], []⟩] (by decide) rfl rfl rfl).2.2.2.2 rfl (fun _ => rfl) rfl⟩

theorem ConsumeAll_started (m : Consumer) (h : m.messagesIn ≠ none)
    (calls : List (Option Error × Option Nat)) :
    ConsumeAll m calls = (m, calls.map fun _ => some Error.ErrAlreadyStarted) := by
  induction calls with
  | nil => rfl
  | cons c calls ih =>
    obtain ⟨childErr, msgs⟩ := c
    simp only [ConsumeAll, Consume, if_pos h, ih, List.map_cons]

/-- C12: once `Consume` has succeeded with a non-nil channel, every later call returns
`ErrAlreadyStarted` and leaves the Batcher as it is: the input channel is kept, the child's
`Consume` is not called, no loop is started.  When the child's `Consume` returns an error on
the first call, that error is returned, `messagesIn` stays unset and no loop is started. -/
theorem Consume_once (m : Consumer) (h : m.messagesIn = none) (c : Nat) :
    Consume m none (some c) =
        (⟨some c, m.childConsumes + 1, m.loops + 1⟩, none) ∧
      (∀ calls : List (Option Error × Option Nat),
        ConsumeAll (Consume m none (some c)).1 calls =
          (⟨some c, m.childConsumes + 1, m.loops + 1⟩,
            calls.map fun _ => some Error.ErrAlreadyStarted)) ∧
      (∀ (err : Error) (msgs : Option Nat),
        Consume m (some err) msgs =
          (⟨none, m.childConsumes + 1, m.loops⟩, some err)) := by
  have h1 : Consume m none (some c) =
      (⟨some c, m.childConsumes + 1, m.loops + 1⟩, none) := by
    simp [Consume, h]
  refine ⟨h1, fun calls => ?_, fun err msgs => ?_⟩
  · rw [h1]
    exact ConsumeAll_started _ (by simp) calls
  · simp [Consume, h]

theorem Consume_once_witness :
    ConsumeAll (Consume ⟨none, 0, 0⟩ none (some 5)).1
        [(none, some 6), (some .ErrTimeout, some 7), (none, none)] =
      (⟨some 5, 1, 1⟩, [some .ErrAlreadyStarted, some .ErrAlreadyStarted,
        some .ErrAlreadyStarted]) :=
  (Consume_once ⟨none, 0, 0⟩ rfl 5).2.1 [(none, some 6), (some .ErrTimeout, some 7), (none, none)]

/-- What every sequence of calls keeps true of the close fields: `closeChan` is open while
`running` is 1, `fullyCloseChan` is open until `fullyCloseOnce` has run, and each channel was
closed once if it is closed and never otherwise. -/
theorem Closer_call_inv (m m' : Closer) (c : Call)
    (h1 : m.running = true → m.closeChan = false)
    (h2 : m.fullyCloseOnce = false → m.fullyCloseChan = false)
    (h3 : m.closeChanCloses = if m.closeChan then 1 else 0)
    (h4 : m.fullyCloseChanCloses = if m.fullyCloseChan then 1 else 0)
    (hc : m.call c = some m') :
    (m'.running = true → m'.closeChan = false) ∧
      (m'.fullyCloseOnce = false → m'.fullyCloseChan = false) ∧
      (m'.closeChanCloses = if m'.closeChan then 1 else 0) ∧
      (m'.fullyCloseChanCloses = if m'.fullyCloseChan then 1 else 0) := by
  cases c with
  | CloseAsync =>
    simp only [Closer.call, CloseAsync] at hc
    split at hc
    · rename_i hr
      have hcc := h1 hr
      simp only [closeChannel, hcc, Bool.false_eq_true, if_false, Option.map_some',
        Option.some.injEq] at hc
      subst hc
      exact ⟨by simp, h2, by simp [h3, hcc], h4⟩
    · cases hc
      exact ⟨h1, h2, h3, h4⟩
  | WaitForClose =>
    simp only [Closer.call, WaitForClose] at hc
    split at hc
    · split at hc
      · cases hc
        exact ⟨h1, h2, h3, h4⟩
      · rename_i ho
        have hf := h2 (by simpa using ho)
        simp only [closeChannel, hf, Bool.false_eq_true, if_false, Option.map_some',
          Option.some.injEq] at hc
        subst hc
        exact ⟨h1, by simp, h3, by simp [h4, hf]⟩
    · cases hc
      exact ⟨h1, h2, h3, h4⟩
  | loopStop =>
    simp only [Closer.call, Option.some.injEq] at hc
    subst hc
    exact ⟨by simp, h2, h3, h4⟩

theorem Closer_call_total (m : Closer) (c : Call)
    (h1 : m.running = true → m.closeChan = false)
    (h2 : m.fullyCloseOnce = false → m.fullyCloseChan = false) :
    ∃ m', m.call c = some m' := by
  cases c with
  | CloseAsync =>
    cases hr : m.running with
    | false => exact ⟨m, by simp [Closer.call, CloseAsync, hr]⟩
    | true => simp [Closer.call, CloseAsync, hr, closeChannel, h1 hr]
  | WaitForClose =>
    cases hr : m.running with
    | true => exact ⟨m, by simp [Closer.call, WaitForClose, hr]⟩
    | false =>
      cases ho : m.fullyCloseOnce with
      | true => exact ⟨m, by simp [Closer.call, WaitForClose, hr, ho]⟩
      | false => simp [Closer.call, WaitForClose, hr, ho, closeChannel, h2 ho]
  | loopStop => exact ⟨_, rfl⟩

theorem Closer_calls_inv (cs : List Call) : ∀ m : Closer,
    (m.running = true → m.closeChan = false) →
    (m.fullyCloseOnce = false → m.fullyCloseChan = false) →
    (m.closeChanCloses = if m.closeChan then 1 else 0) →
    (m.fullyCloseChanCloses = if m.fullyCloseChan then 1 else 0) →
    ∃ m', m.calls cs = some m' ∧ m'.closeChanCloses ≤ 1 ∧ m'.fullyCloseChanCloses ≤ 1 ∧
      (m'.closeChan = true → m'.running = false) := by
  induction cs with
  | nil =>
    intro m h1 _ h3 h4
    refine ⟨m, rfl, ?_, ?_, ?_⟩
    · rw [h3]; split <;> simp
    · rw [h4]; split <;> simp
    · intro hc
      cases hr : m.running with
      | false => rfl
      | true => rw [h1 hr] at hc; cases hc
  | cons c cs ih =>
    intro m h1 h2 h3 h4
    obtain ⟨m1, hm1⟩ := Closer_call_total m c h1 h2
    obtain ⟨g1, g2, g3, g4⟩ := Closer_call_inv m m1 c h1 h2 h3 h4 hm1
    obtain ⟨m', hm', hr⟩ := ih m1 g1 g2 g3 g4
    exact ⟨m', by simp [Closer.calls, hm1, hm'], hr⟩

/-- C13: no sequence of calls of `CloseAsync` and `WaitForClose`, interleaved with the loop
clearing `running`, closes a closed channel: the sequence never panics, `closeChan` is closed
at most once and only with `running` left at 0, and `fullyCloseChan` is closed at most once. -/
theorem close_channels_closed_once (cs : List Call) :
    ∃ m : Closer, NewCloser.calls cs = some m ∧ m.closeChanCloses ≤ 1 ∧
      m.fullyCloseChanCloses ≤ 1 ∧ (m.closeChan = true → m.running = false) :=
  Closer_calls_inv cs NewCloser (fun _ => rfl) (fun _ => rfl) rfl rfl

end output


/-! Properties of the fan-out broker. -/

namespace broker

/-- C14: with outputs A and B and one upstream batch, when A acks and B nacks in the first
round, the second round delivers to B only, so A receives the batch once and B twice; nothing
is sent upstream while B has not acked, and once B acks the retry exactly one ack is sent
upstream. -/
theorem FanOut_retries_only_nacking (A B : Nat) (r1 r2 : Nat → Bool) (rest : List (Nat → Bool))
    (h1A : r1 A = true) (h1B : r1 B = false) (h2B : r2 B = true) :
    FanOut (r1 :: r2 :: rest) [A, B] = ([[A, B], [B]], [.ack]) ∧
      FanOut [r1] [A, B] = ([[A, B]], []) := by
  simp [FanOut, h1A, h1B, h2B]

theorem FanOut_retries_only_nacking_witness :
    FanOut [fun t => t == 0, fun _ => true] [0, 1] = ([[0, 1], [1]], [.ack]) ∧
      FanOut [fun t => t == 0] [0, 1] = ([[0, 1]], []) :=
  FanOut_retries_only_nacking 0 1 (fun t => t == 0) (fun _ => true) [] rfl rfl rfl

end broker

/-! Properties of the serverless handler. -/

namespace serverless

theorem batchResults_ok (vs : List query.Value) :
    batchResults (vs.map .ok) = .ok vs := by
  induction vs with
  | nil => rfl
  | cons v vs ih => simp [batchResults, ih]

theorem lambdaResults_ok (batches : List (List query.Value)) : ∀ i : Nat,
    lambdaResults i (batches.map fun b => b.map .ok) = .ok batches := by
  induction batches with
  | nil => intro i; rfl
  | cons b batches ih =>
    intro i
    simp [lambdaResults, batchResults_ok, ih]

/-- C15: for an acknowledged request whose result store holds the batches `B1..Bn` of parts
with valid JSON, `Handle` returns the single value when `n = 1` and `B1` has exactly one part;
the list of the values of `B1` in part order when `n = 1` and `B1` does not have exactly one
part; a list of `n` lists, one per batch in order, when `n > 1`, also when every batch has
one part; and the object with the message `request successful` when `n = 0`. -/
theorem Handle_result_shape (r : output.Response) (hr : responseError r = none)
    (batches : List (List query.Value)) :
    (batches = [] →
      Handle none true (some r) (batches.map fun b => b.map .ok) =
        .ok (.object [("message".toList, .string "request successful".toList)])) ∧
    (∀ v, batches = [[v]] →
      Handle none true (some r) (batches.map fun b => b.map .ok) = .ok v) ∧
    (∀ b, batches = [b] → b.length ≠ 1 →
      Handle none true (some r) (batches.map fun b => b.map .ok) = .ok (.array b)) ∧
    (1 < batches.length →
      Handle none true (some r) (batches.map fun b => b.map .ok) =
        .ok (.array (batches.map .array))) := by
  refine ⟨?_, ?_, ?_, ?_⟩
  · rintro rfl
    simp [Handle, hr]
  · rintro v rfl
    simp [Handle, hr, lambdaResults, batchResults]
  · rintro b rfl hb
    have hl := lambdaResults_ok [b] 0
    simp only [List.map_cons, List.map_nil] at hl
    simp only [Handle, hr, List.map_cons, List.map_nil, List.length_cons, List.length_nil, hl]
    cases b with
    | nil => simp
    | cons v vs =>
      cases vs with
      | nil => simp at hb
      | cons w ws => simp
  · intro hn
    have hl := lambdaResults_ok batches 0
    simp only [Handle, hr, hl]
    match batches, hn with
    | b1 :: b2 :: bs, _ => simp

theorem Handle_result_shape_witness :
    Handle none true (some .ack) [[.ok (.int64 1)], [.ok (.int64 2)]] =
      .ok (.array [.array [.int64 1], .array [.int64 2]]) :=
  (Handle_result_shape .ack rfl [[.int64 1], [.int64 2]]).2.2.2 (by decide)

end serverless

/-! Properties of the escaping of resolved bytes. -/

namespace field

/-- C16, at a failing input: when the query yields the single byte 7 (the bell character),
`ResolveBytes` with `escaped = true` returns the two bytes of `\a`, the escape `strconv.Quote`
writes for it, and these are not the inside of a JSON string literal; with `escaped = false`
the byte is returned unchanged. -/
theorem ResolveBytes_escaped_bell
    (ExecToBytes : query.Function M → query.FunctionContext M → List Nat)
    (IsPrint : Nat → Bool) (AppendRune : Nat → List Nat) (DecodeRune : List Nat → Nat × Nat)
    (fn : query.Function M) (index : Int) (msg : M) (legacy : Bool)
    (h : ExecToBytes fn ⟨index, msg, none, legacy⟩ = [7]) :
    queryResolver.ResolveBytes ExecToBytes (Quote IsPrint AppendRune DecodeRune) fn index msg
        true legacy = [92, 97] ∧
      jsonStringBody [92, 97] = false ∧
      queryResolver.ResolveBytes ExecToBytes (Quote IsPrint AppendRune DecodeRune) fn index msg
        false legacy = [7] := by
  refine ⟨?_, by decide, ?_⟩
  · simp only [queryResolver.ResolveBytes, h, if_true]
    rfl
  · simp [queryResolver.ResolveBytes, h]

theorem ResolveBytes_escaped_bell_witness :
    queryResolver.ResolveBytes (M := Unit) (fun _ _ => [7])
        (Quote (fun _ => false) (fun _ => []) (fun _ => (65533, 1))) (.literal .null) 0 () true
        false = [92, 97] ∧
      jsonStringBody [92, 97] = false :=
  ⟨(ResolveBytes_escaped_bell (M := Unit) (fun _ _ => [7]) (fun _ => false) (fun _ => [])
      (fun _ => (65533, 1)) (.literal .null) 0 () false rfl).1,
    (ResolveBytes_escaped_bell (M := Unit) (fun _ _ => [7]) (fun _ => false) (fun _ => [])
      (fun _ => (65533, 1)) (.literal .null) 0 () false rfl).2.1⟩

end field

/-! Properties of the sample processor. -/

namespace processor

/-- A value below 1 is not greater than 1. -/
theorem float64Gt_one (v : Nat) (hv : v < 0x3FF0000000000000) :
    float64Gt v 0x3FF0000000000000 = false := by
  have h1 : float64Key v = (v : Int) := by
    simp only [float64Key]
    rw [if_pos (by omega)]
  have h2 : float64Key 0x3FF0000000000000 = (0x3FF0000000000000 : Int) := by decide
  simp only [float64Gt, h1, h2, Bool.and_eq_false_imp, decide_eq_false_iff_not]
  intro _ _
  omega

/-- The processor after a call: one more value drawn, `retain` and the seed kept. -/
theorem ProcessMessage_state (Float64 : Int → Nat → Nat) (s : Sample) (msg : output.Message) :
    (s.ProcessMessage Float64 msg).2 = { s with drawn := s.drawn + 1 } := by
  simp only [Sample.ProcessMessage]
  split <;> rfl

/-- The processor after a run of calls. -/
theorem foldl_ProcessMessage (Float64 : Int → Nat → Nat) (msgs : List output.Message) :
    ∀ s : Sample, msgs.foldl (fun s m => (s.ProcessMessage Float64 m).2) s =
      { s with drawn := s.drawn + msgs.length } := by
  induction msgs with
  | nil => intro s; rfl
  | cons m msgs ih =>
    intro s
    rw [List.foldl_cons, ih, ProcessMessage_state, List.length_cons]
    simp only [Nat.add_assoc, Nat.add_comm 1 msgs.length]

/-- C17: every call of `ProcessMessage` on the processor that `NewSample` builds from the
configured percentage `Retain` and the seed, after any calls made before, returns either
the input batch alone and no response, or no batch and an ack, never both or neither; the
batch is kept exactly when the value the generator yields at this call is not greater than
the quotient of `Retain` by 100.  With `Retain` 100 the quotient is 1 and every batch is
kept, the values drawn being below 1. -/
theorem ProcessMessage_keep_or_drop (fdiv : Nat → Nat → Nat) (Float64 : Int → Nat → Nat)
    (Retain : Nat) (RandomSeed : Int) (earlier : List output.Message) (s : Sample)
    (msg : output.Message)
    (hs : s = earlier.foldl (fun s m => (s.ProcessMessage Float64 m).2)
      (NewSample fdiv Retain RandomSeed)) :
    ((s.ProcessMessage Float64 msg).1 = ([msg], none) ∨
        (s.ProcessMessage Float64 msg).1 = ([], some .ack)) ∧
      ((s.ProcessMessage Float64 msg).1 = ([msg], none) ↔
        float64Gt (Float64 RandomSeed earlier.length) (fdiv Retain 0x4059000000000000) =
          false) ∧
      ((s.ProcessMessage Float64 msg).1 = ([], some .ack) ↔
        float64Gt (Float64 RandomSeed earlier.length) (fdiv Retain 0x4059000000000000) =
          true) ∧
      (Retain = 0x4059000000000000 →
        fdiv 0x4059000000000000 0x4059000000000000 = 0x3FF0000000000000 →
        Float64 RandomSeed earlier.length < 0x3FF0000000000000 →
        (s.ProcessMessage Float64 msg).1 = ([msg], none)) := by
  have hstate : s = (⟨fdiv Retain 0x4059000000000000, RandomSeed, earlier.length⟩ : Sample) := by
    rw [hs, foldl_ProcessMessage]
    simp [NewSample]
  subst hstate
  cases hgt : float64Gt (Float64 RandomSeed earlier.length) (fdiv Retain 0x4059000000000000) with
  | true =>
    have hres : (Sample.ProcessMessage Float64 ⟨fdiv Retain 0x4059000000000000, RandomSeed,
        earlier.length⟩ msg).1 = ([], some .ack) := by
      simp only [Sample.ProcessMessage, hgt, if_true]
    refine ⟨Or.inr hres, by simp [hres], by simp [hres], ?_⟩
    intro hR hdiv hv
    rw [hR, hdiv, float64Gt_one _ hv] at hgt
    cases hgt
  | false =>
    have hres : (Sample.ProcessMessage Float64 ⟨fdiv Retain 0x4059000000000000, RandomSeed,
        earlier.length⟩ msg).1 = ([msg], none) := by
      simp only [Sample.ProcessMessage, hgt, Bool.false_eq_true, if_false]
    exact ⟨Or.inl hres, by simp [hres], by simp [hres], fun _ _ _ => hres⟩

/-- With a division that gives 1 for 100 by 100 and one tenth for 10 by 100, and a generator
that yields one half: the processor configured with 100 keeps its second batch, the one
configured with 10 drops it. -/
theorem ProcessMessage_keep_or_drop_witness :
    (((NewSample (fun a b => if a = b then 0x3FF0000000000000 else 0x3FB999999999999A)
          0x4059000000000000 7).ProcessMessage (fun _ _ => 0x3FE0000000000000) []).2.ProcessMessage
        (fun _ _ => 0x3FE0000000000000) [⟨[1], []⟩]).1 = ([[⟨[1], []⟩]], none) ∧
      (((NewSample (fun a b => if a = b then 0x3FF0000000000000 else 0x3FB999999999999A)
          0x4024000000000000 7).ProcessMessage (fun _ _ => 0x3FE0000000000000) []).2.ProcessMessage
        (fun _ _ => 0x3FE0000000000000) [⟨[1], []⟩]).1 = ([], some .ack) :=
  ⟨(ProcessMessage_keep_or_drop
      (fun a b => if a = b then 0x3FF0000000000000 else 0x3FB999999999999A)
      (fun _ _ => 0x3FE0000000000000) 0x4059000000000000 7 [[]] _ [⟨[1], []⟩] rfl).2.2.2
      rfl rfl (by decide),
    ((ProcessMessage_keep_or_drop
      (fun a b => if a = b then 0x3FF0000000000000 else 0x3FB999999999999A)
      (fun _ _ => 0x3FE0000000000000) 0x4024000000000000 7 [[]] _ [⟨[1], []⟩] rfl).2.2.1).mpr
      (by decide)⟩

theorem decisions_eq (Float64 : Int → Nat → Nat) (msgs : List output.Message) :
    ∀ s : Sample, s.decisions Float64 msgs =
      (List.range msgs.length).map fun k =>
        !float64Gt (Float64 s.seed (s.drawn + k)) s.retain := by
  induction msgs with
  | nil => intro s; rfl
  | cons msg msgs ih =>
    intro s
    have h2 : (s.ProcessMessage Float64 msg).2 = { s with drawn := s.drawn + 1 } :=
      ProcessMessage_state Float64 s msg
    have h1 : (!(s.ProcessMessage Float64 msg).1.1.isEmpty) =
        !float64Gt (Float64 s.seed s.drawn) s.retain := by
      cases hgt : float64Gt (Float64 s.seed s.drawn) s.retain <;>
        simp [Sample.ProcessMessage, hgt]
    simp only [Sample.decisions, h1, h2, ih, List.length_cons, List.range_succ_eq_map,
      List.map_cons, List.map_map, Nat.add_zero]
    congr 1
    apply List.map_congr_left
    intro k _
    simp only [Function.comp, Nat.succ_eq_add_one]
    rw [Nat.add_assoc, Nat.add_comm 1 k]

/-- C18: two `Sample` processors built with the same `retain` and the same seed take the same
keep or drop decision at their `k`-th call of `ProcessMessage` for every `k`, whatever the
batches given to either. -/
theorem decisions_deterministic (fdiv : Nat → Nat → Nat) (Float64 : Int → Nat → Nat)
    (Retain : Nat) (RandomSeed : Int) (msgs1 msgs2 : List output.Message) (k : Nat)
    (d1 d2 : Bool)
    (h1 : ((NewSample fdiv Retain RandomSeed).decisions Float64 msgs1)[k]? = some d1)
    (h2 : ((NewSample fdiv Retain RandomSeed).decisions Float64 msgs2)[k]? = some d2) :
    d1 = d2 := by
  rw [decisions_eq] at h1 h2
  simp only [List.getElem?_map, Option.map_eq_some'] at h1 h2
  obtain ⟨a, ha, rfl⟩ := h1
  obtain ⟨b, hb, rfl⟩ := h2
  have ha' := (List.getElem?_eq_some.mp ha).2
  have hb' := (List.getElem?_eq_some.mp hb).2
  simp only [List.getElem_range] at ha' hb'
  rw [← ha', ← hb']

theorem decisions_deterministic_witness :
    ((NewSample (fun _ _ => 0x3FE0000000000000) 0x4049000000000000 7).decisions
        (fun _ k => if k = 0 then 0x3FD0000000000000 else 0x3FE8000000000000)
        [[⟨[1], []⟩], []])[1]? = some false ∧
      ((NewSample (fun _ _ => 0x3FE0000000000000) 0x4049000000000000 7).decisions
        (fun _ k => if k = 0 then 0x3FD0000000000000 else 0x3FE8000000000000)
        [[], [⟨[2], []⟩, ⟨[3], []⟩], []])[1]? = some false ∧
      false = false :=
  ⟨by decide, by decide,
    decisions_deterministic (fun _ _ => 0x3FE0000000000000)
      (fun _ k => if k = 0 then 0x3FD0000000000000 else 0x3FE8000000000000)
      0x4049000000000000 7 [[⟨[1], []⟩], []] [[], [⟨[2], []⟩, ⟨[3], []⟩], []] 1 false false
      (by decide) (by decide)⟩

end processor

/-! Properties of the text condition. -/

namespace condition

/-- C19, at a failing input: for a regular expression that compiles and has no match in the
empty content (such as `a`), the operator `regexp_exact` returns `true` on the empty content:
`Find` yields the nil slice, whose length 0 is the length of the content. -/
theorem regexp_exact_empty_content {R : Type} (Compile : List Nat → Except Runes R)
    (Find : R → List Nat → Option (List Nat)) (arg : List Nat) (compiled : R)
    (hc : Compile arg = .ok compiled) (hf : Find compiled [] = none) :
    ∃ op : textOperator, textRegexpExactOperator Compile Find arg = .ok op ∧ op [] = true := by
  refine ⟨fun c => ((Find compiled c).getD []).length == c.length, ?_, ?_⟩
  · simp only [textRegexpExactOperator, hc]
  · simp [hf]

theorem regexp_exact_empty_content_witness :
    ∃ op : textOperator,
      textRegexpExactOperator (R := Unit) (fun _ => .ok ())
        (fun _ c => if 97 ∈ c then some [97] else none) [97] = .ok op ∧ op [] = true :=
  regexp_exact_empty_content (R := Unit) (fun _ => .ok ())
    (fun _ c => if 97 ∈ c then some [97] else none) [97] () rfl rfl

theorem mem_foldl_Insert (entries : List (List Nat)) : ∀ (t : Tree) (k : List Nat),
    k ∈ entries.foldl Tree.Insert t ↔ k ∈ t ∨ k ∈ entries := by
  induction entries with
  | nil => intro t k; simp
  | cons e entries ih =>
    intro t k
    simp only [List.foldl_cons, ih, List.mem_cons]
    by_cases he : e ∈ t
    · simp only [Tree.Insert, if_pos he]
      constructor
      · rintro (h | h)
        · exact Or.inl h
        · exact Or.inr (Or.inr h)
      · rintro (h | h | h)
        · exact Or.inl h
        · exact Or.inl (h ▸ he)
        · exact Or.inr h
    · simp only [Tree.Insert, if_neg he, List.mem_cons]
      constructor
      · rintro ((h | h) | h)
        · exact Or.inr (Or.inl h)
        · exact Or.inl h
        · exact Or.inr (Or.inr h)
      · rintro (h | h | h)
        · exact Or.inl (Or.inr h)
        · exact Or.inl (Or.inl h)
        · exact Or.inr h

/-- C20: when the argument converts to the string list `entries`, the operator `enum` is
built and returns `true` on a content exactly when the content is equal to one of the
entries, so never for an empty list; when the argument does not convert, construction fails
with the conversion error. -/
theorem enum_exact_member (ToStringSliceE : Arg → Except Runes (List (List Nat))) (arg : Arg) :
    (∀ entries, ToStringSliceE arg = .ok entries →
      ∃ op : textOperator, textEnumOperator ToStringSliceE arg = .ok op ∧
        (∀ c, op c = true ↔ c ∈ entries) ∧ (entries = [] → ∀ c, op c = false)) ∧
    (∀ err, ToStringSliceE arg = .error err →
      textEnumOperator ToStringSliceE arg = .error (.failedToParseSlice err)) := by
  refine ⟨fun entries h => ?_, fun err h => by simp only [textEnumOperator, h]⟩
  refine ⟨fun c => (entries.foldl Tree.Insert []).Get c, by simp only [textEnumOperator, h],
    fun c => ?_, ?_⟩
  · simp [Tree.Get, mem_foldl_Insert]
  · rintro rfl c
    simp [Tree.Get]

theorem enum_exact_member_witness :
    ∃ op : textOperator,
      textEnumOperator (fun _ => .ok [[102, 111, 111], [98, 97, 114]])
        (.slice [.string [102, 111, 111], .string [98, 97, 114]]) = .ok op ∧
      (∀ c, op c = true ↔ c ∈ [[102, 111, 111], [98, 97, 114]]) :=
  let ⟨op, h1, h2, _⟩ := (enum_exact_member (fun _ => .ok [[102, 111, 111], [98, 97, 114]])
    (.slice [.string [102, 111, 111], .string [98, 97, 114]])).1 _ rfl
  ⟨op, h1, h2⟩

end condition

/-! Properties of the constructors of the text condition. -/

namespace condition

theorem bytesArgErr_valid (arg : Arg) (ctor : List Nat → Except Error textOperator)
    (h : ∀ b, ctor b ≠ .error .ErrInvalidTextOperator) :
    bytesArgErr arg ctor ≠ .error .ErrInvalidTextOperator := by
  cases arg with
  | string str => exact h str
  | slice xs => simp [bytesArgErr]
  | other name => simp [bytesArgErr]

theorem bytesArg_valid (arg : Arg) (ctor : List Nat → textOperator) :
    bytesArg arg ctor ≠ .error .ErrInvalidTextOperator :=
  bytesArgErr_valid arg _ (fun _ => by simp)

theorem bytesArgErr_not_string (arg : Arg) (ctor : List Nat → Except Error textOperator)
    (h : ∀ s, arg ≠ .string s) : bytesArgErr arg ctor = .error (.expectedString arg.typeName) := by
  cases arg with
  | string str => exact absurd rfl (h str)
  | slice xs => rfl
  | other name => rfl

theorem strToTextOperator_known (lib : Lib R) (str : String) (arg : Arg)
    (h : str ∈ ["equals_cs", "equals", "contains_cs", "contains", "contains_any",
      "contains_any_cs", "is", "prefix_cs", "prefix", "suffix_cs", "suffix", "regexp_partial",
      "regexp_exact", "enum"]) :
    strToTextOperator lib str arg ≠ .error .ErrInvalidTextOperator := by
  simp only [List.mem_cons, List.mem_singleton, List.not_mem_nil, or_false] at h
  rcases h with h | h | h | h | h | h | h | h | h | h | h | h | h | h <;> subst h <;>
    simp only [strToTextOperator]
  · exact bytesArg_valid _ _
  · exact bytesArg_valid _ _
  · exact bytesArg_valid _ _
  · exact bytesArg_valid _ _
  · unfold textContainsFoldAnyOperator; split <;> simp
  · unfold textContainsAnyOperator; split <;> simp
  · unfold textIsOperator
    split
    · split
      · simp
      · split
        · simp
        · split <;> simp
    · simp
  · exact bytesArg_valid _ _
  · exact bytesArg_valid _ _
  · exact bytesArg_valid _ _
  · exact bytesArg_valid _ _
  · exact bytesArgErr_valid _ _ (fun b => by unfold textRegexpPartialOperator; split <;> simp)
  · exact bytesArgErr_valid _ _ (fun b => by unfold textRegexpExactOperator; split <;> simp)
  · unfold textEnumOperator; split <;> simp

theorem strToTextOperator_unknown (lib : Lib R) (str : String) (arg : Arg)
    (h : str ∉ ["equals_cs", "equals", "contains_cs", "contains", "contains_any",
      "contains_any_cs", "is", "prefix_cs", "prefix", "suffix_cs", "suffix", "regexp_partial",
      "regexp_exact", "enum"]) :
    strToTextOperator lib str arg = .error .ErrInvalidTextOperator := by
  simp only [List.mem_cons, List.mem_singleton, List.not_mem_nil, or_false, not_or] at h
  obtain ⟨h1, h2, h3, h4, h5, h6, h7, h8, h9, h10, h11, h12, h13, h14⟩ := h
  unfold strToTextOperator
  split <;> first | rfl | contradiction

/-- C21: `strToTextOperator` returns `ErrInvalidTextOperator` exactly when the operator name
is not one of the fourteen names, whatever the argument; for the operators that take a byte
argument an argument that is no string gives the error `expected string as operator
argument`; and `NewText` reports every error of `strToTextOperator` as the error
`operator '<name>': <error>`, returning no condition. -/
theorem strToTextOperator_invalid_iff (lib : Lib R) (str : String) (arg : Arg) (part : Int) :
    (strToTextOperator lib str arg = .error .ErrInvalidTextOperator ↔
      str ∉ ["equals_cs", "equals", "contains_cs", "contains", "contains_any",
        "contains_any_cs", "is", "prefix_cs", "prefix", "suffix_cs", "suffix",
        "regexp_partial", "regexp_exact", "enum"]) ∧
    (str ∈ ["equals_cs", "equals", "contains_cs", "contains", "prefix_cs", "prefix",
        "suffix_cs", "suffix", "regexp_partial", "regexp_exact"] →
      (∀ s, arg ≠ .string s) →
      strToTextOperator lib str arg = .error (.expectedString arg.typeName)) ∧
    (∀ err, strToTextOperator lib str arg = .error err →
      NewText lib ⟨str, part, arg⟩ = .error (.operator str err)) := by
  refine ⟨⟨fun h hmem => strToTextOperator_known lib str arg hmem h,
    strToTextOperator_unknown lib str arg⟩, ?_, ?_⟩
  · intro hmem hns
    simp only [List.mem_cons, List.mem_singleton, List.not_mem_nil, or_false] at hmem
    rcases hmem with h | h | h | h | h | h | h | h | h | h <;> subst h <;>
      simp only [strToTextOperator, bytesArg] <;> exact bytesArgErr_not_string _ _ hns
  · intro err herr
    simp only [NewText, herr]

theorem strToTextOperator_invalid_iff_witness :
    strToTextOperator (R := Unit)
        ⟨fun a b => a == b, id, fun _ => false, fun _ => .ok (), fun _ _ => false,
          fun _ _ => none, fun _ => .error []⟩ "equals_cs" (.other "int".toList) =
      .error (.expectedString "int".toList) ∧
    NewText (R := Unit)
        ⟨fun a b => a == b, id, fun _ => false, fun _ => .ok (), fun _ _ => false,
          fun _ _ => none, fun _ => .error []⟩ ⟨"nope", 0, .string []⟩ =
      .error (.operator "nope" .ErrInvalidTextOperator) :=
  ⟨(strToTextOperator_invalid_iff (R := Unit)
      ⟨fun a b => a == b, id, fun _ => false, fun _ => .ok (), fun _ _ => false,
        fun _ _ => none, fun _ => .error []⟩ "equals_cs" (.other "int".toList) 0).2.1
      (by decide) (fun s h => by cases h),
    (strToTextOperator_invalid_iff (R := Unit)
      ⟨fun a b => a == b, id, fun _ => false, fun _ => .ok (), fun _ _ => false,
        fun _ _ => none, fun _ => .error []⟩ "nope" (.string []) 0).2.2 _ rfl⟩

end condition

/-! Properties of the function, method and tail parsers. -/

namespace query

open parser

theorem Sequence_two (p1 p2 : Type' M) (input r1 r2 : Runes) (a b : Payload M)
    (h1 : p1 input = ⟨a, none, r1⟩) (h2 : p2 r1 = ⟨b, none, r2⟩) :
    Sequence [p1, p2] input = ⟨.slice [a, b], none, r2⟩ := by
  simp [Sequence, Sequence.go, h1, h2]

/-- C22: on a snake-case name followed by a well-formed argument list, `functionParser`
returns the error `unrecognised function '<name>'` when the name is not registered, and
`methodParser` the error `unrecognised method '<name>'`; a constructor error for a registered
name is returned as it is; in all these cases nothing is consumed, the whole input
remains. -/
theorem functionParser_unrecognised (SnakeCase functionArgsParser : Type' M)
    (functions : Runes → Option (List (Payload M) → Except Err (Function M)))
    (methods : Runes → Option (Function M → List (Payload M) → Except Err (Function M)))
    (fn : Function M) (input name r1 r2 : Runes) (args : List (Payload M))
    (hn : SnakeCase input = ⟨.string name, none, r1⟩)
    (ha : functionArgsParser r1 = ⟨.slice args, none, r2⟩) :
    (functions name = none →
      functionParser SnakeCase functionArgsParser functions input =
        ⟨.nil, some (badFunctionErr name), input⟩) ∧
    (methods name = none →
      methodParser SnakeCase functionArgsParser methods fn input =
        ⟨.nil, some (badMethodErr name), input⟩) ∧
    (∀ ctor err, functions name = some ctor → ctor args = .error err →
      functionParser SnakeCase functionArgsParser functions input = ⟨.nil, some err, input⟩) ∧
    (∀ mtor err, methods name = some mtor → mtor fn args = .error err →
      methodParser SnakeCase functionArgsParser methods fn input = ⟨.nil, some err, input⟩) := by
  have hf : Sequence [Expect SnakeCase ["function"], functionArgsParser] input =
      ⟨.slice [.string name, .slice args], none, r2⟩ :=
    Sequence_two _ _ _ _ _ _ _ (by simp [Expect, hn]) ha
  have hm : Sequence [Expect SnakeCase ["method"], functionArgsParser] input =
      ⟨.slice [.string name, .slice args], none, r2⟩ :=
    Sequence_two _ _ _ _ _ _ _ (by simp [Expect, hn]) ha
  refine ⟨fun h => ?_, fun h => ?_, fun ctor err h he => ?_, fun mtor err h he => ?_⟩
  · simp only [functionParser, hf, h]
  · simp only [methodParser, hm, h]
  · simp only [functionParser, hf, h, he]
  · simp only [methodParser, hm, h, he]

theorem functionParser_unrecognised_witness :
    functionParser (M := Unit)
        (fun input => ⟨.string (input.takeWhile fun c => c != '('), none,
          input.dropWhile fun c => c != '('⟩)
        (fun input => ⟨.slice [], none, input.drop 2⟩) (fun _ => none)
        "not_a_function()".toList =
      ⟨.nil, some (badFunctionErr "not_a_function".toList), "not_a_function()".toList⟩ :=
  (functionParser_unrecognised (M := Unit)
    (fun input => ⟨.string (input.takeWhile fun c => c != '('), none,
      input.dropWhile fun c => c != '('⟩)
    (fun input => ⟨.slice [], none, input.drop 2⟩) (fun _ => none) (fun _ => none)
    (.literal .null) "not_a_function()".toList "not_a_function".toList "()".toList []
    [] rfl rfl).1 rfl

theorem delim_dot (rest : Runes) :
    delim (M := M) ('.' :: rest) =
      ⟨.slice [.string ['.'], .nil], none,
        (Sequence (M := M) [NewlineAllowComment, SpacesAndTabs] rest).Remaining⟩ :=
  Sequence_two _ _ _ _ _ _ _ (by simp [parser.Char]) rfl

theorem delim_miss (remaining : Runes) (h : remaining.head? ≠ some '.') :
    delim (M := M) remaining =
      ⟨.nil, some (.positional 0 (.expected [String.singleton '.'])), remaining⟩ := by
  have hchar : (parser.Char '.' remaining : Result M) =
      ⟨.nil, some (.expected [String.singleton '.']), remaining⟩ := by
    cases remaining with
    | nil => simp [parser.Char]
    | cons c cs =>
      have hc : c ≠ '.' := fun hc => h (by simp [hc])
      simp [parser.Char, hc]
  exact Sequence_miss_first _ _ _ _ _ hchar

theorem recoverable_promote (e : Err) : recoverable e.promote = false := by
  induction e with
  | positional p e ih => simpa [Err.promote, recoverable] using ih
  | _ => simp [Err.promote, recoverable]

theorem recoverable_ErrAtPosition (i : Int) (e : Err) :
    recoverable (ErrAtPosition i e) = recoverable e := by
  cases e <;> simp [ErrAtPosition, recoverable]

/-- C23: in the loops of `parseWithTails` and `parseLiteralWithTails`, once a dot delimiter has
been consumed, a tail that fails to parse ends the parse with a hard error, wrapped by
`ErrAtPosition` at the number of runes of the input that precede what the delimiter left;
when what remains does not start with a dot, the loop ends without error and returns it as
`Remaining`. -/
theorem tails_error_after_delimiter (parseFunctionTail : Function M → Type' M) (input : Runes)
    (isNot : Bool) (lit : Payload M) (fuel : Nat) (fn : Function M) (fnL : Option (Function M))
    (rest : Runes) :
    (∀ e, (parseFunctionTail fn (delim (M := M) ('.' :: rest)).Remaining).Err = some e →
      parseWithTails.loop parseFunctionTail input isNot (fuel + 1) fn ('.' :: rest) =
        some ⟨.nil, some (ErrAtPosition
          ((input.length : Int) - (delim (M := M) ('.' :: rest)).Remaining.length) e.promote),
          (parseFunctionTail fn (delim (M := M) ('.' :: rest)).Remaining).Remaining⟩) ∧
    (∀ e, (parseFunctionTail (match fnL with | some f => f | none => literalFunction (litValue lit))
        (delim (M := M) ('.' :: rest)).Remaining).Err = some e →
      parseLiteralWithTails.loop parseFunctionTail input lit (fuel + 1) fnL ('.' :: rest) =
        some ⟨.nil, some (ErrAtPosition
          ((input.length : Int) - (delim (M := M) ('.' :: rest)).Remaining.length) e.promote),
          (parseFunctionTail (match fnL with | some f => f | none => literalFunction (litValue lit))
            (delim (M := M) ('.' :: rest)).Remaining).Remaining⟩) ∧
    (∀ (i : Int) (e : Err), recoverable (ErrAtPosition i e.promote) = false) ∧
    (∀ remaining : Runes, remaining.head? ≠ some '.' →
      parseWithTails.loop parseFunctionTail input isNot (fuel + 1) fn remaining =
          some ⟨.function (if isNot then .notMethod fn else fn), none, remaining⟩ ∧
        parseLiteralWithTails.loop parseFunctionTail input lit (fuel + 1) fnL remaining =
          some ⟨(match fnL with | some f => .function f | none => lit), none, remaining⟩) := by
  refine ⟨fun e he => ?_, fun e he => ?_, fun i e => ?_, fun remaining h => ⟨?_, ?_⟩⟩
  · have hd := delim_dot (M := M) rest
    rw [hd] at he ⊢
    simp only [parseWithTails.loop, hd, MustBe, he]
  · have hd := delim_dot (M := M) rest
    rw [hd] at he ⊢
    simp only [parseLiteralWithTails.loop, hd, MustBe, he]
  · rw [recoverable_ErrAtPosition, recoverable_promote]
  · simp only [parseWithTails.loop, delim_miss remaining h]
  · simp only [parseLiteralWithTails.loop, delim_miss remaining h]

theorem tails_error_after_delimiter_witness :
    parseWithTails.loop (M := Unit)
        (fun _ input => ⟨.nil, some (badMethodErr "not_a_thing".toList), input⟩)
        ("json(".toList ++ ['"'] ++ "foo".toList ++ ['"'] ++ ").not_a_thing()".toList) false 1
        (.literal .null) ".not_a_thing()".toList =
      some ⟨.nil, some (.positional 12 (badMethodErr "not_a_thing".toList)),
        "not_a_thing()".toList⟩ :=
  (tails_error_after_delimiter (M := Unit)
    (fun _ input => ⟨.nil, some (badMethodErr "not_a_thing".toList), input⟩)
    ("json(".toList ++ ['"'] ++ "foo".toList ++ ['"'] ++ ").not_a_thing()".toList) false .nil 0
    (.literal .null) none "not_a_thing()".toList).1 _ rfl

/-- The loop of `parseWithTails` follows a run of tails to its end. -/
theorem loop_TailChain (parseFunctionTail : Function M → Type' M) (input : Runes)
    (isNot : Bool) (fn fn' : Function M) (remaining remaining' : Runes) (n : Nat)
    (hc : TailChain parseFunctionTail fn remaining fn' remaining' n) :
    ∀ fuel, n < fuel →
      parseWithTails.loop parseFunctionTail input isNot fuel fn remaining =
        some ⟨.function (if isNot then .notMethod fn' else fn'), none, remaining'⟩ := by
  induction hc with
  | done fn remaining h =>
    intro fuel hf
    obtain ⟨k, rfl⟩ : ∃ k, fuel = k + 1 := ⟨fuel - 1, by omega⟩
    simp only [parseWithTails.loop, delim_miss remaining h]
  | tail fn fn1 fn' rest r2 remaining' n ht _ ih =>
    intro fuel hf
    obtain ⟨k, rfl⟩ : ∃ k, fuel = k + 1 := ⟨fuel - 1, by omega⟩
    have hd := delim_dot (M := M) rest
    rw [hd] at ht
    simp only [parseWithTails.loop, hd, MustBe, ht]
    exact ih k (by omega)

theorem Discard_SpacesAndTabs (ws t : Runes) (hws : ∀ c ∈ ws, c = ' ' ∨ c = '\t')
    (ht : ∀ c, t.head? = some c → c ≠ ' ' ∧ c ≠ '\t') :
    Discard (M := M) SpacesAndTabs (ws ++ t) = ⟨.nil, none, t⟩ := by
  obtain ⟨h1, h2⟩ := takeWhile_run (fun d => d == ' ' || d == '\t') ws t
    (fun c hc => by rcases hws c hc with h | h <;> simp [h])
    (fun c hc => by simp [(ht c hc).1, (ht c hc).2])
  cases ws with
  | nil =>
    simp only [List.nil_append] at h1 h2 ⊢
    simp [Discard, SpacesAndTabs, h1]
  | cons w ws => simp only [Discard, SpacesAndTabs, h1, h2]

/-- C28: when the input of `parseWithTails` begins with `!`, the function returned is the
negation of the primary with all its tails applied, the tails first and the negation last;
without a leading `!` it is the primary with its tails and no negation; in both cases
`Remaining` is what the last tail left.  The negation yields the opposite boolean. -/
theorem parseWithTails_negation (fnParser : Type' M) (parseFunctionTail : Function M → Type' M)
    (ws t r0 remaining' : Runes) (p fn' : Function M) (n fuel : Nat)
    (hws : ∀ c ∈ ws, c = ' ' ∨ c = '\t')
    (ht : ∀ c, t.head? = some c → c ≠ ' ' ∧ c ≠ '\t')
    (hP : fnParser t = ⟨.function p, none, r0⟩)
    (hc : TailChain parseFunctionTail p r0 fn' remaining' n) (hf : n < fuel) :
    parseWithTails fnParser parseFunctionTail fuel ('!' :: (ws ++ t)) =
        some ⟨.function (.notMethod fn'), none, remaining'⟩ ∧
      (t.head? ≠ some '!' →
        parseWithTails fnParser parseFunctionTail fuel t =
          some ⟨.function fn', none, remaining'⟩) ∧
      (∀ (ctx : FunctionContext M) (b : Bool), fn'.Exec ctx = .ok (.bool b) →
        (Function.notMethod fn').Exec ctx = .ok (.bool !b)) := by
  refine ⟨?_, fun hne => ?_, fun ctx b hb => by simp [Function.Exec, hb]⟩
  · have hnot : Sequence (M := M) [parser.Char '!', Discard SpacesAndTabs] ('!' :: (ws ++ t)) =
        ⟨.slice [.string ['!'], .nil], none, t⟩ :=
      Sequence_two _ _ _ _ _ _ _ (by simp [parser.Char]) (Discard_SpacesAndTabs ws t hws ht)
    have hopt : Optional (Sequence (M := M) [parser.Char '!', Discard SpacesAndTabs])
        ('!' :: (ws ++ t)) = ⟨.slice [.string ['!'], .nil], none, t⟩ := by
      simp only [Optional, hnot]
    have hseq := Sequence_two _ _ _ _ _ _ _ hopt hP
    simp only [parseWithTails, hseq]
    exact loop_TailChain parseFunctionTail _ true p fn' r0 remaining' n hc fuel hf
  · have hchar : (parser.Char '!' t : Result M) =
        ⟨.nil, some (.expected [String.singleton '!']), t⟩ := by
      cases t with
      | nil => simp [parser.Char]
      | cons c cs =>
        have hcne : c ≠ '!' := fun h => hne (by simp [h])
        simp [parser.Char, hcne]
    have hnot : Sequence (M := M) [parser.Char '!', Discard SpacesAndTabs] t =
        ⟨.nil, some (.positional 0 (.expected [String.singleton '!'])), t⟩ :=
      Sequence_miss_first _ _ _ _ _ hchar
    have hopt : Optional (Sequence (M := M) [parser.Char '!', Discard SpacesAndTabs]) t =
        ⟨.nil, none, t⟩ := by
      simp only [Optional, hnot, recoverable, if_true]
    have hseq := Sequence_two _ _ _ _ _ _ _ hopt hP
    simp only [parseWithTails, hseq]
    exact loop_TailChain parseFunctionTail _ false p fn' r0 remaining' n hc fuel hf

theorem parseWithTails_negation_witness :
    parseWithTails (M := Unit) parseDigit
        (fun fn input => ⟨.function (.notMethod fn), none, input.drop 1⟩) 3
        ['!', ' ', '1', '.', 'a', '.', 'b', ' ', 'x'] =
      some ⟨.function (.notMethod (.notMethod (.notMethod (.literal (.int64 1))))), none,
        [' ', 'x']⟩ :=
  (parseWithTails_negation (M := Unit) parseDigit
    (fun fn input => ⟨.function (.notMethod fn), none, input.drop 1⟩)
    [' '] ['1', '.', 'a', '.', 'b', ' ', 'x'] ['.', 'a', '.', 'b', ' ', 'x'] [' ', 'x']
    (.literal (.int64 1)) (.notMethod (.notMethod (.literal (.int64 1)))) 2 3
    (by decide)
    (fun c hc => by
      simp only [List.head?_cons, Option.some.injEq] at hc
      subst hc
      decide)
    rfl
    (.tail _ _ _ _ _ _ _ rfl (.tail _ _ _ _ _ _ _ rfl (.done _ _ (by decide))))
    (by decide)).1

end query

/-! Properties of the example configurations. -/

namespace config

theorem pick_fields (reg : Registry) (v : Picked) (e : String) :
    (pick reg v e).inputType =
        (if reg.input e && v.inputType.length == 0 then e else v.inputType) ∧
      (pick reg v e).bufferType = (if reg.buffer e then e else v.bufferType) ∧
      (pick reg v e).processorTypes =
        (if reg.processor e then v.processorTypes ++ [e] else v.processorTypes) ∧
      (pick reg v e).conditionType = (if reg.condition e then e else v.conditionType) ∧
      (pick reg v e).outputType = (if reg.output e then e else v.outputType) := by
  simp only [pick]
  refine ⟨?_, ?_, ?_, ?_, ?_⟩ <;> (repeat' split) <;> rfl

theorem foldl_last (q : String → Bool) (es : List String) : ∀ init : String,
    es.foldl (fun acc e => if q e then e else acc) init = ((es.filter q).getLast?).getD init := by
  induction es with
  | nil => intro init; rfl
  | cons e es ih =>
    intro init
    simp only [List.foldl_cons, ih, List.filter_cons]
    cases hq : q e with
    | true => simp [List.getLast?_cons]
    | false => simp

theorem foldl_first (q : String → Bool) (hq : ∀ e, q e = true → e.length ≠ 0) (es : List String) :
    ∀ init : String,
      es.foldl (fun acc e => if q e && acc.length == 0 then e else acc) init =
        if init.length = 0 then ((es.filter q).head?).getD init else init := by
  induction es with
  | nil => intro init; simp
  | cons e es ih =>
    intro init
    simp only [List.foldl_cons, ih, List.filter_cons]
    cases hqe : q e with
    | true =>
      have hne := hq e hqe
      by_cases h0 : init.length = 0
      · simp [h0, hne]
      · simp [h0]
    | false => simp

theorem foldl_pick (reg : Registry) (es : List String) : ∀ v : Picked,
    (es.foldl (pick reg) v).inputType =
        es.foldl (fun acc e => if reg.input e && acc.length == 0 then e else acc) v.inputType ∧
      (es.foldl (pick reg) v).bufferType =
        es.foldl (fun acc e => if reg.buffer e then e else acc) v.bufferType ∧
      (es.foldl (pick reg) v).processorTypes = v.processorTypes ++ es.filter reg.processor ∧
      (es.foldl (pick reg) v).conditionType =
        es.foldl (fun acc e => if reg.condition e then e else acc) v.conditionType ∧
      (es.foldl (pick reg) v).outputType =
        es.foldl (fun acc e => if reg.output e then e else acc) v.outputType := by
  induction es with
  | nil => intro v; simp
  | cons e es ih =>
    intro v
    obtain ⟨h1, h2, h3, h4, h5⟩ := ih (pick reg v e)
    obtain ⟨p1, p2, p3, p4, p5⟩ := pick_fields reg v e
    simp only [List.foldl_cons, h1, h2, h3, h4, h5, p1, p2, p3, p4, p5, List.filter_cons]
    refine ⟨trivial, trivial, ?_, trivial, trivial⟩
    cases reg.processor e <;> simp

/-- The configuration `AddExamples` returns, field by field, from the variables its loop
leaves. -/
theorem AddExamples_eq (reg : Registry) (NewConfig : ProcConf) (conf : Conf)
    (examples : List String) :
    AddExamples reg NewConfig conf examples =
      { InputType :=
          if 0 < (examples.foldl (pick reg) ⟨"", "", [], "", ""⟩).inputType.length then
            (examples.foldl (pick reg) ⟨"", "", [], "", ""⟩).inputType
          else conf.InputType,
        BufferType :=
          if 0 < (examples.foldl (pick reg) ⟨"", "", [], "", ""⟩).bufferType.length then
            (examples.foldl (pick reg) ⟨"", "", [], "", ""⟩).bufferType
          else conf.BufferType,
        Processors :=
          conf.Processors ++
            ((examples.foldl (pick reg) ⟨"", "", [], "", ""⟩).processorTypes.map fun procType =>
              { NewConfig with Type' := procType }) ++
            (if 0 < (examples.foldl (pick reg) ⟨"", "", [], "", ""⟩).conditionType.length then
              [{ NewConfig with Type' := "filter_parts",
                                FilterPartsType :=
                                  (examples.foldl (pick reg) ⟨"", "", [], "", ""⟩).conditionType }]
            else []),
        OutputType :=
          if 0 < (examples.foldl (pick reg) ⟨"", "", [], "", ""⟩).outputType.length then
            (examples.foldl (pick reg) ⟨"", "", [], "", ""⟩).outputType
          else conf.OutputType } := by
  simp only [AddExamples, gt_iff_lt]
  cases hp : (examples.foldl (pick reg) ⟨"", "", [], "", ""⟩).processorTypes with
  | nil =>
    simp only [List.length_nil, Nat.lt_irrefl, if_false, List.map_nil, List.append_nil]
    split_ifs <;> simp
  | cons x xs =>
    simp only [List.length_cons, Nat.zero_lt_succ, if_true]
    split_ifs <;> simp

theorem getD_length_pos (l : List String) (q : String → Bool)
    (hq : ∀ e, q e = true → e.length ≠ 0) (o : Option String)
    (ho : ∀ e, o = some e → e ∈ l.filter q) :
    (0 < (o.getD "").length ↔ o ≠ none) := by
  cases o with
  | none => simp
  | some e =>
    have hm := ho e rfl
    have := hq e (List.mem_filter.mp hm).2
    simp only [Option.getD_some, ne_eq, reduceCtorEq, not_false_eq_true, iff_true]
    omega

/-- C24: `AddExamples` sets the input type to the first listed name that is a registered
input, the output type (and the buffer type) to the last listed name registered for that
role, and leaves each of them unchanged when no listed name is registered for the role; it
appends one processor per listed processor name, in list order, followed by at most one
filter processor for a listed condition.  The registries hold no empty name. -/
theorem AddExamples_roles (reg : Registry) (NewConfig : ProcConf) (conf : Conf)
    (examples : List String)
    (hin : ∀ e, reg.input e = true → e.length ≠ 0)
    (hbuf : ∀ e, reg.buffer e = true → e.length ≠ 0)
    (hout : ∀ e, reg.output e = true → e.length ≠ 0) :
    (AddExamples reg NewConfig conf examples).InputType =
        ((examples.filter reg.input).head?).getD conf.InputType ∧
      (AddExamples reg NewConfig conf examples).OutputType =
        ((examples.filter reg.output).getLast?).getD conf.OutputType ∧
      (AddExamples reg NewConfig conf examples).BufferType =
        ((examples.filter reg.buffer).getLast?).getD conf.BufferType ∧
      ∃ extra : List ProcConf,
        (AddExamples reg NewConfig conf examples).Processors =
          conf.Processors ++
            ((examples.filter reg.processor).map fun procType =>
              { NewConfig with Type' := procType }) ++ extra ∧
        extra.length ≤ 1 ∧ (examples.filter reg.condition = [] → extra = []) := by
  obtain ⟨f1, f2, f3, f4, f5⟩ := foldl_pick reg examples ⟨"", "", [], "", ""⟩
  rw [foldl_first reg.input hin] at f1
  rw [foldl_last] at f2 f4 f5
  simp only [String.length_empty, if_true, List.nil_append] at f1 f2 f3 f4 f5
  have hI := getD_length_pos examples reg.input hin (examples.filter reg.input).head?
    (fun e he => List.mem_of_mem_head? he)
  have hO := getD_length_pos examples reg.output hout (examples.filter reg.output).getLast?
    (fun e he => List.mem_of_mem_getLast? he)
  have hB := getD_length_pos examples reg.buffer hbuf (examples.filter reg.buffer).getLast?
    (fun e he => List.mem_of_mem_getLast? he)
  rw [← f1] at hI
  rw [← f5] at hO
  rw [← f2] at hB
  have hres := AddExamples_eq reg NewConfig conf examples
  rw [hres]
  refine ⟨?_, ?_, ?_, ?_⟩
  · simp only []
    cases hh : (examples.filter reg.input).head? with
    | none =>
      rw [hh] at hI
      rw [if_neg (fun h => hI.mp h rfl)]
      rfl
    | some e =>
      rw [hh] at hI f1
      rw [if_pos (hI.mpr (by simp)), f1]
      rfl
  · simp only []
    cases hh : (examples.filter reg.output).getLast? with
    | none =>
      rw [hh] at hO
      rw [if_neg (fun h => hO.mp h rfl)]
      rfl
    | some e =>
      rw [hh] at hO f5
      rw [if_pos (hO.mpr (by simp)), f5]
      rfl
  · simp only []
    cases hh : (examples.filter reg.buffer).getLast? with
    | none =>
      rw [hh] at hB
      rw [if_neg (fun h => hB.mp h rfl)]
      rfl
    | some e =>
      rw [hh] at hB f2
      rw [if_pos (hB.mpr (by simp)), f2]
      rfl
  · refine ⟨if 0 < (examples.foldl (pick reg) ⟨"", "", [], "", ""⟩).conditionType.length then
        [{ NewConfig with Type' := "filter_parts",
                          FilterPartsType :=
                            (examples.foldl (pick reg) ⟨"", "", [], "", ""⟩).conditionType }]
      else [], ?_, ?_, ?_⟩
    · simp only []
      rw [f3]
    · split <;> simp
    · intro hnil
      rw [f4, hnil]
      simp

/-- With `kafka` and `amqp` both registered as inputs and as outputs, the examples `kafka`,
`amqp` give a configuration that reads from `kafka` and writes to `amqp`. -/
theorem AddExamples_roles_witness :
    (AddExamples exampleRegistry ⟨"", ""⟩ ⟨"stdin", "none", [], "stdout"⟩
        ["kafka", "amqp"]).InputType = "kafka" ∧
      (AddExamples exampleRegistry ⟨"", ""⟩ ⟨"stdin", "none", [], "stdout"⟩
        ["kafka", "amqp"]).OutputType = "amqp" ∧
      (AddExamples exampleRegistry ⟨"", ""⟩ ⟨"stdin", "none", [], "stdout"⟩
        ["kafka", "amqp"]).BufferType = "none" :=
  have h := AddExamples_roles exampleRegistry ⟨"", ""⟩ ⟨"stdin", "none", [], "stdout"⟩
    ["kafka", "amqp"]
    (by
      intro e he
      simp only [exampleRegistry, Bool.or_eq_true, beq_iff_eq] at he
      rcases he with rfl | rfl <;> decide)
    (by
      intro e he
      simp only [exampleRegistry, beq_iff_eq] at he
      subst he
      decide)
    (by
      intro e he
      simp only [exampleRegistry, Bool.or_eq_true, beq_iff_eq] at he
      rcases he with rfl | rfl <;> decide)
  ⟨h.1.trans (by decide), h.2.1.trans (by decide), h.2.2.1.trans (by decide)⟩

end config

/-! Field interpolation: where a function block ends, unclosed blocks, termination. -/

namespace field

open parser

theorem split_first_brace (l : Runes) (h : '}' ∈ l) :
    ∃ body rest, l = body ++ '}' :: rest ∧ '}' ∉ body := by
  induction l with
  | nil => simp at h
  | cons c l ih =>
    by_cases hc : c = '}'
    · exact ⟨[], l, by simp [hc], by simp⟩
    · have hl : '}' ∈ l := by
        rcases List.mem_cons.mp h with h1 | h1
        · exact absurd h1.symm hc
        · exact h1
      obtain ⟨body, rest, he, hb⟩ := ih hl
      refine ⟨c :: body, rest, by simp [he], ?_⟩
      intro hm
      rcases List.mem_cons.mp hm with h1 | h1
      · exact hc h1.symm
      · exact hb h1

/-- C25: an input that begins with `$\x7b!` and holds a closing brace after it splits as
`$\x7b!` ++ body ++ `}` ++ rest with no closing brace in body; `aFunction` depends on the
query parser only through its result on body, and when `aFunction` succeeds the query parser
succeeded on body with a function, and `rest`, which starts right after that first brace,
remains.  A query text that holds a closing brace is therefore cut at it. -/
theorem aFunction_first_brace (M : Type) (input : Runes) (h3 : ['$', '{', '!'] <+: input)
    (hc : '}' ∈ input.drop 3) :
    ∃ body rest, input = ['$', '{', '!'] ++ body ++ ['}'] ++ rest ∧ '}' ∉ body ∧
      (∀ pd pd' : Type' M, pd body = pd' body → aFunction pd input = aFunction pd' input) ∧
      (∀ pd : Type' M, (aFunction pd input).Err = none →
        ∃ fn, pd body = ⟨.function fn, none, []⟩ ∧
          aFunction pd input = ⟨.resolver (.queryResolver fn), none, rest⟩) := by
  obtain ⟨t, rfl⟩ := h3
  have hd : (['$', '{', '!'] ++ t).drop 3 = t := by simp
  rw [hd] at hc
  obtain ⟨body, rest, rfl, hb⟩ := split_first_brace t hc
  refine ⟨body, rest, by simp, hb, ?_, ?_⟩
  · intro pd pd' hpd
    have e1 := aFunction_unfold pd body rest hb
    have e2 := aFunction_unfold pd' body rest hb
    simp only [List.append_assoc, List.singleton_append] at e1 e2
    rw [e1, e2, hpd]
  · intro pd
    have e1 := aFunction_unfold pd body rest hb
    simp only [List.append_assoc, List.singleton_append] at e1
    rw [e1]
    rcases hres : pd body with ⟨pay, err, rem⟩
    cases err with
    | some e => simp
    | none =>
      cases rem with
      | cons r rs => simp
      | nil =>
        cases pay <;> simp

/-- The template `$\x7b!5}7}` with a query parser that reads one digit: the query parser is
handed `5`, and `7}` remains. -/
theorem aFunction_first_brace_witness :
    (['$', '{', '!'] <+: "$\x7b!5\x7d7\x7d".toList) ∧
      ('}' ∈ ("$\x7b!5\x7d7\x7d".toList).drop 3) ∧
      aFunction parseDigit "$\x7b!5\x7d7\x7d".toList =
        ⟨.resolver (.queryResolver (.literal (.int64 5))), none, "7\x7d".toList⟩ ∧
      ∃ body rest, "$\x7b!5\x7d7\x7d".toList = ['$', '{', '!'] ++ body ++ ['}'] ++ rest ∧
        '}' ∉ body ∧
        (∀ pd pd' : Type' Unit, pd body = pd' body →
          aFunction pd "$\x7b!5\x7d7\x7d".toList = aFunction pd' "$\x7b!5\x7d7\x7d".toList) ∧
        (∀ pd : Type' Unit, (aFunction pd "$\x7b!5\x7d7\x7d".toList).Err = none →
          ∃ fn, pd body = ⟨.function fn, none, []⟩ ∧
            aFunction pd "$\x7b!5\x7d7\x7d".toList =
              ⟨.resolver (.queryResolver fn), none, rest⟩) :=
  ⟨by decide, by decide, rfl,
    aFunction_first_brace Unit "$\x7b!5\x7d7\x7d".toList (by decide) (by decide)⟩

theorem firstIdx_none (p : Rune → Bool) (l : Runes) (h : ∀ c ∈ l, p c = false) :
    firstIdx p l = none := by
  induction l with
  | nil => rfl
  | cons c l ih =>
    have hc := h c (List.mem_cons_self c l)
    have hl := ih fun d hd => h d (List.mem_cons_of_mem c hd)
    simp [firstIdx, hc, hl]

theorem firstPairIdx_none (l : Runes) (h : ¬ ['}', '}'] <:+: l) :
    firstPairIdx (fun c d => c == '}' && d == '}') l = none := by
  induction l with
  | nil => rfl
  | cons c l ih =>
    have h' : ¬ ['}', '}'] <:+: l := fun hi => h (hi.trans (List.suffix_cons c l).isInfix)
    cases l with
    | nil => rfl
    | cons d l =>
      have hcd : ¬ (c = '}' ∧ d = '}') := by
        rintro ⟨rfl, rfl⟩
        exact h ⟨[], l, by simp⟩
      have hi := ih h'
      simp [firstPairIdx, hcd, hi]

/-- C26: on an input that begins with `$\x7b!` and holds no closing brace after it,
`aFunction` succeeds with the whole input as static text and nothing remaining; on an input
that begins with `$\x7b\x7b!` and holds no pair of closing braces after it, `escapedBlock`
succeeds with the whole input as static text and nothing remaining, so `parse` yields that
single static resolver and hands nothing of the input to the query parser. -/
theorem unclosed_block_static (pd : Type' M) (input : Runes) :
    ((['$', '{', '!'] <+: input ∧ '}' ∉ input.drop 3) →
        aFunction pd input = ⟨.resolver (.staticResolver input), none, []⟩) ∧
      ((['$', '{', '{', '!'] <+: input ∧ ¬ ['}', '}'] <:+: input.drop 4) →
        escapedBlock (M := M) input = ⟨.resolver (.staticResolver input), none, []⟩ ∧
          parse pd input = some (.ok [.staticResolver input])) := by
  constructor
  · rintro ⟨⟨t, rfl⟩, hc⟩
    have hd : (['$', '{', '!'] ++ t).drop 3 = t := by simp
    rw [hd] at hc
    have hscan := firstIdx_none (fun c => c == '}') t (fun c hm => by
      have : c ≠ '}' := fun he => hc (he ▸ hm)
      simp [this])
    simp only [aFunction]
    rw [if_neg (by simp), hd, hscan]
  · rintro ⟨⟨t, rfl⟩, hc⟩
    have hd : (['$', '{', '{', '!'] ++ t).drop 4 = t := by simp
    rw [hd] at hc
    have hscan := firstPairIdx_none t hc
    have hesc : escapedBlock (M := M) (['$', '{', '{', '!'] ++ t) =
        ⟨.resolver (.staticResolver (['$', '{', '{', '!'] ++ t)), none, []⟩ := by
      simp only [escapedBlock]
      rw [if_neg (by simp), hd, hscan]
    refine ⟨hesc, ?_⟩
    have hblock : block pd ('$' :: '{' :: '{' :: '!' :: t) =
        ⟨.resolver (.staticResolver (['$', '{', '{', '!'] ++ t)), none, []⟩ := by
      have := hesc
      simp only [List.cons_append, List.nil_append] at this
      simp only [block, OneOf, OneOf.go, this, List.cons_append, List.nil_append]
    have hloop : parseLoop pd ((['{', '{', '!'] ++ t).length + 1)
        ('$' :: '{' :: '{' :: '!' :: t) 0 [] =
          some (.ok [.staticResolver (['$', '{', '{', '!'] ++ t)]) := by
      simp only [parseLoop, hblock, List.nil_append]
    show (parseLoop pd ((['{', '{', '!'] ++ t).length + 1)
      ('$' :: '{' :: '{' :: '!' :: t) 0 []).map _ = _
    rw [hloop]
    rfl

/-- The unclosed function block `$\x7b!5` and the unclosed escape `$\x7b\x7b!a $\x7b!5}` are
static text; the function block inside the escape is not evaluated. -/
theorem unclosed_block_static_witness :
    aFunction parseDigit "$\x7b!5".toList =
        ⟨.resolver (.staticResolver "$\x7b!5".toList), none, []⟩ ∧
      escapedBlock (M := Unit) "$\x7b\x7b!a $\x7b!5\x7d".toList =
        ⟨.resolver (.staticResolver "$\x7b\x7b!a $\x7b!5\x7d".toList), none, []⟩ ∧
      parse parseDigit "$\x7b\x7b!a $\x7b!5\x7d".toList =
        some (.ok [.staticResolver "$\x7b\x7b!a $\x7b!5\x7d".toList]) :=
  ⟨(unclosed_block_static parseDigit "$\x7b!5".toList).1 ⟨by decide, by decide⟩,
    (unclosed_block_static parseDigit "$\x7b\x7b!a $\x7b!5\x7d".toList).2
      ⟨by decide, by decide⟩⟩

theorem OneOf_go_shrinks (input : Runes) (ps : List (Type' M))
    (h : ∀ p ∈ ps, (p input).Err = none → (p input).Remaining.length < input.length) :
    ∀ acc : List String, (OneOf.go input ps acc).Err = none →
      (OneOf.go input ps acc).Remaining.length < input.length := by
  induction ps with
  | nil =>
    intro acc he
    simp [OneOf.go] at he
  | cons p ps ih =>
    intro acc
    have hp := h p (List.mem_cons_self p ps)
    have ih' := ih fun q hq => h q (List.mem_cons_of_mem p hq)
    simp only [OneOf.go]
    cases herr : (p input).Err with
    | none =>
      intro _
      exact hp herr
    | some e =>
      by_cases hr : recoverable e = true
      · simp only [hr, if_true]
        exact ih' _
      · simp only [hr]
        intro he
        simp [herr] at he

theorem escapedBlock_shrinks (c : Rune) (cs : Runes)
    (herr : (escapedBlock (M := M) (c :: cs)).Err = none) :
    (escapedBlock (M := M) (c :: cs)).Remaining.length < (c :: cs).length := by
  simp only [escapedBlock] at herr ⊢
  by_cases hmiss : (c :: cs).length < 4 ∨ (c :: cs).take 4 ≠ ['$', '{', '{', '!']
  · rw [if_pos hmiss] at herr
    cases herr
  · rw [if_neg hmiss]
    cases firstPairIdx (fun c d => c == '}' && d == '}') ((c :: cs).drop 4) with
    | none => simp only [List.length_nil, List.length_cons, Nat.zero_lt_succ]
    | some j =>
      simp only [List.length_drop, List.length_cons]
      omega

theorem aFunction_shrinks (pd : Type' M) (c : Rune) (cs : Runes)
    (herr : (aFunction pd (c :: cs)).Err = none) :
    (aFunction pd (c :: cs)).Remaining.length < (c :: cs).length := by
  simp only [aFunction] at herr ⊢
  by_cases hmiss : (c :: cs).length < 3 ∨ (c :: cs).take 3 ≠ ['$', '{', '!']
  · rw [if_pos hmiss] at herr
    cases herr
  · rw [if_neg hmiss] at herr ⊢
    cases hj : firstIdx (fun c => c == '}') ((c :: cs).drop 3) with
    | none => simp only [List.length_nil, List.length_cons, Nat.zero_lt_succ]
    | some j =>
      rw [hj] at herr
      simp only [] at herr ⊢
      rcases hres : pd (((c :: cs).drop 3).take j) with ⟨pay, err, rem⟩
      rw [hres] at herr
      cases err with
      | some e =>
        simp only [] at herr
        cases herr
      | none =>
        simp only [] at herr ⊢
        cases rem with
        | cons r rs =>
          rw [if_pos (by simp)] at herr
          cases herr
        | nil =>
          rw [if_neg (by simp)] at herr ⊢
          cases pay with
          | function fn =>
            simp only [List.length_drop, List.length_cons]
            omega
          | nil => cases herr
          | string _ => cases herr
          | value _ => cases herr
          | slice _ => cases herr
          | matchCase _ => cases herr
          | resolver _ => cases herr

theorem Char_shrinks (d c : Rune) (cs : Runes)
    (herr : (intoStaticResolver (M := M) (parser.Char d) (c :: cs)).Err = none) :
    (intoStaticResolver (M := M) (parser.Char d) (c :: cs)).Remaining.length <
      (c :: cs).length := by
  simp only [intoStaticResolver, parser.Char] at herr ⊢
  by_cases hc : c = d
  · simp [hc]
  · simp [hc] at herr

theorem NotChar_shrinks (d c : Rune) (cs : Runes)
    (herr : (intoStaticResolver (M := M) (NotChar d) (c :: cs)).Err = none) :
    (intoStaticResolver (M := M) (NotChar d) (c :: cs)).Remaining.length <
      (c :: cs).length := by
  simp only [intoStaticResolver, NotChar] at herr ⊢
  by_cases hc : c = d
  · simp [hc, List.takeWhile] at herr
  · have hlen := (List.dropWhile_suffix (l := cs) (fun x => x != d)).length_le
    have hb : (c != d) = true := by simpa using hc
    simp only [List.takeWhile, List.dropWhile, hb, List.length_cons]
    omega

theorem block_shrinks (pd : Type' M) (c : Rune) (cs : Runes)
    (herr : (block pd (c :: cs)).Err = none) :
    (block pd (c :: cs)).Remaining.length < (c :: cs).length := by
  refine OneOf_go_shrinks (c :: cs) _ ?_ [] herr
  intro p hp
  simp only [List.mem_cons, List.mem_singleton, List.not_mem_nil, or_false] at hp
  rcases hp with rfl | rfl | rfl | rfl
  · exact escapedBlock_shrinks c cs
  · exact aFunction_shrinks pd c cs
  · exact Char_shrinks '$' c cs
  · exact NotChar_shrinks '$' c cs

theorem parseLoop_total (pd : Type' M) :
    ∀ (fuel : Nat) (rem : Runes) (i : Int) (acc : List (resolver M)), rem.length ≤ fuel →
      ∃ r, parseLoop pd fuel rem i acc = some r ∧
        ∀ rs, r = .ok rs → rs.length ≤ acc.length + rem.length := by
  intro fuel
  induction fuel with
  | zero =>
    intro rem i acc hlen
    have : rem = [] := List.length_eq_zero.mp (Nat.le_zero.mp hlen)
    subst this
    refine ⟨.ok acc, by simp [parseLoop], ?_⟩
    intro rs hrs
    cases hrs
    simp
  | succ fuel ih =>
    intro rem i acc hlen
    cases rem with
    | nil =>
      refine ⟨.ok acc, by simp [parseLoop], ?_⟩
      intro rs hrs
      cases hrs
      simp
    | cons c cs =>
      simp only [parseLoop]
      cases herr : (block pd (c :: cs)).Err with
      | some e => exact ⟨_, rfl, fun rs hrs => by cases hrs⟩
      | none =>
        have hshrink := block_shrinks pd c cs herr
        cases hpay : (block pd (c :: cs)).Payload with
        | resolver r =>
          simp only []
          have hshort : (block pd (c :: cs)).Remaining.length ≤ fuel := by
            simp only [List.length_cons] at hshrink hlen
            omega
          obtain ⟨res, hres, hbound⟩ := ih (block pd (c :: cs)).Remaining
            (((c :: cs).length : Int) - (block pd (c :: cs)).Remaining.length) (acc ++ [r]) hshort
          refine ⟨res, hres, ?_⟩
          intro rs hrs
          have := hbound rs hrs
          simp only [List.length_append, List.length_cons, List.length_nil] at this hshrink ⊢
          omega
        | nil => exact ⟨_, rfl, fun rs hrs => by cases hrs⟩
        | string _ => exact ⟨_, rfl, fun rs hrs => by cases hrs⟩
        | value _ => exact ⟨_, rfl, fun rs hrs => by cases hrs⟩
        | slice _ => exact ⟨_, rfl, fun rs hrs => by cases hrs⟩
        | function _ => exact ⟨_, rfl, fun rs hrs => by cases hrs⟩
        | matchCase _ => exact ⟨_, rfl, fun rs hrs => by cases hrs⟩

/-- C27: `parse` returns on every input and for every query parser: each run of the parser of
its loop on a non-empty input either fails or leaves strictly less than it was given, so the
loop, which has one unit of fuel per rune of the input, never runs out of fuel; and a
successful parse has at most as many resolvers as the input has runes. -/
theorem parse_terminates (pd : Type' M) (expr : Runes) :
    (∀ (c : Rune) (cs : Runes), (block pd (c :: cs)).Err ≠ none ∨
        (block pd (c :: cs)).Remaining.length < (c :: cs).length) ∧
      ∃ r, parse pd expr = some r ∧
        ∀ resolvers, r = .ok resolvers → resolvers.length ≤ expr.length := by
  constructor
  · intro c cs
    by_cases herr : (block pd (c :: cs)).Err = none
    · exact Or.inr (block_shrinks pd c cs herr)
    · exact Or.inl herr
  · obtain ⟨res, hres, hbound⟩ := parseLoop_total pd expr.length expr 0 [] (Nat.le_refl _)
    simp only [parse, hres, Option.map_some']
    cases res with
    | ok rs =>
      refine ⟨_, rfl, ?_⟩
      intro resolvers hr
      cases hr
      simpa using hbound rs rfl
    | error ie =>
      refine ⟨_, rfl, ?_⟩
      intro resolvers hr
      cases hr

/-! The template as a Go string. -/

namespace templ

open utf8

theorem toNat_ofNat (n : Nat) (h : n < 0xD800 ∨ (0xDFFF < n ∧ n < 0x110000)) :
    (Char.ofNat n).toNat = n := by
  have hv : n.isValidChar := h
  simp [Char.ofNat, hv, Char.ofNatAux, Char.toNat, UInt32.toNat]

theorem RuneError_toNat : RuneError.toNat = 0xFFFD := by decide

theorem go_skip : ∀ (s : List Nat) (k : Nat), toRunes.go k s = toRunes.go 0 (s.drop k) := by
  intro s
  induction s with
  | nil => intro k; simp [toRunes.go]
  | cons b rest ih =>
    intro k
    cases k with
    | zero => rfl
    | succ k =>
      simp only [toRunes.go, List.drop_succ_cons]
      exact ih k

theorem toRunes_cons (b : Nat) (rest : List Nat) :
    toRunes (b :: rest) =
      (DecodeRune (b :: rest)).1 :: toRunes (rest.drop ((DecodeRune (b :: rest)).2 - 1)) := by
  simp only [toRunes, toRunes.go]
  rw [go_skip]

theorem EncodeRune_ne_nil (c : Rune) : ∃ e es, EncodeRune c = e :: es := by
  unfold EncodeRune
  split_ifs <;> exact ⟨_, _, rfl⟩

theorem DecodeRune_EncodeRune (c : Rune) (t : List Nat) :
    DecodeRune (EncodeRune c ++ t) = (c, (EncodeRune c).length) := by
  have hv : c.toNat < 0xD800 ∨ (0xDFFF < c.toNat ∧ c.toNat < 0x110000) := c.valid
  unfold EncodeRune
  split_ifs with h1 h2 h3
  · simp only [List.cons_append, List.nil_append, DecodeRune, if_pos h1, Char.ofNat_toNat,
      List.length_singleton]
  · have a1 : ¬ (0xC0 + c.toNat / 0x40 < 0x80) := by omega
    have a2 : 0xC2 ≤ 0xC0 + c.toNat / 0x40 ∧ 0xC0 + c.toNat / 0x40 ≤ 0xDF := by omega
    have a3 : 0x80 ≤ 0x80 + c.toNat % 0x40 ∧ 0x80 + c.toNat % 0x40 ≤ 0xBF := by omega
    have a4 : (0xC0 + c.toNat / 0x40) % 0x20 * 0x40 + (0x80 + c.toNat % 0x40) % 0x40 =
        c.toNat := by omega
    simp only [List.cons_append, List.nil_append, DecodeRune, if_neg a1, if_pos a2, if_pos a3,
      a4, Char.ofNat_toNat, List.length_cons, List.length_nil]
  · have a1 : ¬ (0xE0 + c.toNat / 0x1000 < 0x80) := by omega
    have a2 : ¬ (0xC2 ≤ 0xE0 + c.toNat / 0x1000 ∧ 0xE0 + c.toNat / 0x1000 ≤ 0xDF) := by omega
    have a3 : 0xE0 ≤ 0xE0 + c.toNat / 0x1000 ∧ 0xE0 + c.toNat / 0x1000 ≤ 0xEF := by omega
    have a4 : acceptLo (0xE0 + c.toNat / 0x1000) ≤ 0x80 + c.toNat / 0x40 % 0x40 ∧
        0x80 + c.toNat / 0x40 % 0x40 ≤ acceptHi (0xE0 + c.toNat / 0x1000) ∧
        0x80 ≤ 0x80 + c.toNat % 0x40 ∧ 0x80 + c.toNat % 0x40 ≤ 0xBF := by
      simp only [acceptLo, acceptHi]
      split_ifs <;> omega
    have a5 : (0xE0 + c.toNat / 0x1000) % 0x10 * 0x1000 +
        (0x80 + c.toNat / 0x40 % 0x40) % 0x40 * 0x40 + (0x80 + c.toNat % 0x40) % 0x40 =
        c.toNat := by omega
    simp only [List.cons_append, List.nil_append, DecodeRune, if_neg a1, if_neg a2, if_pos a3,
      if_pos a4, a5, Char.ofNat_toNat, List.length_cons, List.length_nil]
  · have a1 : ¬ (0xF0 + c.toNat / 0x40000 < 0x80) := by omega
    have a2 : ¬ (0xC2 ≤ 0xF0 + c.toNat / 0x40000 ∧ 0xF0 + c.toNat / 0x40000 ≤ 0xDF) := by
      omega
    have a3 : ¬ (0xE0 ≤ 0xF0 + c.toNat / 0x40000 ∧ 0xF0 + c.toNat / 0x40000 ≤ 0xEF) := by
      omega
    have a4 : 0xF0 ≤ 0xF0 + c.toNat / 0x40000 ∧ 0xF0 + c.toNat / 0x40000 ≤ 0xF4 := by omega
    have a5 : acceptLo (0xF0 + c.toNat / 0x40000) ≤ 0x80 + c.toNat / 0x1000 % 0x40 ∧
        0x80 + c.toNat / 0x1000 % 0x40 ≤ acceptHi (0xF0 + c.toNat / 0x40000) ∧
        0x80 ≤ 0x80 + c.toNat / 0x40 % 0x40 ∧ 0x80 + c.toNat / 0x40 % 0x40 ≤ 0xBF ∧
        0x80 ≤ 0x80 + c.toNat % 0x40 ∧ 0x80 + c.toNat % 0x40 ≤ 0xBF := by
      simp only [acceptLo, acceptHi]
      split_ifs <;> omega
    have a6 : (0xF0 + c.toNat / 0x40000) % 0x08 * 0x40000 +
        (0x80 + c.toNat / 0x1000 % 0x40) % 0x40 * 0x1000 +
        (0x80 + c.toNat / 0x40 % 0x40) % 0x40 * 0x40 + (0x80 + c.toNat % 0x40) % 0x40 =
        c.toNat := by omega
    simp only [List.cons_append, List.nil_append, DecodeRune, if_neg a1, if_neg a2, if_neg a3,
      if_pos a4, if_pos a5, a6, Char.ofNat_toNat, List.length_cons, List.length_nil]

theorem toRunes_EncodeRune_append (c : Rune) (t : List Nat) :
    toRunes (EncodeRune c ++ t) = c :: toRunes t := by
  have hd := DecodeRune_EncodeRune c t
  obtain ⟨e, es, he⟩ := EncodeRune_ne_nil c
  rw [he] at hd ⊢
  rw [List.cons_append] at hd ⊢
  rw [toRunes_cons, hd]
  simp

/-- Decoding the encoding of runes gives the runes back. -/
theorem toRunes_ofRunes (cs : Runes) : toRunes (ofRunes cs) = cs := by
  induction cs with
  | nil => rfl
  | cons c cs ih =>
    have : ofRunes (c :: cs) = EncodeRune c ++ ofRunes cs := by
      simp [ofRunes]
    rw [this, toRunes_EncodeRune_append, ih]

/-- A rune below 0x80 is decoded from a single byte of that value only. -/
theorem DecodeRune_ascii (b0 : Nat) (rest : List Nat)
    (h : (DecodeRune (b0 :: rest)).1.toNat < 0x80) :
    b0 < 0x80 ∧ DecodeRune (b0 :: rest) = (Char.ofNat b0, 1) := by
  by_cases h0 : b0 < 0x80
  · exact ⟨h0, by simp only [DecodeRune, if_pos h0]⟩
  · exfalso
    simp only [DecodeRune, if_neg h0] at h
    split_ifs at h with a2 a3 a4
    · cases rest with
      | nil => simp only [RuneError_toNat] at h; omega
      | cons b1 rest =>
        simp only at h
        split_ifs at h with c1
        · rw [toNat_ofNat _ (by omega)] at h
          omega
        · simp only [RuneError_toNat] at h; omega
    · rcases rest with _ | ⟨b1, _ | ⟨b2, rest⟩⟩
      · simp only [RuneError_toNat] at h; omega
      · simp only [RuneError_toNat] at h; omega
      · simp only at h
        split_ifs at h with c1
        · have hval : 0x800 ≤ b0 % 0x10 * 0x1000 + b1 % 0x40 * 0x40 + b2 % 0x40 ∧
              (b0 % 0x10 * 0x1000 + b1 % 0x40 * 0x40 + b2 % 0x40 < 0xD800 ∨
                (0xDFFF < b0 % 0x10 * 0x1000 + b1 % 0x40 * 0x40 + b2 % 0x40 ∧
                  b0 % 0x10 * 0x1000 + b1 % 0x40 * 0x40 + b2 % 0x40 < 0x110000)) := by
            simp only [acceptLo, acceptHi] at c1
            split_ifs at c1 <;> omega
          rw [toNat_ofNat _ hval.2] at h
          omega
        · simp only [RuneError_toNat] at h; omega
    · rcases rest with _ | ⟨b1, _ | ⟨b2, _ | ⟨b3, rest⟩⟩⟩
      · simp only [RuneError_toNat] at h; omega
      · simp only [RuneError_toNat] at h; omega
      · simp only [RuneError_toNat] at h; omega
      · simp only at h
        split_ifs at h with c1
        · have hval : 0x10000 ≤ b0 % 0x08 * 0x40000 + b1 % 0x40 * 0x1000 + b2 % 0x40 * 0x40 +
                b3 % 0x40 ∧
              b0 % 0x08 * 0x40000 + b1 % 0x40 * 0x1000 + b2 % 0x40 * 0x40 + b3 % 0x40 <
                0x110000 := by
            simp only [acceptLo, acceptHi] at c1
            split_ifs at c1 <;> omega
          rw [toNat_ofNat _ (Or.inr ⟨by omega, hval.2⟩)] at h
          omega
        · simp only [RuneError_toNat] at h; omega
    · simp only [RuneError_toNat] at h; omega

/-- For a text of runes below 0x80: when it is a prefix of the runes of a string, its bytes
are a prefix of the string. -/
theorem prefix_toRunes (p : Runes) (hp : ∀ c ∈ p, c.toNat < 0x80) :
    ∀ s : List Nat, p <+: toRunes s → p.map Char.toNat <+: s := by
  induction p with
  | nil => intro s _; exact List.nil_prefix
  | cons c p ih =>
    intro s hpre
    cases s with
    | nil =>
      have := hpre.length_le
      simp [toRunes, toRunes.go] at this
    | cons b0 rest =>
      rw [toRunes_cons] at hpre
      obtain ⟨hc, hrest⟩ := List.cons_prefix_cons.mp hpre
      have hlt : (DecodeRune (b0 :: rest)).1.toNat < 0x80 := by
        rw [← hc]
        exact hp c (List.mem_cons_self _ _)
      obtain ⟨hb, hdec⟩ := DecodeRune_ascii b0 rest hlt
      rw [hdec] at hrest hc
      simp only [Nat.sub_self, List.drop_zero] at hrest
      have hcb : c.toNat = b0 := by
        rw [hc]
        exact toNat_ofNat b0 (Or.inl (by omega))
      rw [List.map_cons, hcb]
      exact List.cons_prefix_cons.mpr ⟨rfl, ih (fun d hd => hp d (List.mem_cons_of_mem _ hd)) rest
        hrest⟩

theorem infix_go (p : Runes) (hp : ∀ c ∈ p, c.toNat < 0x80) :
    ∀ (s : List Nat) (k : Nat), p <:+: toRunes.go k s → p.map Char.toNat <:+: s := by
  intro s
  induction s with
  | nil =>
    intro k h
    simp only [toRunes.go, List.infix_nil] at h
    subst h
    exact List.nil_infix
  | cons b rest ih =>
    intro k h
    cases k with
    | succ k =>
      simp only [toRunes.go] at h
      exact (ih k h).trans (List.suffix_cons b rest).isInfix
    | zero =>
      simp only [toRunes.go] at h
      rcases List.infix_cons_iff.mp h with h1 | h1
      · have : p <+: toRunes (b :: rest) := by
          simpa only [toRunes, toRunes.go] using h1
        exact (prefix_toRunes p hp _ this).isInfix
      · exact (ih _ h1).trans (List.suffix_cons b rest).isInfix

/-- For a text of runes below 0x80: when it occurs in the runes of a string, its bytes occur
in the string. -/
theorem infix_toRunes (p : Runes) (hp : ∀ c ∈ p, c.toNat < 0x80) (s : List Nat)
    (h : p <:+: toRunes s) : p.map Char.toNat <:+: s :=
  infix_go p hp s 0 h

theorem ofRunes_append (a b : Runes) : ofRunes (a ++ b) = ofRunes a ++ ofRunes b := by
  simp [ofRunes]

theorem ofRunes_flatten (l : List Runes) :
    ofRunes l.flatten = (l.map ofRunes).flatten := by
  induction l with
  | nil => rfl
  | cons a l ih => simp [ofRunes_append, ih]

end templ

/-- C2, a template that contradicts it: the template made of the single byte 0xFF, which is
no UTF-8, contains neither block opener and is parsed into one static resolver, whose output
is the three bytes of U+FFFD, not the template. -/
theorem parseString_invalid_utf8 :
    ¬ [0x24, 0x7B, 0x21] <:+: [0xFF] ∧ ¬ [0x24, 0x7B, 0x7B, 0x21] <:+: [0xFF] ∧
      parseString rejectAll [0xFF] = some (.ok [.staticResolver [utf8.RuneError]]) ∧
      utf8.ofRunes [utf8.RuneError] = [0xEF, 0xBF, 0xBD] :=
  ⟨by decide, by decide, rfl, by decide⟩

/-- C2 as amended: for every template, a Go string, that contains neither the bytes of
`$\x7b!` nor those of `$\x7b\x7b!`, `parse` succeeds, every resolver it produces is a static
resolver, and the outputs of the resolvers concatenated in order are the encoding of the
runes that `[]rune` makes of the template, for every message, index, `escaped` flag and
`legacy` flag.  That is the template itself exactly when the template is well-formed UTF-8,
the encoding of some text; otherwise each invalid byte has become U+FFFD. -/
theorem parseString_literal (pd : Type' M) (template : List Nat)
    (h1 : ¬ [0x24, 0x7B, 0x21] <:+: template)
    (h2 : ¬ [0x24, 0x7B, 0x7B, 0x21] <:+: template) :
    ∃ rs : List (resolver M), parseString pd template = some (.ok rs) ∧
      (∀ r ∈ rs, ∃ s, r = .staticResolver s) ∧
      (∀ (exec : query.Function M → query.FunctionContext M → Runes) (index : Int) (msg : M)
        (escaped legacy : Bool),
        (rs.map fun r =>
            utf8.ofRunes (r.ResolveString exec index msg escaped legacy)).flatten =
          utf8.ofRunes (utf8.toRunes template)) ∧
      (utf8.ofRunes (utf8.toRunes template) = template ↔
        ∃ text : Runes, template = utf8.ofRunes text) := by
  have g1 : ¬ ['$', '{', '!'] <:+: utf8.toRunes template := fun h =>
    h1 (templ.infix_toRunes ['$', '{', '!'] (by decide) template h)
  have g2 : ¬ ['$', '{', '{', '!'] <:+: utf8.toRunes template := fun h =>
    h2 (templ.infix_toRunes ['$', '{', '{', '!'] (by decide) template h)
  obtain ⟨rs, hrs, hstatic, hout⟩ := parse_literal_runes pd (utf8.toRunes template) g1 g2
  refine ⟨rs, hrs, hstatic, ?_, ?_⟩
  · intro exec index msg escaped legacy
    rw [← hout exec index msg escaped legacy, templ.ofRunes_flatten, List.map_map]
    rfl
  · constructor
    · intro h
      exact ⟨utf8.toRunes template, h.symm⟩
    · rintro ⟨text, rfl⟩
      rw [templ.toRunes_ofRunes]

/-- The template `a $ $\x7bn} é`, well-formed UTF-8, is passed through unchanged. -/
theorem parseString_literal_witness :
    ¬ [0x24, 0x7B, 0x21] <:+: [0x61, 0x20, 0x24, 0x20, 0x24, 0x7B, 0x6E, 0x7D, 0x20, 0xC3, 0xA9] ∧
      ¬ [0x24, 0x7B, 0x7B, 0x21] <:+:
        [0x61, 0x20, 0x24, 0x20, 0x24, 0x7B, 0x6E, 0x7D, 0x20, 0xC3, 0xA9] ∧
      ∃ rs : List (resolver Unit),
        parseString rejectAll [0x61, 0x20, 0x24, 0x20, 0x24, 0x7B, 0x6E, 0x7D, 0x20, 0xC3, 0xA9] =
          some (.ok rs) ∧
        (rs.map fun r => utf8.ofRunes (r.ResolveString (fun _ _ => []) 0 () false false)).flatten =
          [0x61, 0x20, 0x24, 0x20, 0x24, 0x7B, 0x6E, 0x7D, 0x20, 0xC3, 0xA9] :=
  ⟨by decide, by decide,
    match parseString_literal rejectAll
      [0x61, 0x20, 0x24, 0x20, 0x24, 0x7B, 0x6E, 0x7D, 0x20, 0xC3, 0xA9] (by decide)
      (by decide) with
    | ⟨rs, hrs, _, hout, hiff⟩ =>
      ⟨rs, hrs, (hout (fun _ _ => []) 0 () false false).trans
        (hiff.mpr ⟨['a', ' ', '$', ' ', '$', '{', 'n', '}', ' ', 'é'], by decide⟩)⟩⟩

end field

end Benthos
